import Mathlib

/-!
Verification of the Sudoku constraint-satisfaction solver (AC-3 propagation
followed by heuristic backtracking search).

The development shallowly embeds the solver: the 9x9 board is a flat list of
81 cells in row-major order, the mutable `Game` object state is passed
explicitly, the wall clock read by the timeout check is an oracle parameter,
and the `TimeoutError` raised through the recursion is a dedicated result
constructor. The `Field` class is imported by the sources but its file is not
part of the repository, so its (trivial) accessors are modelled from the
design document; every definition modelled that way says so in its doc string.
-/

set_option maxHeartbeats 1600000
set_option maxRecDepth 10000

namespace SudokuCSP

/-- Modelled from the spec: the `Field` class (file `Field.py` is not among the
repository sources; only its users are). A cell holds `value` with `0` meaning
unassigned, and a candidate `domain` kept in ascending insertion order, the
order in which Python iterates a set of small integers. Given cells are
finalized with an empty domain, blanks carry the full domain 1..9. -/
structure Field where
  value : ℕ
  domain : List ℕ
deriving DecidableEq, Repr

instance : Inhabited Field := ⟨⟨0, []⟩⟩

/-- Modelled from the spec: `Field.is_finalized` holds when the value is not 0. -/
def Field.is_finalized (f : Field) : Bool := f.value ≠ 0

/-- Modelled from the spec: `Field.get_domain_size` is the domain cardinality. -/
def Field.get_domain_size (f : Field) : ℕ := f.domain.length

/-- Modelled from the spec: `Field.remove_from_domain` removes a value from the
domain and is a no-op when the value is absent. -/
def Field.remove_from_domain (f : Field) (v : ℕ) : Field :=
  { f with domain := f.domain.filter (fun w => w ≠ v) }

/-- The heuristic and preprocessing flags of `Game.__init__`. The `feedback`
flag only controls printing and is omitted. -/
structure Config where
  enable_preprocessing : Bool
  use_mrv_ac3 : Bool
  use_degree_ac3 : Bool
  use_mrv_backtracking : Bool
  use_degree_backtracking : Bool

/-- The mutable state of a `Game` object: the 81-cell row-major board together
with the instrumentation counters set up in `Game.__init__`. -/
structure GState where
  board : List Field
  recursive_calls : ℕ
  constraint_checks : ℕ
  domain_reductions : ℕ
  assignments : ℕ
  empty_cells : ℕ
deriving DecidableEq, Repr

/-- Cell at flat index `i` (row-major, `i = 9 * row + col`). -/
def GState.cell (s : GState) (i : ℕ) : Field := s.board.getD i default

/-- Replace the cell at index `i`. -/
def GState.setCell (s : GState) (i : ℕ) (f : Field) : GState :=
  { s with board := s.board.set i f }

/-- Modelled from the spec: `Field.set_value` stores the value (0 means
unassign) and restores no previously removed domain values. -/
def GState.set_value (s : GState) (i v : ℕ) : GState :=
  s.setCell i { s.cell i with value := v }

/-- The peer relation built by `Sudoku.add_neighbours`, on row-major flat
indices: two distinct positions of the 9x9 grid sharing a row, a column or a
3x3 subgrid. -/
def isNbr (i j : ℕ) : Bool :=
  decide (i < 81) && decide (j < 81) && decide (i ≠ j) &&
    (decide (i / 9 = j / 9) || decide (i % 9 = j % 9) ||
      (decide (i / 9 / 3 = j / 9 / 3) && decide (i % 9 / 3 = j % 9 / 3)))

/-- Canonical neighbour enumeration, in ascending index order.
`Sudoku.add_neighbours` stores `list(set(...))`, whose element order Python
does not specify; the solver definitions below are parametrised over the
enumeration `nb`, and this list is the canonical representative. -/
def sudokuNbrs (i : ℕ) : List ℕ := (List.range 81).filter (fun j => isNbr i j)

/-- A neighbour enumeration is valid when, for each cell of the grid, it lists
exactly the peers of that cell in some duplicate-free order: this is the
guarantee `list(set(...))` gives. -/
def ValidNbrs (nb : ℕ → List ℕ) : Prop :=
  ∀ i < 81, List.Perm (nb i) (sudokuNbrs i)

/-- Modelled from the spec: `Field()` for a blank creates an unassigned cell
with the full domain 1..9, `Field(v)` a finalized cell with an empty domain
(`Sudoku.read_sudoku` branches on the parsed digit). -/
def mkField (v : ℕ) : Field :=
  if v = 0 then ⟨0, [1, 2, 3, 4, 5, 6, 7, 8, 9]⟩ else ⟨v, []⟩

/-- Board construction from a parsed grid of digits (0 = blank). -/
def mkBoard (grid : List ℕ) : List Field := grid.map mkField

/-- The inner removal loop of `Game.preprocess_constraints` for one finalized
source value `vj`, over the neighbour list `ns`. -/
def ppInner (vj : ℕ) (ns : List ℕ) (u : GState) : GState :=
  ns.foldl (fun u n =>
    if (u.cell n).is_finalized then u
    else u.setCell n ((u.cell n).remove_from_domain vj)) u

/-- One outer iteration of `Game.preprocess_constraints` for the field at
index `j`: when it is finalized, remove its value from the domain of every
unfinalized neighbour. -/
def preprocessStep (nb : ℕ → List ℕ) (t : GState) (j : ℕ) : GState :=
  if (t.cell j).is_finalized then ppInner (t.cell j).value (nb j) t
  else t

/-- `Game.preprocess_constraints`: the one-shot pass over all 81 fields in
row-major order. -/
def preprocess_constraints (nb : ℕ → List ℕ) (s : GState) : GState :=
  (List.range 81).foldl (preprocessStep nb) s

/-- The game state right after the counter initialisation of `Game.__init__`,
before the optional preprocessing pass: fresh counters and the empty-cell
count taken on the initial board. -/
def initState (grid : List ℕ) : GState :=
  { board := mkBoard grid, recursive_calls := 0, constraint_checks := 0,
    domain_reductions := 0, assignments := 0,
    empty_cells := (mkBoard grid).countP (fun f => !f.is_finalized) }

/-- `Game.__init__`: build the state from a parsed grid, count the empty cells
before anything runs, then optionally apply the preprocessing pass. -/
def mkGame (nb : ℕ → List ℕ) (cfg : Config) (grid : List ℕ) : GState :=
  if cfg.enable_preprocessing then preprocess_constraints nb (initState grid)
  else initState grid

/-- `Game.revise`: when `xi` is unfinalized and `xj` is finalized with a value
still in the domain of `xi`, remove it and count the reduction; the flag says
whether the domain was revised. -/
def revise (s : GState) (i j : ℕ) : Bool × GState :=
  if (s.cell i).is_finalized then (false, s)
  else if (s.cell j).is_finalized && decide ((s.cell j).value ∈ (s.cell i).domain) then
    (true,
      { s with
        board := s.board.set i ((s.cell i).remove_from_domain (s.cell j).value),
        domain_reductions := s.domain_reductions + 1 })
  else (false, s)

/-- Number of unfinalized neighbours of cell `i`: the key used by both degree
heuristics. -/
def unfinalizedNbrCount (nb : ℕ → List ℕ) (s : GState) (i : ℕ) : ℕ :=
  ((nb i).filter (fun n => !(s.cell n).is_finalized)).length

/-- Stable ascending sort by key: the Python built-in `sorted(l, key=k)`. -/
def pySortByAsc (k : ℕ → ℕ) (l : List ℕ) : List ℕ :=
  l.mergeSort (fun a b => decide (k a ≤ k b))

/-- Stable descending sort by key: `sorted(l, key=k, reverse=True)`; elements
with equal keys keep their relative order. -/
def pySortByDesc (k : ℕ → ℕ) (l : List ℕ) : List ℕ :=
  l.mergeSort (fun a b => decide (k b ≤ k a))

/-- Modelled from the spec: `Field.get_other_neighbours(xj)` lists the
neighbours other than `xj` in enumeration order (`Field.py` is not among the
repository sources; the spec re-enqueues every arc towards a neighbour other
than `xj`). -/
def otherNbrs (nb : ℕ → List ℕ) (i j : ℕ) : List ℕ :=
  (nb i).filter (fun n => n ≠ j)

/-- An ordered arc of the AC-3 worklist. -/
abbrev Arc := ℕ × ℕ

/-- The neighbours re-enqueued after a successful revision of cell `i`
against `j` (lines 54-63 of `Game.ac3`): the other neighbours of `i`, sorted
ascending by domain size when the MRV heuristic is on, then stably sorted
descending by unfinalized-neighbour count when the degree heuristic is on. -/
def reenqueueList (nb : ℕ → List ℕ) (cfg : Config) (t : GState)
    (i j : ℕ) : List ℕ :=
  let ns := otherNbrs nb i j
  let ns := if cfg.use_mrv_ac3 then
      pySortByAsc (fun n => (t.cell n).get_domain_size) ns else ns
  if cfg.use_degree_ac3 then pySortByDesc (unfinalizedNbrCount nb t) ns else ns

/-- The worklist loop of `Game.ac3`, with explicit fuel (sufficiency of the
fuel chosen by `ac3` is proved separately): pop an arc, revise, return failure
on a domain wipeout, and otherwise re-enqueue the heuristically ordered arcs
towards the revised cell. `none` means the fuel ran out. -/
def ac3Loop (nb : ℕ → List ℕ) (cfg : Config) :
    ℕ → List Arc → GState → Option (Bool × GState)
  | 0, _, _ => none
  | _ + 1, [], s => some (true, s)
  | fuel + 1, (i, j) :: q, s =>
    let r := revise s i j
    if r.1 then
      if (r.2.cell i).get_domain_size = 0 then some (false, r.2)
      else
        ac3Loop nb cfg fuel
          (q ++ (reenqueueList nb cfg r.2 i j).map (fun k => (k, i))) r.2
    else ac3Loop nb cfg fuel q r.2

/-- The initial worklist of `Game.ac3`: every arc `(field, neighbour)` in
board order. -/
def initialQueue (nb : ℕ → List ℕ) : List Arc :=
  (List.range 81).flatMap (fun i => (nb i).map (fun j => (i, j)))

/-- Total number of candidate values left on the board. -/
def totalDomSize (s : GState) : ℕ :=
  (s.board.map (fun f => f.domain.length)).sum

/-- Fuel that provably drains the AC-3 worklist: every iteration pops one arc,
and an iteration that revises shrinks the total domain size while enqueueing
at most 20 arcs. -/
def ac3Fuel (nb : ℕ → List ℕ) (s : GState) : ℕ :=
  (initialQueue nb).length + 21 * totalDomSize s + 1

/-- `Game.ac3`: rebuild the full arc queue and drain it. -/
def ac3 (nb : ℕ → List ℕ) (cfg : Config) (s : GState) : Option (Bool × GState) :=
  ac3Loop nb cfg (ac3Fuel nb s) (initialQueue nb) s

/-- `Game.get_unassigned_fields`: the unfinalized cells in row-major order. -/
def get_unassigned_fields (s : GState) : List ℕ :=
  (List.range 81).filter (fun i => !(s.cell i).is_finalized)

/-- The Python built-in `min(xs, key=k)`: the first element with minimal key
(on the empty list Python raises; the solver never calls it on one). -/
def pyMinBy (k : ℕ → ℕ) : List ℕ → ℕ
  | [] => 0
  | x :: xs => xs.foldl (fun b a => if k a < k b then a else b) x

/-- The Python built-in `max(xs, key=k)`: the first element with maximal key. -/
def pyMaxBy (k : ℕ → ℕ) : List ℕ → ℕ
  | [] => 0
  | x :: xs => xs.foldl (fun b a => if k b < k a then a else b) x

/-- Variable selection of `Game.backtracking_search` (lines 81-87): start from
the first unassigned cell, replace it by the MRV pick when that flag is on,
and when the degree flag is on pick, among the unassigned cells whose domain
size equals that of the current pick, the first one with the most unfinalized
neighbours. -/
def selectField (nb : ℕ → List ℕ) (cfg : Config) (s : GState)
    (unassigned : List ℕ) : ℕ :=
  let field := unassigned.headD 0
  let field := if cfg.use_mrv_backtracking then
      pyMinBy (fun f => (s.cell f).get_domain_size) unassigned else field
  if cfg.use_degree_backtracking then
    let min_domain_size := (s.cell field).get_domain_size
    let candidates :=
      unassigned.filter (fun f => (s.cell f).get_domain_size == min_domain_size)
    pyMaxBy (unfinalizedNbrCount nb s) candidates
  else field

/-- The neighbour scan of `Game.is_consistent`: count one constraint check per
neighbour visited and fail on the first finalized neighbour holding `value`. -/
def icLoop (s : GState) (value : ℕ) : List ℕ → Bool × GState
  | [] => (true, s)
  | n :: ns =>
    let s1 : GState := { s with constraint_checks := s.constraint_checks + 1 }
    if (s1.cell n).is_finalized && (s1.cell n).value == value then (false, s1)
    else icLoop s1 value ns

/-- `Game.is_consistent`: scan the neighbours of `field`. -/
def is_consistent (nb : ℕ → List ℕ) (s : GState) (field value : ℕ) :
    Bool × GState :=
  icLoop s value (nb field)

/-- The timeout poll of `Game.backtracking_search` line 75: Python evaluates
`self.timeout and (time.time() - self.start_time) > self.timeout`. The wall
clock is abstracted as the oracle `elapsed`, giving the elapsed time observed
by the n-th recursive call; `timeout = 0` models a falsy timeout. -/
def timeoutHit (elapsed : ℕ → ℕ) (timeout : ℕ) (n : ℕ) : Bool :=
  decide (timeout ≠ 0) && decide (elapsed n > timeout)

/-- Outcome of the recursive search: a normal boolean return with the final
object state, or a `TimeoutError` propagating through every recursive level,
carrying the object state at the abort point. -/
inductive BResult where
  | done (solved : Bool) (s : GState)
  | timedOut (s : GState)
deriving DecidableEq, Repr

/-- The object state a search result carries (final state of a normal return,
or the state at the abort point of a timeout). -/
def BResult.state : BResult → GState
  | .done _ s => s
  | .timedOut s => s

/-- What a search never touches: the domains, the empty-cell count, the
domain-reduction counter and the board size. -/
def BtFrame (s t : GState) : Prop :=
  (∀ i, (t.cell i).domain = (s.cell i).domain) ∧
  t.empty_cells = s.empty_cells ∧
  t.domain_reductions = s.domain_reductions ∧
  t.board.length = s.board.length

/-- The value loop of `Game.backtracking_search` (lines 89-97): try each
candidate value of the selected field in domain order; `recur` is the search
one recursion level deeper. -/
def tryValues (nb : ℕ → List ℕ) (recur : GState → BResult) (field : ℕ) :
    List ℕ → GState → BResult
  | [], s => .done false s
  | v :: vs, s =>
    let s1 : GState := { s with constraint_checks := s.constraint_checks + 1 }
    let ic := is_consistent nb s1 field v
    if ic.1 then
      let s2 := ic.2.set_value field v
      let s2 : GState := { s2 with assignments := s2.assignments + 1 }
      match recur s2 with
      | .done true s3 => .done true s3
      | .done false s3 => tryValues nb recur field vs (s3.set_value field 0)
      | .timedOut s3 => .timedOut s3
    else tryValues nb recur field vs ic.2

/-- `Game.backtracking_search`, with fuel bounding the recursion depth. Each
recursive call strictly decreases the number of unassigned cells, so fuel 82
suffices on a 9x9 board; the fuel-exhaustion branch is unreachable there and
modelled as the abort constructor. -/
def backtracking_search (nb : ℕ → List ℕ) (cfg : Config) (elapsed : ℕ → ℕ)
    (timeout : ℕ) : ℕ → GState → BResult
  | 0, s => .timedOut s
  | fuel + 1, s =>
    let s1 : GState := { s with recursive_calls := s.recursive_calls + 1 }
    if timeoutHit elapsed timeout s1.recursive_calls then .timedOut s1
    else
      let unassigned := get_unassigned_fields s1
      if unassigned.isEmpty then .done true s1
      else
        let field := selectField nb cfg s1 unassigned
        tryValues nb (fun t => backtracking_search nb cfg elapsed timeout fuel t)
          field (s1.cell field).domain s1

/-- `Game.is_fully_assigned`. -/
def is_fully_assigned (s : GState) : Bool := s.board.all (fun f => f.is_finalized)

/-- `Game.solve`: run AC-3, report failure on wipeout, report success when the
board is already fully assigned, otherwise run the backtracking search. The
unreachable fuel-exhaustion branch of `ac3` maps to a failed solve. -/
def solve (nb : ℕ → List ℕ) (cfg : Config) (elapsed : ℕ → ℕ) (timeout : ℕ)
    (s : GState) : BResult :=
  match ac3 nb cfg s with
  | none => .done false s
  | some (false, s1) => .done false s1
  | some (true, s1) =>
    if is_fully_assigned s1 then .done true s1
    else backtracking_search nb cfg elapsed timeout 82 s1

/-- The fields of the result record assembled by `App.solve_sudoku` that the
claims are about; `none` stands for the string "N/A". -/
structure AppResult where
  solved : Bool
  empty_cells : ℕ
  constraint_checks : ℕ
  complexity : Option ℚ
deriving DecidableEq, Repr

/-- `App.solve_sudoku`: build the game with preprocessing disabled, run
`Game.solve` with its default 20-second timeout catching `TimeoutError`
(`solved` stays false then), flip `solved` to false when the observed wall
time `wall` exceeds 20, and derive the complexity metric guarded by the
zero-empty-cells test. -/
def solve_sudoku (nb : ℕ → List ℕ) (cfg : Config) (elapsed : ℕ → ℕ)
    (wall : ℕ) (grid : List ℕ) : AppResult :=
  let game := mkGame nb { cfg with enable_preprocessing := false } grid
  let r := solve nb cfg elapsed 20 game
  let solvedRaw := match r with
    | .done b _ => b
    | .timedOut _ => false
  let solved := if wall > 20 then false else solvedRaw
  let final := match r with
    | .done _ t => t
    | .timedOut t => t
  { solved := solved
    empty_cells := final.empty_cells
    constraint_checks := final.constraint_checks
    complexity := if final.empty_cells > 0 then
        some ((final.constraint_checks : ℚ) / (final.empty_cells : ℚ))
      else none }

/-- Nonzero values of a list of cells, in order: the comprehension
`[f.get_value() for f in cells if f.get_value() != 0]`. -/
def nonzeroValues (l : List Field) : List ℕ :=
  (l.map (fun f => f.value)).filter (fun v => v ≠ 0)

/-- Row `r` of the board as the list of its cells. -/
def rowCells (s : GState) (r : ℕ) : List Field :=
  (List.range 9).map (fun c => s.cell (9 * r + c))

/-- Column `c` of the board as the list of its cells. -/
def colCells (s : GState) (c : ℕ) : List Field :=
  (List.range 9).map (fun r => s.cell (9 * r + c))

/-- Box `(br, bc)` of the board as the list of its cells, row-major within the
box, matching the two inner loops of `Game.valid_solution`. -/
def boxCells (s : GState) (br bc : ℕ) : List Field :=
  (List.range 3).flatMap (fun r =>
    (List.range 3).map (fun c => s.cell (9 * (3 * br + r) + (3 * bc + c))))

/-- The duplicate test of `Game.valid_solution`: Python compares the length of
the value list with the size of its set. -/
def noDup (values : List ℕ) : Bool := values.dedup.length == values.length

/-- `Game.valid_solution`: every row, every column and every 3x3 box must have
no duplicate among its nonzero values. -/
def valid_solution (s : GState) : Bool :=
  ((List.range 9).all (fun r => noDup (nonzeroValues (rowCells s r)))) &&
  ((List.range 9).all (fun c => noDup (nonzeroValues (colCells s c)))) &&
  ((List.range 3).all (fun br =>
    (List.range 3).all (fun bc => noDup (nonzeroValues (boxCells s br bc)))))

/-! Specification-side predicates the claims quantify over. -/

/-- No two peer cells hold the same nonzero value: the positional reading of
the Sudoku validity rule. -/
def NoConflicts (s : GState) : Prop :=
  ∀ i j, isNbr i j = true →
    (s.cell i).value = 0 ∨ (s.cell i).value ≠ (s.cell j).value

/-- Each value 1..9 appears at most once among the cells of every row, every
column and every 3x3 box: the counting reading of the validity rule used by
claim C6. -/
def AtMostOncePerUnit (s : GState) : Prop :=
  ∀ v, 1 ≤ v → v ≤ 9 →
    (∀ r < 9, (rowCells s r).countP (fun f => f.value == v) ≤ 1) ∧
    (∀ c < 9, (colCells s c).countP (fun f => f.value == v) ≤ 1) ∧
    (∀ br < 3, ∀ bc < 3, (boxCells s br bc).countP (fun f => f.value == v) ≤ 1)

/-- A complete Sudoku solution as a flat list of 81 digits: right length,
digits 1..9, and distinct values on every pair of peers. -/
def ProperSol (sol : List ℕ) : Prop :=
  sol.length = 81 ∧ (∀ i < 81, 1 ≤ sol.getD i 0 ∧ sol.getD i 0 ≤ 9) ∧
  ∀ i < 81, ∀ j ∈ sudokuNbrs i, sol.getD i 0 ≠ sol.getD j 0

/-- `sol` solves the puzzle `grid`: it is a proper solution extending the
given digits of the grid. -/
def IsSolutionOf (grid sol : List ℕ) : Prop :=
  ProperSol sol ∧ grid.length = 81 ∧
  ∀ i < 81, grid.getD i 0 ≠ 0 → grid.getD i 0 = sol.getD i 0

/-- The initial grid passes `Game.valid_solution` (a valid puzzle). -/
def ValidGrid (grid : List ℕ) : Prop := valid_solution (initState grid) = true

/-- The digits of a parsed grid are in range and the grid is 9x9. -/
def WellFormedGrid (grid : List ℕ) : Prop :=
  grid.length = 81 ∧ ∀ v ∈ grid, v ≤ 9

/-- Unassigned cells whose domain size is the minimum domain size over all the
unassigned cells: the candidate set claim C2 describes. -/
def minDomainCells (s : GState) (unassigned : List ℕ) : List ℕ :=
  unassigned.filter (fun f =>
    decide (∀ g ∈ unassigned, (s.cell f).get_domain_size ≤ (s.cell g).get_domain_size))

/-- Cell values, hence finalization statuses, coincide in the two states. -/
def ValuesEq (s t : GState) : Prop := ∀ i, (t.cell i).value = (s.cell i).value

/-- Every domain of `t` is an order-preserving shrink (sublist) of the
corresponding domain of `s`. -/
def DomShrink (s t : GState) : Prop :=
  ∀ i, (t.cell i).domain.Sublist (s.cell i).domain

/-- Domains of cells that are finalized in `s` are untouched in `t`. -/
def FinFrozen (s t : GState) : Prop :=
  ∀ i, (s.cell i).value ≠ 0 → (t.cell i).domain = (s.cell i).domain

/-- Every value that disappeared from a domain between `s` and `t` is held by
a finalized neighbour, per the enumeration `nb`, of that cell. -/
def RemWitness (nb : ℕ → List ℕ) (s t : GState) : Prop :=
  ∀ i v, v ∈ (s.cell i).domain → v ∉ (t.cell i).domain →
    ∃ j, j ∈ nb i ∧ (s.cell j).value = v ∧ (s.cell j).value ≠ 0

/-- Queue sanity: every queued arc either respects the enumeration `nb` or
points at an unfinalized cell (whose revision removes nothing). -/
def QOk (nb : ℕ → List ℕ) (s : GState) (q : List Arc) : Prop :=
  ∀ p ∈ q, p.2 ∈ nb p.1 ∨ (s.cell p.2).value = 0

/-- Counters and bookkeeping of `s` and `t` agree except possibly the
`domain_reductions` counter: everything AC-3 may touch besides domains. -/
def CountersExceptDr (s t : GState) : Prop :=
  t.recursive_calls = s.recursive_calls ∧
  t.constraint_checks = s.constraint_checks ∧
  t.assignments = s.assignments ∧ t.empty_cells = s.empty_cells ∧
  t.board.length = s.board.length

/-- The finalized cells of `s` agree with the solution `sol`. -/
def Agrees (s : GState) (sol : List ℕ) : Prop :=
  ∀ i < 81, (s.cell i).value ≠ 0 → (s.cell i).value = sol.getD i 0

/-- Every unassigned cell still has its solution value in its domain. -/
def DomOK (s : GState) (sol : List ℕ) : Prop :=
  ∀ i < 81, (s.cell i).value = 0 → sol.getD i 0 ∈ (s.cell i).domain

/-- No domain contains the unassign marker 0. -/
def DomPos (s : GState) : Prop := ∀ i, 0 ∉ (s.cell i).domain

/-- The conjunction of frame relations an AC-3 style pass guarantees between
its input and output states. -/
def AcRel (nb : ℕ → List ℕ) (s t : GState) : Prop :=
  ValuesEq s t ∧ DomShrink s t ∧ FinFrozen s t ∧ RemWitness nb s t ∧
    CountersExceptDr s t

/-- Some arc of the queue `q` targets, from cell `i`, a finalized cell
holding `v`: processing `q` removes `v` from the domain of `i`. -/
def excludedB (s : GState) (q : List Arc) (i v : ℕ) : Bool :=
  q.any (fun p => p.1 == i && (s.cell p.2).value == v && !((s.cell p.2).value == 0))

/-- Some finalized neighbour of `i`, per `nb`, holds `v`. -/
def nbrExcludedB (nb : ℕ → List ℕ) (s : GState) (i v : ℕ) : Bool :=
  (nb i).any (fun j => (s.cell j).value == v && !((s.cell j).value == 0))

/-- Some finalized cell `j` among the sources `js` has `i` among its
neighbours and holds `v`. -/
def srcExcludedB (nb : ℕ → List ℕ) (s : GState) (js : List ℕ) (i v : ℕ) : Bool :=
  js.any (fun j =>
    decide (i ∈ nb j) && ((s.cell j).value == v) && !((s.cell j).value == 0))

/-- Some finalized cell `j` of the grid has `i` among its neighbours and
holds `v`: the removals performed by the preprocessing pass. -/
def revExcludedB (nb : ℕ → List ℕ) (s : GState) (i v : ℕ) : Bool :=
  srcExcludedB nb s (List.range 81) i v

/-! Concrete boards and states used by the witnesses and counterexamples. -/

/-- Configuration with every optional flag off. -/
def cfgPlain : Config := ⟨false, false, false, false, false⟩

/-- Configuration enabling only the degree heuristic for backtracking. -/
def cfgDegreeBt : Config := ⟨false, false, false, false, true⟩

/-- A completely solved, valid Sudoku grid. -/
def fullGrid : List ℕ :=
  [5, 3, 4, 6, 7, 8, 9, 1, 2,
   6, 7, 2, 1, 9, 5, 3, 4, 8,
   1, 9, 8, 3, 4, 2, 5, 6, 7,
   8, 5, 9, 7, 6, 1, 4, 2, 3,
   4, 2, 6, 8, 5, 3, 7, 9, 1,
   7, 1, 3, 9, 2, 4, 8, 5, 6,
   9, 6, 1, 5, 3, 7, 2, 8, 4,
   2, 8, 7, 4, 1, 9, 6, 3, 5,
   3, 4, 5, 2, 8, 6, 1, 7, 9]

/-- A grid whose first two cells are blank and whose other 79 cells all hold
the digit 5 (grids fed to the solver need not be valid puzzles). -/
def gridTwoBlank : List ℕ := 0 :: 0 :: List.replicate 79 5

/-- A grid whose first two cells are blank and whose other 79 cells all hold
the out-of-range value 17: no AC-3 revision ever fires on it, while the
backtracking search still runs over the two blank cells. -/
def gridTwoBlank17 : List ℕ := 0 :: 0 :: List.replicate 79 17

/-- A grid blank at cells 2 and 3 whose other 79 cells hold 17. -/
def gridC5b : List ℕ := 17 :: 17 :: 0 :: 0 :: List.replicate 77 17

/-- A neighbour enumeration for a pair of timed-out runs: cell 1 is given the
neighbours 2, 3, 4 and then 0, cell 2 is given ten neighbours, and every
other cell none. -/
def nbC5 : ℕ → List ℕ := fun i =>
  if i = 1 then [2, 3, 4, 0]
  else if i = 2 then [10, 11, 12, 13, 14, 15, 16, 17, 18, 19]
  else []

/-- A clock observing 25 seconds from the third recursive call on. -/
def elapsedC5a : ℕ → ℕ := fun n => if 3 ≤ n then 25 else 0

/-- A clock observing 25 seconds from the second recursive call on. -/
def elapsedC5b : ℕ → ℕ := fun n => if 2 ≤ n then 25 else 0

/-- A second valid neighbour enumeration: identical to the canonical one
except that, for cell 1, the neighbour 0 is listed last instead of first.
Both orders are possible outcomes of the `list(set(...))` conversion in
`Sudoku.add_neighbours`. -/
def nbAlt : ℕ → List ℕ := fun i =>
  if i = 1 then (sudokuNbrs 1).filter (fun n => n ≠ 0) ++ [0] else sudokuNbrs i

/-- A grid with one blank cell whose 80 given cells all hold 5. -/
def gridOneBlank : List ℕ := 0 :: List.replicate 80 5

/-- A grid whose first cell is blank while its row holds 1..8 and the cell
below it holds 9: AC-3 wipes the domain of cell 0 out. -/
def gridWipeout : List ℕ :=
  [0, 1, 2, 3, 4, 5, 6, 7, 8] ++ [9] ++ List.replicate 71 0

/-- A board state where cell 0 is unassigned with domain of size 2 and cell 1
is unassigned with the strictly smaller domain of size 1, everything else
being finalized. -/
def stateC2 : GState :=
  { board := (List.range 81).map (fun i =>
      if i = 0 then ⟨0, [1, 2]⟩ else if i = 1 then ⟨0, [7]⟩ else ⟨5, []⟩),
    recursive_calls := 0, constraint_checks := 0, domain_reductions := 0,
    assignments := 0, empty_cells := 2 }

/-- A board state where revising cell 0 against its finalized neighbour 1
wipes its domain out immediately, while the unassigned cell 80 still has the
value of its finalized neighbour 79 in its domain. -/
def stateC10 : GState :=
  { board := (List.range 81).map (fun i =>
      if i = 0 then ⟨0, [5]⟩ else if i = 80 then ⟨0, [7]⟩
      else if i = 79 then ⟨7, []⟩ else ⟨5, []⟩),
    recursive_calls := 0, constraint_checks := 0, domain_reductions := 0,
    assignments := 0, empty_cells := 2 }

/-! Basic facts about cells, updates and the neighbour relation. -/

theorem cell_of_ge_length (s : GState) (i : ℕ) (h : s.board.length ≤ i) :
    s.cell i = default := by
  simp [GState.cell, List.getD_eq_getElem?_getD, List.getElem?_eq_none h]

theorem cell_setCell_ne (s : GState) (i j : ℕ) (f : Field) (h : j ≠ i) :
    (s.setCell i f).cell j = s.cell j := by
  simp [GState.setCell, GState.cell, List.getD_eq_getElem?_getD,
    List.getElem?_set_ne (Ne.symm h)]

theorem cell_setCell_self (s : GState) (i : ℕ) (f : Field)
    (h : i < s.board.length) : (s.setCell i f).cell i = f := by
  simp [GState.setCell, GState.cell, List.getD_eq_getElem?_getD,
    List.getElem?_set_self h]

theorem length_setCell (s : GState) (i : ℕ) (f : Field) :
    (s.setCell i f).board.length = s.board.length := by
  simp [GState.setCell]

theorem set_value_domain (s : GState) (i v j : ℕ) :
    ((s.set_value i v).cell j).domain = (s.cell j).domain := by
  by_cases hj : j = i
  · subst hj
    by_cases hi : j < s.board.length
    · rw [GState.set_value, cell_setCell_self _ _ _ hi]
    · rw [GState.set_value, GState.setCell, List.set_eq_of_length_le (by omega)]
  · rw [GState.set_value, cell_setCell_ne _ _ _ _ hj]

theorem set_value_value_self (s : GState) (i v : ℕ) (h : i < s.board.length) :
    ((s.set_value i v).cell i).value = v := by
  rw [GState.set_value, cell_setCell_self _ _ _ h]

theorem set_value_value_ne (s : GState) (i v j : ℕ) (h : j ≠ i) :
    (s.set_value i v).cell j = s.cell j := by
  rw [GState.set_value, cell_setCell_ne _ _ _ _ h]

theorem length_set_value (s : GState) (i v : ℕ) :
    (s.set_value i v).board.length = s.board.length := by
  rw [GState.set_value]; exact length_setCell _ _ _

theorem is_finalized_iff (f : Field) : f.is_finalized = true ↔ f.value ≠ 0 := by
  simp [Field.is_finalized]

theorem is_finalized_false_iff (f : Field) : f.is_finalized = false ↔ f.value = 0 := by
  simp [Field.is_finalized]

theorem isNbr_iff (i j : ℕ) : isNbr i j = true ↔
    i < 81 ∧ j < 81 ∧ i ≠ j ∧
      (i / 9 = j / 9 ∨ i % 9 = j % 9 ∨ (i / 9 / 3 = j / 9 / 3 ∧ i % 9 / 3 = j % 9 / 3)) := by
  simp [isNbr, Bool.and_eq_true, Bool.or_eq_true, decide_eq_true_eq, and_assoc,
    or_assoc]

theorem isNbr_symm (i j : ℕ) : isNbr i j = isNbr j i := by
  rw [Bool.eq_iff_iff, isNbr_iff, isNbr_iff]
  constructor
  · rintro ⟨h1, h2, h3, h4⟩
    exact ⟨h2, h1, Ne.symm h3, by omega⟩
  · rintro ⟨h1, h2, h3, h4⟩
    exact ⟨h2, h1, Ne.symm h3, by omega⟩

theorem mem_sudokuNbrs (i j : ℕ) : j ∈ sudokuNbrs i ↔ isNbr i j = true := by
  constructor
  · intro h
    exact (List.mem_filter.1 h).2
  · intro h
    exact List.mem_filter.2 ⟨List.mem_range.2 ((isNbr_iff i j).1 h).2.1, h⟩

theorem isNbr_lt (i j : ℕ) (h : isNbr i j = true) : i < 81 ∧ j < 81 ∧ i ≠ j :=
  ⟨((isNbr_iff i j).1 h).1, ((isNbr_iff i j).1 h).2.1, ((isNbr_iff i j).1 h).2.2.1⟩

theorem mem_initialQueue (nb : ℕ → List ℕ) (i j : ℕ) :
    (i, j) ∈ initialQueue nb ↔ i < 81 ∧ j ∈ nb i := by
  simp only [initialQueue, List.mem_flatMap, List.mem_map, List.mem_range]
  constructor
  · rintro ⟨a, ha, b, hb, hab⟩
    obtain ⟨rfl, rfl⟩ := Prod.mk.injEq .. ▸ hab
    exact ⟨ha, hb⟩
  · rintro ⟨hi, hj⟩
    exact ⟨i, hi, j, hj, rfl⟩

theorem mem_get_unassigned_fields (s : GState) (i : ℕ) :
    i ∈ get_unassigned_fields s ↔ i < 81 ∧ (s.cell i).value = 0 := by
  simp [get_unassigned_fields, List.mem_filter, List.mem_range, Field.is_finalized]

theorem ValidNbrs.mem_iff {nb : ℕ → List ℕ} (h : ValidNbrs nb) {i : ℕ}
    (hi : i < 81) (j : ℕ) : j ∈ nb i ↔ isNbr i j = true := by
  rw [← mem_sudokuNbrs]
  exact (h i hi).mem_iff

theorem ValidNbrs.mem_of_isNbr {nb : ℕ → List ℕ} (h : ValidNbrs nb) {i j : ℕ}
    (hij : isNbr i j = true) : j ∈ nb i :=
  (h.mem_iff (isNbr_lt i j hij).1 j).2 hij

theorem ValidNbrs.isNbr_of_mem {nb : ℕ → List ℕ} (h : ValidNbrs nb) {i j : ℕ}
    (hi : i < 81) (hj : j ∈ nb i) : isNbr i j = true :=
  (h.mem_iff hi j).1 hj

theorem sudokuNbrs_length_le (i : ℕ) : (sudokuNbrs i).length ≤ 20 := by
  by_cases hi : i < 81
  · revert hi
    revert i
    decide
  · have : sudokuNbrs i = [] := by
      apply List.filter_eq_nil_iff.2
      intro j _ hj
      exact absurd ((isNbr_iff i j).1 hj).1 hi
    simp [this]

theorem ValidNbrs.length_le {nb : ℕ → List ℕ} (h : ValidNbrs nb) {i : ℕ}
    (hi : i < 81) : (nb i).length ≤ 20 := by
  rw [(h i hi).length_eq]
  exact sudokuNbrs_length_le i

theorem validNbrs_sudokuNbrs : ValidNbrs sudokuNbrs := fun _ _ => List.Perm.refl _

/-! Facts about `revise`. -/

theorem remove_from_domain_value (f : Field) (v : ℕ) :
    (f.remove_from_domain v).value = f.value := rfl

theorem mem_remove_from_domain (f : Field) (v w : ℕ) :
    w ∈ (f.remove_from_domain v).domain ↔ w ∈ f.domain ∧ w ≠ v := by
  simp [Field.remove_from_domain]

theorem remove_from_domain_sublist (f : Field) (v : ℕ) :
    (f.remove_from_domain v).domain.Sublist f.domain :=
  List.filter_sublist f.domain

theorem lt_length_of_domain_mem (s : GState) (i : ℕ) {v : ℕ}
    (h : v ∈ (s.cell i).domain) : i < s.board.length := by
  by_contra hc
  rw [cell_of_ge_length s i (le_of_not_lt hc)] at h
  simp [default] at h

/-- Case analysis of `Game.revise`. -/
theorem revise_cases (s : GState) (i j : ℕ) :
    ((revise s i j).1 = false ∧ (revise s i j).2 = s) ∨
    ((revise s i j).1 = true ∧ (s.cell i).value = 0 ∧ (s.cell j).value ≠ 0 ∧
      (s.cell j).value ∈ (s.cell i).domain ∧
      (revise s i j).2 =
        { s with
          board := s.board.set i ((s.cell i).remove_from_domain (s.cell j).value),
          domain_reductions := s.domain_reductions + 1 }) := by
  unfold revise
  split_ifs with h1 h2
  · exact Or.inl ⟨rfl, rfl⟩
  · rw [Bool.and_eq_true, decide_eq_true_eq, is_finalized_iff] at h2
    have hi0 : (s.cell i).value = 0 :=
      (is_finalized_false_iff (s.cell i)).1 (Bool.eq_false_iff.2 h1)
    exact Or.inr ⟨rfl, hi0, h2.1, h2.2, rfl⟩
  · exact Or.inl ⟨rfl, rfl⟩

/-- The state produced by a successful revision, cell by cell. -/
theorem revise_true_cell (s : GState) (i j k : ℕ) (h : (revise s i j).1 = true) :
    (revise s i j).2.cell k =
      if k = i then (s.cell i).remove_from_domain (s.cell j).value
      else s.cell k := by
  rcases revise_cases s i j with ⟨hf, _⟩ | ⟨_, _, _, hmem, hst⟩
  · rw [hf] at h; cases h
  · rw [hst]
    by_cases hk : k = i
    · subst hk
      have hlt : k < s.board.length := lt_length_of_domain_mem s k hmem
      simp only [if_pos rfl]
      show ({ s with
          board := s.board.set k ((s.cell k).remove_from_domain (s.cell j).value),
          domain_reductions := s.domain_reductions + 1 } : GState).cell k = _
      simp [GState.cell, List.getD_eq_getElem?_getD, List.getElem?_set_self hlt]
    · simp only [if_neg hk]
      show ({ s with
          board := s.board.set i ((s.cell i).remove_from_domain (s.cell j).value),
          domain_reductions := s.domain_reductions + 1 } : GState).cell k = _
      simp [GState.cell, List.getD_eq_getElem?_getD,
        List.getElem?_set_ne (fun he => hk he.symm)]

theorem revise_counters (s : GState) (i j : ℕ) :
    CountersExceptDr s (revise s i j).2 := by
  rcases revise_cases s i j with ⟨_, hst⟩ | ⟨_, _, _, _, hst⟩ <;>
    rw [hst] <;> exact ⟨rfl, rfl, rfl, rfl, by simp⟩

theorem revise_values (s : GState) (i j : ℕ) : ValuesEq s (revise s i j).2 := by
  intro k
  rcases revise_cases s i j with ⟨_, hst⟩ | ⟨ht, _, _, _, _⟩
  · rw [hst]
  · rw [revise_true_cell s i j k ht]
    by_cases hk : k = i
    · subst hk; rw [if_pos rfl, remove_from_domain_value]
    · rw [if_neg hk]

theorem revise_domshrink (s : GState) (i j : ℕ) : DomShrink s (revise s i j).2 := by
  intro k
  rcases revise_cases s i j with ⟨_, hst⟩ | ⟨ht, _, _, _, _⟩
  · rw [hst]
  · rw [revise_true_cell s i j k ht]
    by_cases hk : k = i
    · subst hk; rw [if_pos rfl]; exact remove_from_domain_sublist _ _
    · rw [if_neg hk]

theorem revise_finfrozen (s : GState) (i j : ℕ) : FinFrozen s (revise s i j).2 := by
  intro k hk
  rcases revise_cases s i j with ⟨_, hst⟩ | ⟨ht, hi0, _, _, _⟩
  · rw [hst]
  · rw [revise_true_cell s i j k ht]
    by_cases hki : k = i
    · subst hki; exact absurd hi0 hk
    · rw [if_neg hki]

theorem acRel_refl (nb : ℕ → List ℕ) (s : GState) : AcRel nb s s :=
  ⟨fun _ => rfl, fun _ => List.Sublist.refl _, fun _ _ => rfl,
    fun _ _ hv hnv => absurd hv hnv, rfl, rfl, rfl, rfl, rfl⟩

theorem AcRel.trans {nb : ℕ → List ℕ} {s s1 t : GState}
    (h1 : AcRel nb s s1) (h2 : AcRel nb s1 t) : AcRel nb s t := by
  obtain ⟨h1v, h1d, h1f, h1r, h1c⟩ := h1
  obtain ⟨h2v, h2d, h2f, h2r, h2c⟩ := h2
  refine ⟨fun k => (h2v k).trans (h1v k),
    fun k => (h2d k).trans (h1d k), ?_, ?_, ?_⟩
  · intro k hk
    rw [h2f k (by rw [h1v k]; exact hk), h1f k hk]
  · intro k v hv hnv
    by_cases hmid : v ∈ (s1.cell k).domain
    · obtain ⟨j, hj, hval, hne⟩ := h2r k v hmid hnv
      exact ⟨j, hj, (h1v j).symm.trans hval, by rw [← h1v j]; exact hne⟩
    · exact h1r k v hv hmid
  · obtain ⟨a1, b1, c1, d1, e1⟩ := h1c
    obtain ⟨a2, b2, c2, d2, e2⟩ := h2c
    exact ⟨a2.trans a1, b2.trans b1, c2.trans c1, d2.trans d1, e2.trans e1⟩

/-- A single revision along a sane arc satisfies the frame relations. -/
theorem revise_acRel (nb : ℕ → List ℕ) (s : GState) (i j : ℕ)
    (hq : j ∈ nb i ∨ (s.cell j).value = 0) : AcRel nb s (revise s i j).2 := by
  refine ⟨revise_values s i j, revise_domshrink s i j, revise_finfrozen s i j,
    ?_, revise_counters s i j⟩
  intro k v hv hnv
  rcases revise_cases s i j with ⟨_, hst⟩ | ⟨ht, _, hj0, _, _⟩
  · rw [hst] at hnv; exact absurd hv hnv
  · rw [revise_true_cell s i j k ht] at hnv
    by_cases hk : k = i
    · subst hk
      rw [if_pos rfl, mem_remove_from_domain] at hnv
      have hveq : v = (s.cell j).value := by
        by_contra hne
        exact hnv ⟨hv, hne⟩
      rcases hq with hmem | h0
      · exact ⟨j, hmem, hveq.symm, hj0⟩
      · exact absurd h0 hj0
    · rw [if_neg hk] at hnv
      exact absurd hv hnv

/-- The frame invariant of the AC-3 worklist loop: values never change, the
domains only shrink, finalized cells keep their domains, every removed value
has a finalized neighbour holding it, and no counter except
`domain_reductions` moves. -/
theorem ac3Loop_acRel (nb : ℕ → List ℕ) (cfg : Config) :
    ∀ fuel q s b t, QOk nb s q → ac3Loop nb cfg fuel q s = some (b, t) →
      AcRel nb s t := by
  intro fuel
  induction fuel with
  | zero => intro q s b t _ h; simp [ac3Loop] at h
  | succ fuel ih =>
    intro q s b t hq hrun
    match q with
    | [] =>
      simp only [ac3Loop, Option.some.injEq, Prod.mk.injEq] at hrun
      rw [← hrun.2]
      exact acRel_refl nb s
    | (i, j) :: q' =>
      simp only [ac3Loop] at hrun
      have hstep : AcRel nb s (revise s i j).2 :=
        revise_acRel nb s i j (hq (i, j) (List.mem_cons_self _ _))
      by_cases hr : (revise s i j).1 = true
      · rw [if_pos hr] at hrun
        by_cases hd : ((revise s i j).2.cell i).get_domain_size = 0
        · rw [if_pos hd] at hrun
          simp only [Option.some.injEq, Prod.mk.injEq] at hrun
          rw [← hrun.2]
          exact hstep
        · rw [if_neg hd] at hrun
          refine hstep.trans (ih _ _ _ _ ?_ hrun)
          intro p hp
          rcases List.mem_append.1 hp with hp' | hp'
          · rcases hq p (List.mem_cons_of_mem _ hp') with hm | h0
            · exact Or.inl hm
            · exact Or.inr (by rw [(hstep.1 p.2)]; exact h0)
          · obtain ⟨k, _, hpk⟩ := List.mem_map.1 hp'
            have hp2 : p.2 = i := by rw [← hpk]
            rw [hp2]
            rcases revise_cases s i j with ⟨hf, _⟩ | ⟨_, hi0, _, _, _⟩
            · rw [hf] at hr; cases hr
            · exact Or.inr (by rw [hstep.1 i]; exact hi0)
      · rw [if_neg hr] at hrun
        have hs : (revise s i j).2 = s := by
          rcases revise_cases s i j with ⟨_, hst⟩ | ⟨ht, _⟩
          · exact hst
          · exact absurd ht hr
        rw [hs] at hrun
        exact ih _ _ _ _ (fun p hp => hq p (List.mem_cons_of_mem _ hp)) hrun

/-! Termination of the AC-3 worklist: the chosen fuel suffices. -/

theorem sum_map_set_lt :
    ∀ (l : List Field) (i : ℕ) (f : Field), i < l.length →
      f.domain.length < (l.getD i default).domain.length →
      ((l.set i f).map (fun g => g.domain.length)).sum <
        (l.map (fun g => g.domain.length)).sum := by
  intro l
  induction l with
  | nil => intro i f h; simp at h
  | cons a l ihl =>
    intro i f hi hlt
    match i with
    | 0 =>
      simp only [List.set, List.map_cons, List.sum_cons]
      exact Nat.add_lt_add_right (by simpa using hlt) _
    | i + 1 =>
      simp only [List.set, List.map_cons, List.sum_cons]
      exact Nat.add_lt_add_left
        (ihl i f (by simpa using hi) (by simpa using hlt)) _

theorem revise_true_totalDom (s : GState) (i j : ℕ)
    (h : (revise s i j).1 = true) :
    totalDomSize (revise s i j).2 < totalDomSize s := by
  rcases revise_cases s i j with ⟨hf, _⟩ | ⟨_, _, _, hmem, hst⟩
  · rw [hf] at h; cases h
  · rw [hst]
    have hlt : i < s.board.length := lt_length_of_domain_mem s i hmem
    apply sum_map_set_lt s.board i _ hlt
    show ((s.cell i).remove_from_domain (s.cell j).value).domain.length <
      (s.cell i).domain.length
    rw [Field.remove_from_domain]
    exact List.length_filter_lt_length_iff_exists.2
      ⟨(s.cell j).value, hmem, by simp⟩

theorem reenqueue_length_le (nb : ℕ → List ℕ) (cfg : Config) (t : GState)
    (i j : ℕ) :
    ((reenqueueList nb cfg t i j).map (fun k => (k, i))).length ≤
      (nb i).length := by
  simp only [List.length_map, reenqueueList]
  have h0 : (otherNbrs nb i j).length ≤ (nb i).length :=
    (List.filter_sublist _).length_le
  by_cases h1 : cfg.use_mrv_ac3 <;> by_cases h2 : cfg.use_degree_ac3 <;>
    simp [h1, h2, pySortByAsc, pySortByDesc, List.length_mergeSort, h0]

theorem ac3Loop_isSome (nb : ℕ → List ℕ) (cfg : Config)
    (hnb : ∀ i < 81, (nb i).length ≤ 20) :
    ∀ fuel q s, s.board.length ≤ 81 →
      q.length + 21 * totalDomSize s < fuel →
      (ac3Loop nb cfg fuel q s).isSome = true := by
  intro fuel
  induction fuel with
  | zero => intro q s _ h; omega
  | succ fuel ih =>
    intro q s hb hfuel
    match q with
    | [] => simp [ac3Loop]
    | (i, j) :: q' =>
      simp only [ac3Loop]
      by_cases hr : (revise s i j).1 = true
      · rw [if_pos hr]
        by_cases hd : ((revise s i j).2.cell i).get_domain_size = 0
        · rw [if_pos hd]; rfl
        · rw [if_neg hd]
          have hi81 : i < 81 := by
            rcases revise_cases s i j with ⟨hf, _⟩ | ⟨_, _, _, hmem, _⟩
            · rw [hf] at hr; cases hr
            · exact lt_of_lt_of_le (lt_length_of_domain_mem s i hmem) hb
          have htd : totalDomSize (revise s i j).2 < totalDomSize s :=
            revise_true_totalDom s i j hr
          have hlen : (revise s i j).2.board.length ≤ 81 := by
            rcases revise_cases s i j with ⟨_, hst⟩ | ⟨_, _, _, _, hst⟩ <;>
              rw [hst] <;> simpa using hb
          apply ih _ _ hlen
          have hre := reenqueue_length_le nb cfg (revise s i j).2 i j
          simp only [List.length_append] at *
          have h20 := hnb i hi81
          simp only [List.length_cons] at hfuel
          omega
      · rw [if_neg hr]
        have hs : (revise s i j).2 = s := by
          rcases revise_cases s i j with ⟨_, hst⟩ | ⟨ht, _⟩
          · exact hst
          · exact absurd ht hr
        rw [hs]
        apply ih _ _ hb
        simp only [List.length_cons] at hfuel
        omega

theorem ac3_isSome (nb : ℕ → List ℕ) (cfg : Config) (s : GState)
    (hnb : ∀ i < 81, (nb i).length ≤ 20) (hb : s.board.length ≤ 81) :
    (ac3 nb cfg s).isSome = true := by
  apply ac3Loop_isSome nb cfg hnb _ _ _ hb
  rw [ac3Fuel]
  omega

/-! Exact characterization of the domains a completed AC-3 run leaves. -/

theorem excludedB_nil (s : GState) (i v : ℕ) : excludedB s [] i v = false := rfl

theorem excludedB_cons (s : GState) (p : Arc) (q : List Arc) (i v : ℕ) :
    excludedB s (p :: q) i v =
      (((p.1 == i) && ((s.cell p.2).value == v) && !((s.cell p.2).value == 0)) ||
        excludedB s q i v) := by
  simp [excludedB, List.any_cons]

theorem excludedB_append (s : GState) (q1 q2 : List Arc) (i v : ℕ) :
    excludedB s (q1 ++ q2) i v = (excludedB s q1 i v || excludedB s q2 i v) := by
  simp [excludedB, List.any_append]

theorem excludedB_congr {s s1 : GState} (h : ValuesEq s s1) :
    ∀ (q : List Arc) (i v : ℕ), excludedB s1 q i v = excludedB s q i v := by
  intro q
  induction q with
  | nil => intro i v; rfl
  | cons p q ihq =>
    intro i v
    rw [excludedB_cons, excludedB_cons, ihq, h p.2]

theorem excludedB_reenqueue_false {s1 : GState} {i : ℕ}
    (h0 : (s1.cell i).value = 0) (ns : List ℕ) (k v : ℕ) :
    excludedB s1 (ns.map (fun n => (n, i))) k v = false := by
  unfold excludedB
  rw [List.any_eq_false]
  intro p hp
  obtain ⟨n, _, hpk⟩ := List.mem_map.1 hp
  have hp2 : p.2 = i := by rw [← hpk]
  rw [hp2, h0]
  simp

/-- A run of the worklist loop that drains the queue removes from each
unfinalized domain exactly the values some queued arc points at through a
finalized cell. -/
theorem ac3Loop_true_domains (nb : ℕ → List ℕ) (cfg : Config) :
    ∀ fuel q s t, ac3Loop nb cfg fuel q s = some (true, t) →
      ∀ i, (t.cell i).domain =
        if (s.cell i).value ≠ 0 then (s.cell i).domain
        else (s.cell i).domain.filter (fun v => !excludedB s q i v) := by
  intro fuel
  induction fuel with
  | zero => intro q s t h; simp [ac3Loop] at h
  | succ fuel ih =>
    intro q s t hrun k
    match q with
    | [] =>
      simp only [ac3Loop, Option.some.injEq, Prod.mk.injEq, true_and] at hrun
      rw [← hrun]
      split
      · rfl
      · simp [excludedB_nil]
    | (i, j) :: q' =>
      simp only [ac3Loop] at hrun
      by_cases hr : (revise s i j).1 = true
      · rw [if_pos hr] at hrun
        by_cases hd : ((revise s i j).2.cell i).get_domain_size = 0
        · rw [if_pos hd] at hrun
          simp at hrun
        · rw [if_neg hd] at hrun
          obtain ⟨hi0, hj0, hmem⟩ :
              (s.cell i).value = 0 ∧ (s.cell j).value ≠ 0 ∧
              (s.cell j).value ∈ (s.cell i).domain := by
            rcases revise_cases s i j with ⟨hf, _⟩ | ⟨_, h1, h2, h3, _⟩
            · rw [hf] at hr; cases hr
            · exact ⟨h1, h2, h3⟩
          have hveq : ValuesEq s (revise s i j).2 := revise_values s i j
          have hih := ih _ _ _ hrun k
          have hcells := revise_true_cell s i j k hr
          have hexq : ∀ v,
              excludedB (revise s i j).2
                (q' ++ (reenqueueList nb cfg (revise s i j).2 i j).map
                  (fun n => (n, i))) k v
              = excludedB s q' k v := by
            intro v
            rw [excludedB_append,
              excludedB_reenqueue_false (by rw [hveq i]; exact hi0),
              Bool.or_false, excludedB_congr hveq]
          by_cases hk : k = i
          · subst hk
            rw [hih]
            simp only [hexq]
            have hdomk : ((revise s k j).2.cell k).domain =
                (s.cell k).domain.filter (fun v => decide (v ≠ (s.cell j).value)) := by
              rw [hcells, if_pos rfl]; rfl
            rw [if_neg (by rw [hveq k, hi0]; exact fun h => h rfl),
              if_neg (by rw [hi0]; exact fun h => h rfl), hdomk,
              List.filter_filter]
            apply List.filter_congr
            intro v _
            rw [excludedB_cons]
            by_cases hvv : v = (s.cell j).value
            · subst hvv
              simp [hj0]
            · have hne : ¬ (s.cell j).value = v := fun h => hvv h.symm
              simp [hvv, hne]
          · rw [hih]
            simp only [hexq]
            have hdomk : ((revise s i j).2.cell k).domain = (s.cell k).domain := by
              rw [hcells, if_neg hk]
            rw [hveq k, hdomk]
            split
            · rfl
            · apply List.filter_congr
              intro v _
              rw [excludedB_cons]
              have hne : (((i, j) : Arc).1 == k) = false := by
                simpa using fun h => hk h.symm
              rw [hne]
              simp
      · rw [if_neg hr] at hrun
        have hs : (revise s i j).2 = s := by
          rcases revise_cases s i j with ⟨_, hst⟩ | ⟨ht, _⟩
          · exact hst
          · exact absurd ht hr
        rw [hs] at hrun
        rw [ih _ _ _ hrun k]
        by_cases hfin : (s.cell k).value ≠ 0
        · rw [if_pos hfin, if_pos hfin]
        · rw [if_neg hfin, if_neg hfin]
          apply List.filter_congr
          intro v hv
          rw [excludedB_cons]
          by_cases hk : k = i
          · subst hk
            have hnofire : (s.cell j).value = 0 ∨
                (s.cell j).value ∉ (s.cell k).domain := by
              unfold revise at hr
              split_ifs at hr with h1 h2
              · push_neg at hfin
                exact absurd ((is_finalized_iff _).1 h1) (by rw [hfin]; simp)
              · simp at hr
              · rw [Bool.and_eq_true, decide_eq_true_eq, is_finalized_iff] at h2
                push_neg at h2
                by_cases hjv : (s.cell j).value = 0
                · exact Or.inl hjv
                · exact Or.inr (h2 hjv)
            rcases hnofire with hjv | hjv
            · rw [hjv]; simp
            · have hne : ¬ (s.cell j).value = v := fun he => hjv (he ▸ hv)
              simp [hne]
          · have hne : (((i, j) : Arc).1 == k) = false := by
              simpa using fun h => hk h.symm
            rw [hne]
            simp

theorem excludedB_initialQueue (nb : ℕ → List ℕ) (s : GState) (i v : ℕ)
    (hi : i < 81) :
    excludedB s (initialQueue nb) i v = nbrExcludedB nb s i v := by
  unfold excludedB nbrExcludedB
  rw [Bool.eq_iff_iff, List.any_eq_true, List.any_eq_true]
  constructor
  · rintro ⟨p, hp, hcond⟩
    rw [Bool.and_eq_true, Bool.and_eq_true] at hcond
    obtain ⟨⟨h1, h2⟩, h3⟩ := hcond
    have hp1 : p.1 = i := by simpa using h1
    refine ⟨p.2, ?_, by rw [Bool.and_eq_true]; exact ⟨h2, h3⟩⟩
    have hmem : (p.1, p.2) ∈ initialQueue nb := by simpa using hp
    rw [hp1] at hmem
    exact ((mem_initialQueue nb i p.2).1 hmem).2
  · rintro ⟨j, hj, hcond⟩
    rw [Bool.and_eq_true] at hcond
    refine ⟨(i, j), (mem_initialQueue nb i j).2 ⟨hi, hj⟩, ?_⟩
    rw [Bool.and_eq_true, Bool.and_eq_true]
    exact ⟨⟨by simp, hcond.1⟩, hcond.2⟩

/-- After a completed (no wipeout) `ac3` run, the domain of every unfinalized
cell is the initial domain purged of every value a finalized neighbour holds;
finalized cells keep their domains. -/
theorem ac3_true_domains (nb : ℕ → List ℕ) (cfg : Config) {s t : GState}
    (h : ac3 nb cfg s = some (true, t)) {i : ℕ} (hi : i < 81) :
    (t.cell i).domain =
      if (s.cell i).value ≠ 0 then (s.cell i).domain
      else (s.cell i).domain.filter (fun v => !nbrExcludedB nb s i v) := by
  have hch := ac3Loop_true_domains nb cfg _ _ _ _ h i
  rw [hch]
  split
  · rfl
  · apply List.filter_congr
    intro v _
    rw [excludedB_initialQueue nb s i v hi]

theorem ac3Loop_true_nonempty (nb : ℕ → List ℕ) (cfg : Config) :
    ∀ fuel q s t, ac3Loop nb cfg fuel q s = some (true, t) →
      ∀ i, (s.cell i).domain ≠ [] → (t.cell i).domain ≠ [] := by
  intro fuel
  induction fuel with
  | zero => intro q s t h; simp [ac3Loop] at h
  | succ fuel ih =>
    intro q s t hrun i hne
    match q with
    | [] =>
      simp only [ac3Loop, Option.some.injEq, Prod.mk.injEq, true_and] at hrun
      rw [← hrun]
      exact hne
    | (a, b) :: q' =>
      simp only [ac3Loop] at hrun
      by_cases hr : (revise s a b).1 = true
      · rw [if_pos hr] at hrun
        by_cases hd : ((revise s a b).2.cell a).get_domain_size = 0
        · rw [if_pos hd] at hrun
          simp at hrun
        · rw [if_neg hd] at hrun
          apply ih _ _ _ hrun
          rw [revise_true_cell s a b i hr]
          by_cases hia : i = a
          · subst hia
            rw [if_pos rfl]
            intro hemp
            apply hd
            rw [revise_true_cell s i b i hr, if_pos rfl]
            simp only [Field.get_domain_size]
            rw [hemp]
            rfl
          · rw [if_neg hia]
            exact hne
      · rw [if_neg hr] at hrun
        have hs : (revise s a b).2 = s := by
          rcases revise_cases s a b with ⟨_, hst⟩ | ⟨ht, _⟩
          · exact hst
          · exact absurd ht hr
        rw [hs] at hrun
        exact ih _ _ _ hrun i hne

/-- An aborted (wipeout) run exhibits a cell that was unassigned with a
nonempty domain and whose domain was emptied. -/
theorem ac3Loop_false_wipeout (nb : ℕ → List ℕ) (cfg : Config) :
    ∀ fuel q s t, ac3Loop nb cfg fuel q s = some (false, t) →
      ∃ i, i < s.board.length ∧ (s.cell i).value = 0 ∧
        (s.cell i).domain ≠ [] ∧ (t.cell i).domain = [] := by
  intro fuel
  induction fuel with
  | zero => intro q s t h; simp [ac3Loop] at h
  | succ fuel ih =>
    intro q s t hrun
    match q with
    | [] => simp [ac3Loop] at hrun
    | (a, b) :: q' =>
      simp only [ac3Loop] at hrun
      by_cases hr : (revise s a b).1 = true
      · rw [if_pos hr] at hrun
        by_cases hd : ((revise s a b).2.cell a).get_domain_size = 0
        · rw [if_pos hd] at hrun
          simp only [Option.some.injEq, Prod.mk.injEq] at hrun
          obtain ⟨a0, _, hmem⟩ :
              (s.cell a).value = 0 ∧ (s.cell b).value ≠ 0 ∧
              (s.cell b).value ∈ (s.cell a).domain := by
            rcases revise_cases s a b with ⟨hf, _⟩ | ⟨_, h1, h2, h3, _⟩
            · rw [hf] at hr; cases hr
            · exact ⟨h1, h2, h3⟩
          refine ⟨a, lt_length_of_domain_mem s a hmem, a0, ?_, ?_⟩
          · intro hempty
            rw [hempty] at hmem
            cases hmem
          · rw [← hrun.2]
            rw [revise_true_cell s a b a hr, if_pos rfl]
            rw [revise_true_cell s a b a hr, if_pos rfl] at hd
            simpa [Field.get_domain_size, List.length_eq_zero] using hd
        · rw [if_neg hd] at hrun
          obtain ⟨i, hilen, h0, hne, hemp⟩ := ih _ _ _ hrun
          have hcnt := revise_counters s a b
          have hval := revise_values s a b
          have hdom := revise_domshrink s a b
          refine ⟨i, ?_, ?_, ?_, hemp⟩
          · rw [← hcnt.2.2.2.2]; exact hilen
          · rw [← hval i]; exact h0
          · intro hempty
            apply hne
            have := hdom i
            rw [hempty] at this
            exact List.sublist_nil.1 this
      · rw [if_neg hr] at hrun
        have hs : (revise s a b).2 = s := by
          rcases revise_cases s a b with ⟨_, hst⟩ | ⟨ht, _⟩
          · exact hst
          · exact absurd ht hr
        rw [hs] at hrun
        exact ih _ _ _ hrun

/-! Exact characterization of the one-shot preprocessing pass. -/

theorem setCell_of_ge (s : GState) (i : ℕ) (f : Field)
    (h : s.board.length ≤ i) : s.setCell i f = s := by
  simp [GState.setCell, List.set_eq_of_length_le h]

theorem removeCell_domain (u : GState) (n vj : ℕ) :
    ((u.setCell n ((u.cell n).remove_from_domain vj)).cell n).domain =
      (u.cell n).domain.filter (fun w => decide (w ≠ vj)) := by
  by_cases hn : n < u.board.length
  · rw [cell_setCell_self _ _ _ hn]; rfl
  · rw [setCell_of_ge _ _ _ (le_of_not_lt hn),
      cell_of_ge_length _ _ (le_of_not_lt hn)]
    rfl

theorem removeCell_value (u : GState) (n vj k : ℕ) :
    ((u.setCell n ((u.cell n).remove_from_domain vj)).cell k).value =
      (u.cell k).value := by
  by_cases hk : k = n
  · subst hk
    by_cases hn : k < u.board.length
    · rw [cell_setCell_self _ _ _ hn]; rfl
    · rw [setCell_of_ge _ _ _ (le_of_not_lt hn)]
  · rw [cell_setCell_ne _ _ _ _ hk]

theorem ppInner_spec (vj : ℕ) :
    ∀ (ns : List ℕ) (u : GState),
      (∀ k, ((ppInner vj ns u).cell k).value = (u.cell k).value) ∧
      (∀ k, ((ppInner vj ns u).cell k).domain =
        if (u.cell k).value = 0 ∧ k ∈ ns then
          (u.cell k).domain.filter (fun w => decide (w ≠ vj))
        else (u.cell k).domain) ∧
      CountersExceptDr u (ppInner vj ns u) ∧
      (ppInner vj ns u).domain_reductions = u.domain_reductions := by
  intro ns
  induction ns with
  | nil =>
    intro u
    exact ⟨fun _ => rfl, fun k => by simp [ppInner],
      ⟨rfl, rfl, rfl, rfl, rfl⟩, rfl⟩
  | cons n ns ihn =>
    intro u
    have hunf : ppInner vj (n :: ns) u =
        ppInner vj ns (if (u.cell n).is_finalized then u
          else u.setCell n ((u.cell n).remove_from_domain vj)) := by
      simp [ppInner, List.foldl_cons]
    by_cases hfin : (u.cell n).is_finalized = true
    · rw [hunf, if_pos hfin]
      obtain ⟨ihv, ihd, ihc, ihr⟩ := ihn u
      refine ⟨ihv, ?_, ihc, ihr⟩
      intro k
      rw [ihd k]
      by_cases hk : k = n
      · subst hk
        have hv : ¬ (u.cell k).value = 0 := (is_finalized_iff _).1 hfin
        rw [if_neg (fun hc => hv hc.1), if_neg (fun hc => hv hc.1)]
      · have : (k ∈ n :: ns) ↔ (k ∈ ns) := by
          simp [List.mem_cons, hk]
        by_cases hc : (u.cell k).value = 0 ∧ k ∈ ns
        · rw [if_pos hc, if_pos ⟨hc.1, this.2 hc.2⟩]
        · rw [if_neg hc, if_neg (fun hcc => hc ⟨hcc.1, this.1 hcc.2⟩)]
    · rw [hunf, if_neg hfin]
      set u1 := u.setCell n ((u.cell n).remove_from_domain vj) with hu1
      obtain ⟨ihv, ihd, ihc, ihr⟩ := ihn u1
      have hvals : ∀ k, (u1.cell k).value = (u.cell k).value :=
        fun k => removeCell_value u n vj k
      have hn0 : (u.cell n).value = 0 := (is_finalized_false_iff _).1
        (Bool.eq_false_iff.2 hfin)
      have hdoms : ∀ k, k ≠ n → (u1.cell k).domain = (u.cell k).domain := by
        intro k hk
        rw [hu1, cell_setCell_ne _ _ _ _ hk]
      have hdomn : (u1.cell n).domain =
          (u.cell n).domain.filter (fun w => decide (w ≠ vj)) :=
        removeCell_domain u n vj
      have hcnt1 : CountersExceptDr u u1 := by
        rw [hu1]
        exact ⟨rfl, rfl, rfl, rfl, by simp [GState.setCell]⟩
      have hfilter_idem : ∀ (p : ℕ → Bool) (l : List ℕ),
          (l.filter p).filter p = l.filter p := by
        intro p l
        rw [List.filter_filter]
        apply List.filter_congr
        intro a _
        exact Bool.and_self (p a)
      refine ⟨fun k => (ihv k).trans (hvals k), ?_, ?_, ?_⟩
      · intro k
        rw [ihd k]
        by_cases hk : k = n
        · subst hk
          have hv1 : (u1.cell k).value = 0 := (hvals k).trans hn0
          by_cases hmem : k ∈ ns
          · rw [if_pos ⟨hv1, hmem⟩, if_pos ⟨hn0, List.mem_cons_self _ _⟩,
              hdomn, hfilter_idem]
          · rw [if_neg (fun hc => hmem hc.2),
              if_pos ⟨hn0, List.mem_cons_self _ _⟩, hdomn]
        · have hmemiff : (k ∈ n :: ns) ↔ (k ∈ ns) := by
            simp [List.mem_cons, hk]
          rw [hdoms k hk]
          by_cases hc : (u.cell k).value = 0 ∧ k ∈ ns
          · rw [if_pos ⟨(hvals k).trans hc.1, hc.2⟩,
              if_pos ⟨hc.1, hmemiff.2 hc.2⟩]
          · rw [if_neg (fun hcc => hc ⟨(hvals k).symm.trans hcc.1, hcc.2⟩),
              if_neg (fun hcc => hc ⟨hcc.1, hmemiff.1 hcc.2⟩)]
      · exact ⟨(ihc.1.trans hcnt1.1), (ihc.2.1.trans hcnt1.2.1),
          (ihc.2.2.1.trans hcnt1.2.2.1), (ihc.2.2.2.1.trans hcnt1.2.2.2.1),
          (ihc.2.2.2.2.trans hcnt1.2.2.2.2)⟩
      · rw [ihr, hu1]
        rfl

theorem srcExcludedB_nil (nb : ℕ → List ℕ) (s : GState) (i v : ℕ) :
    srcExcludedB nb s [] i v = false := rfl

theorem srcExcludedB_cons (nb : ℕ → List ℕ) (s : GState) (j : ℕ) (js : List ℕ)
    (i v : ℕ) :
    srcExcludedB nb s (j :: js) i v =
      ((decide (i ∈ nb j) && ((s.cell j).value == v) &&
          !((s.cell j).value == 0)) || srcExcludedB nb s js i v) := by
  simp [srcExcludedB, List.any_cons]

theorem srcExcludedB_congr (nb : ℕ → List ℕ) {s s1 : GState}
    (h : ∀ k, (s1.cell k).value = (s.cell k).value) :
    ∀ (js : List ℕ) (i v : ℕ),
      srcExcludedB nb s1 js i v = srcExcludedB nb s js i v := by
  intro js
  induction js with
  | nil => intro i v; rfl
  | cons j js ihj =>
    intro i v
    rw [srcExcludedB_cons, srcExcludedB_cons, ihj, h j]

/-- Characterization of the outer preprocessing fold over the source list:
values never change, and each unfinalized domain is the initial one purged of
the values held by the finalized sources having the cell as a neighbour. -/
theorem ppOuter_spec (nb : ℕ → List ℕ) :
    ∀ (js : List ℕ) (u : GState),
      (∀ k, ((js.foldl (preprocessStep nb) u).cell k).value = (u.cell k).value) ∧
      (∀ k, ((js.foldl (preprocessStep nb) u).cell k).domain =
        if (u.cell k).value = 0 then
          (u.cell k).domain.filter (fun v => !srcExcludedB nb u js k v)
        else (u.cell k).domain) ∧
      CountersExceptDr u (js.foldl (preprocessStep nb) u) ∧
      (js.foldl (preprocessStep nb) u).domain_reductions = u.domain_reductions := by
  intro js
  induction js with
  | nil =>
    intro u
    refine ⟨fun _ => rfl, fun k => ?_, ⟨rfl, rfl, rfl, rfl, rfl⟩, rfl⟩
    split
    · simp [srcExcludedB_nil]
    · rfl
  | cons j js ihj =>
    intro u
    rw [List.foldl_cons]
    by_cases hfin : (u.cell j).is_finalized = true
    · have hstep : preprocessStep nb u j = ppInner (u.cell j).value (nb j) u := by
        rw [preprocessStep, if_pos hfin]
      rw [hstep]
      obtain ⟨pv, pd, pc, pr⟩ := ppInner_spec (u.cell j).value (nb j) u
      obtain ⟨iv, id', ic, ir⟩ := ihj (ppInner (u.cell j).value (nb j) u)
      have hj0 : (u.cell j).value ≠ 0 := (is_finalized_iff _).1 hfin
      refine ⟨fun k => (iv k).trans (pv k), ?_, ?_, ?_⟩
      · intro k
        rw [id' k]
        have hsrc : ∀ v, srcExcludedB nb (ppInner (u.cell j).value (nb j) u) js k v
            = srcExcludedB nb u js k v := fun v => srcExcludedB_congr nb pv js k v
        by_cases hv : (u.cell k).value = 0
        · rw [if_pos ((pv k).trans hv), if_pos hv, pd k]
          by_cases hmem : k ∈ nb j
          · rw [if_pos ⟨hv, hmem⟩, List.filter_filter]
            apply List.filter_congr
            intro v _
            rw [hsrc v, srcExcludedB_cons]
            have hnbj : decide (k ∈ nb j) = true := by simpa using hmem
            have hj0b : ((u.cell j).value == 0) = false := by simpa using hj0
            rw [hnbj, hj0b]
            by_cases hvv : (u.cell j).value = v
            · subst hvv
              simp
            · have hvv2 : v ≠ (u.cell j).value := fun h => hvv h.symm
              simp [hvv, hvv2, Bool.and_comm]
          · rw [if_neg (fun hc => hmem hc.2)]
            apply List.filter_congr
            intro v _
            rw [hsrc v, srcExcludedB_cons]
            have hnbj : decide (k ∈ nb j) = false := by simpa using hmem
            rw [hnbj]
            simp
        · rw [if_neg (fun hc => hv ((pv k).symm.trans hc)), if_neg hv, pd k,
            if_neg (fun hc => hv hc.1)]
      · exact ⟨ic.1.trans pc.1, ic.2.1.trans pc.2.1, ic.2.2.1.trans pc.2.2.1,
          ic.2.2.2.1.trans pc.2.2.2.1, ic.2.2.2.2.trans pc.2.2.2.2⟩
      · rw [ir, pr]
    · have hstep : preprocessStep nb u j = u := by
        rw [preprocessStep, if_neg hfin]
      rw [hstep]
      obtain ⟨iv, id', ic, ir⟩ := ihj u
      have hj0 : (u.cell j).value = 0 := (is_finalized_false_iff _).1
        (Bool.eq_false_iff.2 hfin)
      refine ⟨iv, ?_, ic, ir⟩
      intro k
      rw [id' k]
      by_cases hv : (u.cell k).value = 0
      · rw [if_pos hv, if_pos hv]
        apply List.filter_congr
        intro v _
        rw [srcExcludedB_cons, hj0]
        simp
      · rw [if_neg hv, if_neg hv]

/-- `Game.preprocess_constraints` in closed form: values untouched, every
unfinalized domain purged of exactly the values of the finalized cells having
it as a neighbour, counters untouched. -/
theorem preprocess_constraints_spec (nb : ℕ → List ℕ) (s : GState) :
    (∀ k, ((preprocess_constraints nb s).cell k).value = (s.cell k).value) ∧
    (∀ k, ((preprocess_constraints nb s).cell k).domain =
      if (s.cell k).value = 0 then
        (s.cell k).domain.filter (fun v => !revExcludedB nb s k v)
      else (s.cell k).domain) ∧
    CountersExceptDr s (preprocess_constraints nb s) ∧
    (preprocess_constraints nb s).domain_reductions = s.domain_reductions :=
  ppOuter_spec nb (List.range 81) s

/-- Under a valid neighbour enumeration the two exclusion predicates, by
sources and by neighbours, coincide on grid cells. -/
theorem revExcludedB_eq_nbrExcludedB {nb : ℕ → List ℕ} (h : ValidNbrs nb)
    (s : GState) {k : ℕ} (hk : k < 81) (v : ℕ) :
    revExcludedB nb s k v = nbrExcludedB nb s k v := by
  unfold revExcludedB srcExcludedB nbrExcludedB
  rw [Bool.eq_iff_iff, List.any_eq_true, List.any_eq_true]
  constructor
  · rintro ⟨j, hj, hcond⟩
    rw [Bool.and_eq_true, Bool.and_eq_true, decide_eq_true_eq] at hcond
    obtain ⟨⟨h1, h2⟩, h3⟩ := hcond
    have hj81 : j < 81 := List.mem_range.1 hj
    have hnbr : isNbr j k = true := h.isNbr_of_mem hj81 h1
    refine ⟨j, h.mem_of_isNbr (isNbr_symm j k ▸ hnbr), ?_⟩
    rw [Bool.and_eq_true]
    exact ⟨h2, h3⟩
  · rintro ⟨j, hj, hcond⟩
    rw [Bool.and_eq_true] at hcond
    have hnbr : isNbr k j = true := h.isNbr_of_mem hk hj
    have hj81 : j < 81 := (isNbr_lt k j hnbr).2.1
    refine ⟨j, List.mem_range.2 hj81, ?_⟩
    rw [Bool.and_eq_true, Bool.and_eq_true, decide_eq_true_eq]
    exact ⟨⟨h.mem_of_isNbr (isNbr_symm k j ▸ hnbr), hcond.1⟩, hcond.2⟩

/-! Counting machinery for the validity checks. -/

theorem noDup_iff (l : List ℕ) : noDup l = true ↔ l.Nodup := by
  unfold noDup
  rw [beq_iff_eq]
  constructor
  · intro h
    have heq : l.dedup = l := List.Sublist.eq_of_length (List.dedup_sublist l) h
    rw [← heq]
    exact List.nodup_dedup l
  · intro h
    rw [List.dedup_eq_self.2 h]

theorem noDup_nonzero_iff (cells : List Field) :
    noDup (nonzeroValues cells) = true ↔
      ∀ v, v ≠ 0 → cells.countP (fun f => f.value == v) ≤ 1 := by
  rw [noDup_iff, List.nodup_iff_count_le_one]
  unfold nonzeroValues
  constructor
  · intro h v hv
    have hc := h v
    rw [List.count_filter (by simpa using hv)] at hc
    calc cells.countP (fun f => f.value == v)
        = (cells.map (fun f => f.value)).count v := by
          rw [List.count_eq_countP, List.countP_map]
          rfl
      _ ≤ 1 := hc
  · intro h v
    by_cases hv : v = 0
    · subst hv
      have : (0 : ℕ) ∉ (cells.map (fun f => f.value)).filter (fun w => w ≠ 0) := by
        intro hmem
        have := (List.mem_filter.1 hmem).2
        simp at this
      rw [List.count_eq_zero.2 this]
      omega
    · rw [List.count_filter (by simpa using hv)]
      calc (cells.map (fun f => f.value)).count v
          = cells.countP (fun f => f.value == v) := by
            rw [List.count_eq_countP, List.countP_map]
            rfl
        _ ≤ 1 := h v hv

theorem two_le_length_of_nodup {l : List ℕ} (hn : l.Nodup) {a b : ℕ}
    (ha : a ∈ l) (hb : b ∈ l) (hab : a ≠ b) : 2 ≤ l.length := by
  match l, hn with
  | [], _ => cases ha
  | [x], _ =>
    rw [List.mem_singleton] at ha hb
    exact absurd (ha.trans hb.symm) hab
  | x :: y :: l, _ => simp [Nat.le_add_left]

theorem exists_pair_of_two_le_countP {p : ℕ → Bool} {n : ℕ}
    (h : 2 ≤ (List.range n).countP p) :
    ∃ a b, a < n ∧ b < n ∧ a ≠ b ∧ p a = true ∧ p b = true := by
  rw [List.countP_eq_length_filter] at h
  have hnd : ((List.range n).filter p).Nodup :=
    (List.nodup_range n).filter p
  match hl : (List.range n).filter p, hnd with
  | [], _ => rw [hl] at h; simp at h
  | [x], _ => rw [hl] at h; simp at h
  | x :: y :: l, hnd' =>
    have hx : x ∈ (List.range n).filter p := by rw [hl]; simp
    have hy : y ∈ (List.range n).filter p := by rw [hl]; simp
    obtain ⟨hx1, hx2⟩ := List.mem_filter.1 hx
    obtain ⟨hy1, hy2⟩ := List.mem_filter.1 hy
    refine ⟨x, y, List.mem_range.1 hx1, List.mem_range.1 hy1, ?_, hx2, hy2⟩
    intro hxy
    rw [List.nodup_cons] at hnd'
    exact hnd'.1 (hxy ▸ List.mem_cons_self _ _)

theorem two_le_countP_of_pair {p : ℕ → Bool} {n a b : ℕ} (ha : a < n)
    (hb : b < n) (hab : a ≠ b) (hpa : p a = true) (hpb : p b = true) :
    2 ≤ (List.range n).countP p := by
  rw [List.countP_eq_length_filter]
  exact two_le_length_of_nodup ((List.nodup_range n).filter p)
    (List.mem_filter.2 ⟨List.mem_range.2 ha, hpa⟩)
    (List.mem_filter.2 ⟨List.mem_range.2 hb, hpb⟩) hab

theorem countP_le_one_of_unique {p : ℕ → Bool} {n : ℕ}
    (h : ∀ a < n, ∀ b < n, p a = true → p b = true → a = b) :
    (List.range n).countP p ≤ 1 := by
  by_contra hc
  push_neg at hc
  have h2 : 2 ≤ (List.range n).countP p := by omega
  obtain ⟨a, b, ha, hb, hab, hpa, hpb⟩ := exists_pair_of_two_le_countP h2
  exact hab (h a ha b hb hpa hpb)

theorem countP_map_range (p : Field → Bool) (g : ℕ → Field) (n : ℕ) :
    ((List.range n).map g).countP p = (List.range n).countP (fun t => p (g t)) := by
  rw [List.countP_map]
  rfl

theorem boxCells_eq_map (s : GState) (br bc : ℕ) :
    boxCells s br bc = (List.range 9).map
      (fun t => s.cell (9 * (3 * br + t / 3) + (3 * bc + t % 3))) := rfl

/-- The three checks of `Game.valid_solution` in counting form. -/
theorem valid_solution_iff_counts (s : GState) :
    valid_solution s = true ↔
      ((∀ r < 9, ∀ v, v ≠ 0 →
          (rowCells s r).countP (fun f => f.value == v) ≤ 1) ∧
       (∀ c < 9, ∀ v, v ≠ 0 →
          (colCells s c).countP (fun f => f.value == v) ≤ 1) ∧
       (∀ br < 3, ∀ bc < 3, ∀ v, v ≠ 0 →
          (boxCells s br bc).countP (fun f => f.value == v) ≤ 1)) := by
  unfold valid_solution
  simp only [Bool.and_eq_true, List.all_eq_true, List.mem_range]
  constructor
  · rintro ⟨⟨hr, hc⟩, hb⟩
    exact ⟨fun r h9 => (noDup_nonzero_iff _).1 (hr r h9),
      fun c h9 => (noDup_nonzero_iff _).1 (hc c h9),
      fun br h3 bc h3' => (noDup_nonzero_iff _).1 (hb br h3 bc h3')⟩
  · rintro ⟨hr, hc, hb⟩
    exact ⟨⟨fun r h9 => (noDup_nonzero_iff _).2 (hr r h9),
      fun c h9 => (noDup_nonzero_iff _).2 (hc c h9)⟩,
      fun br h3 bc h3' => (noDup_nonzero_iff _).2 (hb br h3 bc h3')⟩

theorem noConflicts_of_counts (s : GState)
    (h : (∀ r < 9, ∀ v, v ≠ 0 →
          (rowCells s r).countP (fun f => f.value == v) ≤ 1) ∧
       (∀ c < 9, ∀ v, v ≠ 0 →
          (colCells s c).countP (fun f => f.value == v) ≤ 1) ∧
       (∀ br < 3, ∀ bc < 3, ∀ v, v ≠ 0 →
          (boxCells s br bc).countP (fun f => f.value == v) ≤ 1)) :
    NoConflicts s := by
  intro i j hij
  rw [isNbr_iff] at hij
  obtain ⟨hi81, hj81, hne, hunit⟩ := hij
  by_cases h0 : (s.cell i).value = 0
  · exact Or.inl h0
  · refine Or.inr ?_
    intro heq
    rcases hunit with hrow | hcol | hbox
    · have hcount := h.1 (i / 9) (by omega) (s.cell i).value h0
      rw [rowCells, countP_map_range] at hcount
      have h2 : 2 ≤ (List.range 9).countP
          (fun c => (s.cell (9 * (i / 9) + c)).value == (s.cell i).value) := by
        apply two_le_countP_of_pair (a := i % 9) (b := j % 9)
          (by omega) (by omega) (by omega)
        · have hidx : 9 * (i / 9) + i % 9 = i := by omega
          rw [hidx]
          simp
        · have hidx : 9 * (i / 9) + j % 9 = j := by omega
          rw [hidx]
          simp [heq]
      omega
    · have hcount := h.2.1 (i % 9) (by omega) (s.cell i).value h0
      rw [colCells, countP_map_range] at hcount
      have h2 : 2 ≤ (List.range 9).countP
          (fun r => (s.cell (9 * r + i % 9)).value == (s.cell i).value) := by
        apply two_le_countP_of_pair (a := i / 9) (b := j / 9)
          (by omega) (by omega) (by omega)
        · have hidx : 9 * (i / 9) + i % 9 = i := by omega
          rw [hidx]
          simp
        · have hidx : 9 * (j / 9) + i % 9 = j := by omega
          rw [hidx]
          simp [heq]
      omega
    · have hcount := h.2.2 (i / 9 / 3) (by omega) (i % 9 / 3) (by omega)
        (s.cell i).value h0
      rw [boxCells_eq_map, countP_map_range] at hcount
      have h2 : 2 ≤ (List.range 9).countP (fun t =>
          (s.cell (9 * (3 * (i / 9 / 3) + t / 3) +
            (3 * (i % 9 / 3) + t % 3))).value == (s.cell i).value) := by
        apply two_le_countP_of_pair (a := 3 * (i / 9 % 3) + i % 9 % 3)
          (b := 3 * (j / 9 % 3) + j % 9 % 3) (by omega) (by omega) (by omega)
        · have hidx : 9 * (3 * (i / 9 / 3) + (3 * (i / 9 % 3) + i % 9 % 3) / 3) +
              (3 * (i % 9 / 3) + (3 * (i / 9 % 3) + i % 9 % 3) % 3) = i := by
            omega
          rw [hidx]
          simp
        · have hidx : 9 * (3 * (i / 9 / 3) + (3 * (j / 9 % 3) + j % 9 % 3) / 3) +
              (3 * (i % 9 / 3) + (3 * (j / 9 % 3) + j % 9 % 3) % 3) = j := by
            omega
          rw [hidx]
          simp [heq]
      omega

theorem counts_of_noConflicts (s : GState) (h : NoConflicts s) :
    (∀ r < 9, ∀ v, v ≠ 0 →
        (rowCells s r).countP (fun f => f.value == v) ≤ 1) ∧
    (∀ c < 9, ∀ v, v ≠ 0 →
        (colCells s c).countP (fun f => f.value == v) ≤ 1) ∧
    (∀ br < 3, ∀ bc < 3, ∀ v, v ≠ 0 →
        (boxCells s br bc).countP (fun f => f.value == v) ≤ 1) := by
  refine ⟨?_, ?_, ?_⟩
  · intro r h9 v hv
    rw [rowCells, countP_map_range]
    apply countP_le_one_of_unique
    intro a ha b hb hpa hpb
    by_contra hab
    have hnbr : isNbr (9 * r + a) (9 * r + b) = true := by
      rw [isNbr_iff]
      refine ⟨by omega, by omega, by omega, by omega⟩
    have hva : (s.cell (9 * r + a)).value = v := by simpa using hpa
    have hvb : (s.cell (9 * r + b)).value = v := by simpa using hpb
    rcases h _ _ hnbr with h0 | hne
    · exact hv (hva ▸ h0)
    · exact hne (hva.trans hvb.symm)
  · intro c h9 v hv
    rw [colCells, countP_map_range]
    apply countP_le_one_of_unique
    intro a ha b hb hpa hpb
    by_contra hab
    have hnbr : isNbr (9 * a + c) (9 * b + c) = true := by
      rw [isNbr_iff]
      refine ⟨by omega, by omega, by omega, by omega⟩
    have hva : (s.cell (9 * a + c)).value = v := by simpa using hpa
    have hvb : (s.cell (9 * b + c)).value = v := by simpa using hpb
    rcases h _ _ hnbr with h0 | hne
    · exact hv (hva ▸ h0)
    · exact hne (hva.trans hvb.symm)
  · intro br h3 bc h3' v hv
    rw [boxCells_eq_map, countP_map_range]
    apply countP_le_one_of_unique
    intro a ha b hb hpa hpb
    by_contra hab
    have hnbr : isNbr (9 * (3 * br + a / 3) + (3 * bc + a % 3))
        (9 * (3 * br + b / 3) + (3 * bc + b % 3)) = true := by
      rw [isNbr_iff]
      refine ⟨by omega, by omega, by omega, by omega⟩
    have hva : (s.cell (9 * (3 * br + a / 3) + (3 * bc + a % 3))).value = v := by
      simpa using hpa
    have hvb : (s.cell (9 * (3 * br + b / 3) + (3 * bc + b % 3))).value = v := by
      simpa using hpb
    rcases h _ _ hnbr with h0 | hne
    · exact hv (hva ▸ h0)
    · exact hne (hva.trans hvb.symm)

/-- The positional reading of `Game.valid_solution`. -/
theorem valid_solution_iff_noConflicts (s : GState) :
    valid_solution s = true ↔ NoConflicts s := by
  rw [valid_solution_iff_counts]
  exact ⟨noConflicts_of_counts s, counts_of_noConflicts s⟩

/-! The Python `min` and `max` built-ins return the first extremal element. -/

theorem pyMaxFold_decomp (k : ℕ → ℕ) :
    ∀ (xs : List ℕ) (b : ℕ),
      ∃ l1 l2,
        b :: xs = l1 ++ (xs.foldl (fun b a => if k b < k a then a else b) b) :: l2 ∧
        (∀ y ∈ l1, k y < k (xs.foldl (fun b a => if k b < k a then a else b) b)) ∧
        (∀ y ∈ l2, k y ≤ k (xs.foldl (fun b a => if k b < k a then a else b) b)) := by
  intro xs
  induction xs with
  | nil => intro b; exact ⟨[], [], rfl, by simp, by simp⟩
  | cons x xs ih =>
    intro b
    rw [List.foldl_cons]
    by_cases hx : k b < k x
    · rw [if_pos hx]
      obtain ⟨l1, l2, heq, hpre, hpost⟩ := ih x
      refine ⟨b :: l1, l2, by rw [List.cons_append, ← heq], ?_, hpost⟩
      intro y hy
      rcases List.mem_cons.1 hy with rfl | hy'
      · rcases l1 with _ | ⟨z, l1'⟩
        · have hhead : x = xs.foldl (fun b a => if k b < k a then a else b) x := by
            simpa using congrArg (fun l => l.headD 0) heq
          rw [← hhead]
          exact hx
        · have hz : x = z := by
            simpa using congrArg (fun l => l.headD 0) heq
          exact lt_trans hx (hpre x (by rw [hz]; exact List.mem_cons_self _ _))
      · exact hpre y hy'
    · rw [if_neg hx]
      obtain ⟨l1, l2, heq, hpre, hpost⟩ := ih b
      rcases l1 with _ | ⟨z, l1'⟩
      · have hrb : xs.foldl (fun b a => if k b < k a then a else b) b = b := by
          have := congrArg (fun l => l.headD 0) heq
          simpa using this.symm
        refine ⟨[], x :: xs, ?_, by simp, ?_⟩
        · rw [hrb]
          rfl
        · intro y hy
          rcases List.mem_cons.1 hy with rfl | hy'
          · rw [hrb]; omega
          · have hl2 : xs = l2 := by
              simpa using congrArg List.tail heq
            exact hpost y (hl2 ▸ hy')
      · have hz : b = z := by
          simpa using congrArg (fun l => l.headD 0) heq
        have hxs : xs = l1' ++ (xs.foldl (fun b a => if k b < k a then a else b) b) :: l2 := by
          simpa using congrArg List.tail heq
        have hbmem : b ∈ z :: l1' := by rw [← hz]; exact List.mem_cons_self _ _
        refine ⟨b :: x :: l1', l2,
          by rw [List.cons_append, List.cons_append, ← hxs], ?_, hpost⟩
        intro y hy
        rcases List.mem_cons.1 hy with hyb | hy'
        · rw [hyb]
          exact hpre b hbmem
        · rcases List.mem_cons.1 hy' with hyx | hy''
          · rw [hyx]
            exact lt_of_le_of_lt (le_of_not_lt hx) (hpre b hbmem)
          · exact hpre y (List.mem_cons_of_mem _ hy'')

theorem pyMinFold_decomp (k : ℕ → ℕ) :
    ∀ (xs : List ℕ) (b : ℕ),
      ∃ l1 l2,
        b :: xs = l1 ++ (xs.foldl (fun b a => if k a < k b then a else b) b) :: l2 ∧
        (∀ y ∈ l1, k (xs.foldl (fun b a => if k a < k b then a else b) b) < k y) ∧
        (∀ y ∈ l2, k (xs.foldl (fun b a => if k a < k b then a else b) b) ≤ k y) := by
  intro xs
  induction xs with
  | nil => intro b; exact ⟨[], [], rfl, by simp, by simp⟩
  | cons x xs ih =>
    intro b
    rw [List.foldl_cons]
    by_cases hx : k x < k b
    · rw [if_pos hx]
      obtain ⟨l1, l2, heq, hpre, hpost⟩ := ih x
      refine ⟨b :: l1, l2, by rw [List.cons_append, ← heq], ?_, hpost⟩
      intro y hy
      rcases List.mem_cons.1 hy with rfl | hy'
      · rcases l1 with _ | ⟨z, l1'⟩
        · have hhead : x = xs.foldl (fun b a => if k a < k b then a else b) x := by
            simpa using congrArg (fun l => l.headD 0) heq
          rw [← hhead]
          exact hx
        · have hz : x = z := by
            simpa using congrArg (fun l => l.headD 0) heq
          exact lt_trans (hpre x (by rw [hz]; exact List.mem_cons_self _ _)) hx
      · exact hpre y hy'
    · rw [if_neg hx]
      obtain ⟨l1, l2, heq, hpre, hpost⟩ := ih b
      rcases l1 with _ | ⟨z, l1'⟩
      · have hrb : xs.foldl (fun b a => if k a < k b then a else b) b = b := by
          have := congrArg (fun l => l.headD 0) heq
          simpa using this.symm
        refine ⟨[], x :: xs, ?_, by simp, ?_⟩
        · rw [hrb]
          rfl
        · intro y hy
          rcases List.mem_cons.1 hy with rfl | hy'
          · rw [hrb]; omega
          · have hl2 : xs = l2 := by
              simpa using congrArg List.tail heq
            exact hpost y (hl2 ▸ hy')
      · have hz : b = z := by
          simpa using congrArg (fun l => l.headD 0) heq
        have hxs : xs = l1' ++ (xs.foldl (fun b a => if k a < k b then a else b) b) :: l2 := by
          simpa using congrArg List.tail heq
        have hbmem : b ∈ z :: l1' := by rw [← hz]; exact List.mem_cons_self _ _
        refine ⟨b :: x :: l1', l2,
          by rw [List.cons_append, List.cons_append, ← hxs], ?_, hpost⟩
        intro y hy
        rcases List.mem_cons.1 hy with hyb | hy'
        · rw [hyb]
          exact hpre b hbmem
        · rcases List.mem_cons.1 hy' with hyx | hy''
          · rw [hyx]
            exact lt_of_lt_of_le (hpre b hbmem) (le_of_not_lt hx)
          · exact hpre y (List.mem_cons_of_mem _ hy'')

/-- Python `max(l, key=k)` on a nonempty list: it occurs in the list, strictly
beats everything before it, and is not beaten by anything after it. -/
theorem pyMaxBy_decomp (k : ℕ → ℕ) (l : List ℕ) (h : l ≠ []) :
    ∃ l1 l2, l = l1 ++ pyMaxBy k l :: l2 ∧
      (∀ y ∈ l1, k y < k (pyMaxBy k l)) ∧
      (∀ y ∈ l2, k y ≤ k (pyMaxBy k l)) := by
  match l with
  | [] => exact absurd rfl h
  | x :: xs => exact pyMaxFold_decomp k xs x

/-- Python `min(l, key=k)` on a nonempty list: it occurs in the list, strictly
undercuts everything before it, and is no larger than anything after it. -/
theorem pyMinBy_decomp (k : ℕ → ℕ) (l : List ℕ) (h : l ≠ []) :
    ∃ l1 l2, l = l1 ++ pyMinBy k l :: l2 ∧
      (∀ y ∈ l1, k (pyMinBy k l) < k y) ∧
      (∀ y ∈ l2, k (pyMinBy k l) ≤ k y) := by
  match l with
  | [] => exact absurd rfl h
  | x :: xs => exact pyMinFold_decomp k xs x

theorem pyMaxBy_mem (k : ℕ → ℕ) (l : List ℕ) (h : l ≠ []) :
    pyMaxBy k l ∈ l := by
  obtain ⟨l1, l2, heq, _, _⟩ := pyMaxBy_decomp k l h
  have hm : pyMaxBy k l ∈ l1 ++ pyMaxBy k l :: l2 := by simp
  rw [← heq] at hm
  exact hm

theorem pyMaxBy_le (k : ℕ → ℕ) (l : List ℕ) (h : l ≠ []) :
    ∀ a ∈ l, k a ≤ k (pyMaxBy k l) := by
  obtain ⟨l1, l2, heq, hpre, hpost⟩ := pyMaxBy_decomp k l h
  intro a ha
  rw [heq] at ha
  rcases List.mem_append.1 ha with h1 | h2
  · exact le_of_lt (hpre a h1)
  · rcases List.mem_cons.1 h2 with rfl | h3
    · exact le_refl _
    · exact hpost a h3

theorem pyMinBy_mem (k : ℕ → ℕ) (l : List ℕ) (h : l ≠ []) :
    pyMinBy k l ∈ l := by
  obtain ⟨l1, l2, heq, _, _⟩ := pyMinBy_decomp k l h
  have hm : pyMinBy k l ∈ l1 ++ pyMinBy k l :: l2 := by simp
  rw [← heq] at hm
  exact hm

theorem pyMinBy_le (k : ℕ → ℕ) (l : List ℕ) (h : l ≠ []) :
    ∀ a ∈ l, k (pyMinBy k l) ≤ k a := by
  obtain ⟨l1, l2, heq, hpre, hpost⟩ := pyMinBy_decomp k l h
  intro a ha
  rw [heq] at ha
  rcases List.mem_append.1 ha with h1 | h2
  · exact le_of_lt (hpre a h1)
  · rcases List.mem_cons.1 h2 with rfl | h3
    · exact le_refl _
    · exact hpost a h3

theorem headD_mem (l : List ℕ) (h : l ≠ []) : l.headD 0 ∈ l := by
  match l with
  | [] => exact absurd rfl h
  | x :: xs => exact List.mem_cons_self _ _

/-- The cell selected by `Game.backtracking_search` is an unassigned cell. -/
theorem selectField_mem (nb : ℕ → List ℕ) (cfg : Config) (s : GState)
    (unassigned : List ℕ) (h : unassigned ≠ []) :
    selectField nb cfg s unassigned ∈ unassigned := by
  unfold selectField
  have hbase : (if cfg.use_mrv_backtracking then
      pyMinBy (fun f => (s.cell f).get_domain_size) unassigned
      else unassigned.headD 0) ∈ unassigned := by
    split
    · exact pyMinBy_mem _ _ h
    · exact headD_mem _ h
  by_cases hdeg : cfg.use_degree_backtracking = true
  · rw [if_pos hdeg]
    have hcand : (unassigned.filter (fun f =>
        (s.cell f).get_domain_size ==
          (s.cell (if cfg.use_mrv_backtracking then
            pyMinBy (fun f => (s.cell f).get_domain_size) unassigned
            else unassigned.headD 0)).get_domain_size)) ≠ [] := by
      intro hemp
      have := List.filter_eq_nil_iff.1 hemp _ hbase
      simp at this
    have := pyMaxBy_mem (unfinalizedNbrCount nb s) _ hcand
    exact (List.mem_filter.1 this).1
  · rw [if_neg hdeg]
    exact hbase

/-! Backtracking search: frame conditions, restoration on failure, totality
under a quiet clock, soundness and completeness. -/

theorem set_getD_self : ∀ (l : List Field) (i : ℕ),
    l.set i (l.getD i default) = l := by
  intro l
  induction l with
  | nil => intro i; rfl
  | cons a l ihl =>
    intro i
    match i with
    | 0 => rfl
    | i + 1 =>
      show a :: l.set i (l.getD i default) = a :: l
      rw [ihl i]

theorem cell_of_board_eq {s t : GState} (h : t.board = s.board) (i : ℕ) :
    t.cell i = s.cell i := by
  unfold GState.cell
  rw [h]

theorem icLoop_spec (value : ℕ) : ∀ (ns : List ℕ) (s : GState),
    (icLoop s value ns).2.board = s.board ∧
    (icLoop s value ns).2.recursive_calls = s.recursive_calls ∧
    (icLoop s value ns).2.domain_reductions = s.domain_reductions ∧
    (icLoop s value ns).2.assignments = s.assignments ∧
    (icLoop s value ns).2.empty_cells = s.empty_cells ∧
    ((icLoop s value ns).1 = true ↔
      ∀ n ∈ ns, ¬((s.cell n).value ≠ 0 ∧ (s.cell n).value = value)) := by
  intro ns
  induction ns with
  | nil =>
    intro s
    exact ⟨rfl, rfl, rfl, rfl, rfl, by simp [icLoop]⟩
  | cons n ns ihn =>
    intro s
    simp only [icLoop]
    split
    case _ hcond =>
      refine ⟨rfl, rfl, rfl, rfl, rfl, ?_⟩
      rw [Bool.and_eq_true, is_finalized_iff, beq_iff_eq] at hcond
      constructor
      · intro hfalse
        cases hfalse
      · intro hall
        exact absurd hcond (hall n (List.mem_cons_self _ _))
    case _ hcond =>
      obtain ⟨hb, hrc, hdr, ha, he, hiff⟩ :=
        ihn { s with constraint_checks := s.constraint_checks + 1 }
      refine ⟨hb, hrc, hdr, ha, he, ?_⟩
      rw [hiff, List.forall_mem_cons]
      constructor
      · intro hall
        refine ⟨?_, hall⟩
        intro hviol
        exact hcond (by
          rw [Bool.and_eq_true, is_finalized_iff, beq_iff_eq]
          exact hviol)
      · exact fun hall => hall.2

theorem set_value_board_of_ge (u : GState) (field v : ℕ)
    (h : u.board.length ≤ field) : (u.set_value field v).board = u.board := by
  rw [GState.set_value, GState.setCell]
  exact List.set_eq_of_length_le h

theorem set_value_zero_value (x : GState) (i : ℕ) :
    ((x.set_value i 0).cell i).value = 0 := by
  by_cases hi : i < x.board.length
  · rw [GState.set_value, cell_setCell_self _ _ _ hi]
  · rw [GState.set_value, GState.setCell]
    have hb : (({ x with board := x.board.set i { x.cell i with value := 0 } } :
        GState)).board.length ≤ i := by
      simpa using le_of_not_lt hi
    rw [cell_of_ge_length _ _ hb]
    rfl

/-- Assigning a value to an unassigned cell and later resetting it to 0
restores the board exactly (domains are never touched in between). -/
theorem assign_unassign_board (u : GState) (field v : ℕ)
    (h0 : (u.cell field).value = 0) (s3 : GState)
    (hs3 : s3.board = (u.set_value field v).board) :
    (s3.set_value field 0).board = u.board := by
  by_cases hlen : field < u.board.length
  · have hcell3 : s3.cell field = { u.cell field with value := v } := by
      rw [cell_of_board_eq hs3]
      rw [GState.set_value, cell_setCell_self _ _ _ hlen]
    rw [GState.set_value, GState.setCell]
    show s3.board.set field { s3.cell field with value := 0 } = u.board
    rw [hs3, hcell3, GState.set_value, GState.setCell]
    show (u.board.set field _).set field _ = u.board
    rw [List.set_set]
    have hfield : ({ value := 0, domain := (u.cell field).domain } : Field)
        = u.cell field := by
      have : u.cell field = ⟨(u.cell field).value, (u.cell field).domain⟩ := rfl
      rw [this, h0]
    show u.board.set field { value := 0, domain := (u.cell field).domain } = u.board
    rw [hfield]
    show u.board.set field (u.board.getD field default) = u.board
    exact set_getD_self u.board field
  · have hge := le_of_not_lt hlen
    have hnoop : (u.set_value field v).board = u.board :=
      set_value_board_of_ge u field v hge
    have hs3' : s3.board = u.board := by rw [hs3, hnoop]
    have : (s3.set_value field 0).board = s3.board :=
      set_value_board_of_ge s3 field 0 (by rw [hs3']; exact hge)
    rw [this, hs3']

/-- Restoration: a failed search hands back the board it received. Stated for
the value loop with a hypothesis on the recursive call. -/
theorem tryValues_false_board (nb : ℕ → List ℕ) (recur : GState → BResult)
    (field : ℕ)
    (hrec : ∀ u t, recur u = .done false t → t.board = u.board) :
    ∀ vs (s : GState) (t : GState), (s.cell field).value = 0 →
      tryValues nb recur field vs s = .done false t → t.board = s.board := by
  intro vs
  induction vs with
  | nil =>
    intro s t _ hrun
    simp only [tryValues, BResult.done.injEq] at hrun
    rw [← hrun.2]
  | cons v vs ihv =>
    intro s t h0 hrun
    simp only [tryValues] at hrun
    have hicb : (is_consistent nb
        { s with constraint_checks := s.constraint_checks + 1 } field v).2.board
        = s.board :=
      (icLoop_spec v (nb field) _).1
    by_cases hic : (is_consistent nb
        { s with constraint_checks := s.constraint_checks + 1 } field v).1 = true
    · rw [if_pos hic] at hrun
      split at hrun
      next s3 heq => simp at hrun
      next s3 heq =>
        have hu0 : ((is_consistent nb
            { s with constraint_checks := s.constraint_checks + 1 } field v).2.cell
              field).value = 0 := by
          rw [cell_of_board_eq hicb]
          exact h0
        have hs3b0 := hrec _ _ heq
        have hs3b : s3.board = ((is_consistent nb
            { s with constraint_checks := s.constraint_checks + 1 } field
              v).2.set_value field v).board := hs3b0
        have hrestored : ((s3.set_value field 0)).board = (is_consistent nb
            { s with constraint_checks := s.constraint_checks + 1 } field
              v).2.board :=
          assign_unassign_board _ field v hu0 s3 hs3b
        have ht := ihv _ _ (set_value_zero_value s3 field) hrun
        rw [ht, hrestored, hicb]
      next s3 heq => simp at hrun
    · rw [if_neg hic] at hrun
      have := ihv _ _ (by rw [cell_of_board_eq hicb]; exact h0) hrun
      rw [this, hicb]

theorem get_unassigned_eq_of_board_eq {s t : GState} (h : t.board = s.board) :
    get_unassigned_fields t = get_unassigned_fields s := by
  unfold get_unassigned_fields
  apply List.filter_congr
  intro i _
  rw [cell_of_board_eq h]

/-- A failed `backtracking_search` hands back the board it received. -/
theorem bt_false_board (nb : ℕ → List ℕ) (cfg : Config) (elapsed : ℕ → ℕ)
    (timeout : ℕ) :
    ∀ fuel (s t : GState),
      backtracking_search nb cfg elapsed timeout fuel s = .done false t →
      t.board = s.board := by
  intro fuel
  induction fuel with
  | zero => intro s t h; simp [backtracking_search] at h
  | succ fuel ih =>
    intro s t hrun
    simp only [backtracking_search] at hrun
    by_cases htmo : timeoutHit elapsed timeout
        ({ s with recursive_calls := s.recursive_calls + 1 } : GState).recursive_calls = true
    · rw [if_pos htmo] at hrun
      simp at hrun
    · rw [if_neg htmo] at hrun
      by_cases hemp : (get_unassigned_fields
          { s with recursive_calls := s.recursive_calls + 1 }).isEmpty = true
      · rw [if_pos hemp] at hrun
        simp at hrun
      · rw [if_neg hemp] at hrun
        have hne : get_unassigned_fields
            ({ s with recursive_calls := s.recursive_calls + 1 } : GState) ≠ [] := by
          intro hc
          rw [hc] at hemp
          exact hemp rfl
        have hfield := selectField_mem nb cfg
          { s with recursive_calls := s.recursive_calls + 1 }
          (get_unassigned_fields { s with recursive_calls := s.recursive_calls + 1 })
          hne
        have h0 : (({ s with recursive_calls := s.recursive_calls + 1 } : GState).cell
            (selectField nb cfg { s with recursive_calls := s.recursive_calls + 1 }
              (get_unassigned_fields
                { s with recursive_calls := s.recursive_calls + 1 }))).value = 0 :=
          ((mem_get_unassigned_fields _ _).1 hfield).2
        exact tryValues_false_board nb
          (fun u => backtracking_search nb cfg elapsed timeout fuel u)
          (selectField nb cfg { s with recursive_calls := s.recursive_calls + 1 }
            (get_unassigned_fields
              { s with recursive_calls := s.recursive_calls + 1 })) ih _
          { s with recursive_calls := s.recursive_calls + 1 } t h0 hrun

theorem btFrame_refl (s : GState) : BtFrame s s :=
  ⟨fun _ => rfl, rfl, rfl, rfl⟩

theorem BtFrame.comp {s u t : GState} (h1 : BtFrame s u) (h2 : BtFrame u t) :
    BtFrame s t :=
  ⟨fun i => (h2.1 i).trans (h1.1 i), h2.2.1.trans h1.2.1,
    h2.2.2.1.trans h1.2.2.1, h2.2.2.2.trans h1.2.2.2⟩

theorem btFrame_of_board_eq {s t : GState} (hb : t.board = s.board)
    (he : t.empty_cells = s.empty_cells)
    (hd : t.domain_reductions = s.domain_reductions) : BtFrame s t :=
  ⟨fun i => by rw [cell_of_board_eq hb], he, hd, by rw [hb]⟩

theorem set_value_btFrame (s : GState) (i v : ℕ) :
    BtFrame s (s.set_value i v) :=
  ⟨fun j => set_value_domain s i v j, rfl, rfl, length_set_value s i v⟩

/-- The value loop never touches domains, the empty-cell count, the reduction
counter or the board size. -/
theorem tryValues_frame (nb : ℕ → List ℕ) (recur : GState → BResult)
    (field : ℕ) (hrec : ∀ u, BtFrame u ((recur u).state)) :
    ∀ vs (s : GState), BtFrame s ((tryValues nb recur field vs s).state) := by
  intro vs
  induction vs with
  | nil => intro s; exact btFrame_refl s
  | cons v vs ihv =>
    intro s
    simp only [tryValues]
    have hic : BtFrame s (is_consistent nb
        { s with constraint_checks := s.constraint_checks + 1 } field v).2 := by
      apply btFrame_of_board_eq
      · exact (icLoop_spec v (nb field) _).1
      · exact (icLoop_spec v (nb field) _).2.2.2.2.1
      · exact (icLoop_spec v (nb field) _).2.2.1
    by_cases hicr : (is_consistent nb
        { s with constraint_checks := s.constraint_checks + 1 } field v).1 = true
    · rw [if_pos hicr]
      have hset : BtFrame s ((is_consistent nb
          { s with constraint_checks := s.constraint_checks + 1 } field
            v).2.set_value field v) :=
        hic.comp (set_value_btFrame _ field v)
      split
      next s3 heq =>
        have := hrec ({ (is_consistent nb
            { s with constraint_checks := s.constraint_checks + 1 } field
              v).2.set_value field v with
            assignments := ((is_consistent nb
              { s with constraint_checks := s.constraint_checks + 1 } field
                v).2.set_value field v).assignments + 1 } : GState)
        rw [heq] at this
        exact hset.comp this
      next s3 heq =>
        have hs3 := hrec ({ (is_consistent nb
            { s with constraint_checks := s.constraint_checks + 1 } field
              v).2.set_value field v with
            assignments := ((is_consistent nb
              { s with constraint_checks := s.constraint_checks + 1 } field
                v).2.set_value field v).assignments + 1 } : GState)
        rw [heq] at hs3
        exact (hset.comp hs3).comp
          ((set_value_btFrame s3 field 0).comp (ihv _))
      next s3 heq =>
        have := hrec ({ (is_consistent nb
            { s with constraint_checks := s.constraint_checks + 1 } field
              v).2.set_value field v with
            assignments := ((is_consistent nb
              { s with constraint_checks := s.constraint_checks + 1 } field
                v).2.set_value field v).assignments + 1 } : GState)
        rw [heq] at this
        exact hset.comp this
    · rw [if_neg hicr]
      exact hic.comp (ihv _)

/-- `backtracking_search` never touches domains, the empty-cell count, the
reduction counter or the board size. -/
theorem bt_frame (nb : ℕ → List ℕ) (cfg : Config) (elapsed : ℕ → ℕ)
    (timeout : ℕ) :
    ∀ fuel (s : GState),
      BtFrame s ((backtracking_search nb cfg elapsed timeout fuel s).state) := by
  intro fuel
  induction fuel with
  | zero => intro s; exact btFrame_refl s
  | succ fuel ih =>
    intro s
    simp only [backtracking_search]
    split
    · exact btFrame_refl s
    · split
      · exact btFrame_refl s
      · exact tryValues_frame nb _ _ ih _ _

theorem filter_length_lt_of_flip {p q : ℕ → Bool} :
    ∀ (l : List ℕ), l.Nodup → ∀ (field : ℕ), field ∈ l →
      p field = true → q field = false → (∀ x, x ≠ field → q x = p x) →
      (l.filter q).length < (l.filter p).length := by
  intro l
  induction l with
  | nil => intro _ field hf; cases hf
  | cons a l ihl =>
    intro hnd field hf hp hq hcong
    by_cases haf : a = field
    · subst haf
      rw [List.filter_cons, List.filter_cons, hp, hq]
      have hnotin : a ∉ l := (List.nodup_cons.1 hnd).1
      have hfeq : l.filter q = l.filter p := by
        apply List.filter_congr
        intro x hx
        exact hcong x (fun hxa => hnotin (hxa ▸ hx))
      rw [hfeq]
      simp
    · have hf' : field ∈ l := by
        rcases List.mem_cons.1 hf with h | h
        · exact absurd h.symm haf
        · exact h
      have ihl' := ihl (List.nodup_cons.1 hnd).2 field hf' hp hq hcong
      rw [List.filter_cons, List.filter_cons, hcong a haf]
      by_cases hpa : p a = true
      · rw [hpa]
        simpa using ihl'
      · rw [Bool.not_eq_true] at hpa
        rw [hpa]
        simpa using ihl'

theorem unassigned_count_lt (s : GState) (field v : ℕ) (hf81 : field < 81)
    (hlen : field < s.board.length) (h0 : (s.cell field).value = 0)
    (hv : v ≠ 0) :
    (get_unassigned_fields (s.set_value field v)).length <
      (get_unassigned_fields s).length := by
  unfold get_unassigned_fields
  apply filter_length_lt_of_flip (List.range 81) (List.nodup_range 81) field
    (List.mem_range.2 hf81)
  · simp [Field.is_finalized, h0]
  · rw [GState.set_value, cell_setCell_self _ _ _ hlen]
    simp [Field.is_finalized, hv]
  · intro x hx
    rw [GState.set_value, cell_setCell_ne _ _ _ _ hx]

/-- Totality of the value loop with a total recursive call that restores the
board on failure. -/
theorem tryValues_total (nb : ℕ → List ℕ) (recur : GState → BResult)
    (field : ℕ) (s1 : GState) (h0 : (s1.cell field).value = 0)
    (hrec : ∀ (v : ℕ), v ≠ 0 → ∀ (u : GState),
      u.board = (s1.set_value field v).board →
      ∃ b t, recur u = .done b t ∧ (b = false → t.board = u.board)) :
    ∀ vs (u : GState), (∀ w ∈ vs, w ≠ 0) → u.board = s1.board →
      ∃ b t, tryValues nb recur field vs u = .done b t := by
  intro vs
  induction vs with
  | nil => intro u _ _; exact ⟨false, u, rfl⟩
  | cons v vs ihv =>
    intro u hws hub
    simp only [tryValues]
    have hicb : (is_consistent nb
        { u with constraint_checks := u.constraint_checks + 1 } field v).2.board
        = u.board := (icLoop_spec v (nb field) _).1
    by_cases hic : (is_consistent nb
        { u with constraint_checks := u.constraint_checks + 1 } field v).1 = true
    · rw [if_pos hic]
      have hs2b : ({ (is_consistent nb
          { u with constraint_checks := u.constraint_checks + 1 } field
            v).2.set_value field v with
          assignments := ((is_consistent nb
            { u with constraint_checks := u.constraint_checks + 1 } field
              v).2.set_value field v).assignments + 1 } : GState).board
          = (s1.set_value field v).board := by
        show ((is_consistent nb
          { u with constraint_checks := u.constraint_checks + 1 } field
            v).2.set_value field v).board = (s1.set_value field v).board
        rw [GState.set_value, GState.setCell, GState.set_value, GState.setCell]
        show ((is_consistent nb _ field v).2.board).set field _ = _
        rw [cell_of_board_eq (hicb.trans hub), hicb, hub]
      obtain ⟨b, t, hbt, hres⟩ :=
        hrec v (hws v (List.mem_cons_self _ _)) _ hs2b
      rw [hbt]
      match b, hbt, hres with
      | true, _, _ => exact ⟨true, t, rfl⟩
      | false, hbt, hres =>
        apply ihv _ (fun w hw => hws w (List.mem_cons_of_mem _ hw))
        have ht : t.board = (s1.set_value field v).board :=
          (hres rfl).trans hs2b
        exact assign_unassign_board s1 field v h0 t ht
    · rw [if_neg hic]
      exact ihv _ (fun w hw => hws w (List.mem_cons_of_mem _ hw))
        (hicb.trans hub)

/-- With a quiet clock and enough fuel, `backtracking_search` returns a
normal boolean verdict (no timeout, no fuel exhaustion). -/
theorem bt_total (nb : ℕ → List ℕ) (cfg : Config) (elapsed : ℕ → ℕ)
    (timeout : ℕ)
    (hquiet : ∀ n, timeoutHit elapsed timeout n = false) :
    ∀ fuel (s : GState), DomPos s → s.board.length = 81 →
      (get_unassigned_fields s).length < fuel →
      ∃ b t, backtracking_search nb cfg elapsed timeout fuel s = .done b t := by
  intro fuel
  induction fuel with
  | zero => intro s _ _ h; omega
  | succ fuel ih =>
    intro s hpos hlen hcount
    simp only [backtracking_search]
    rw [if_neg (by rw [hquiet]; simp)]
    by_cases hemp : (get_unassigned_fields
        ({ s with recursive_calls := s.recursive_calls + 1 } : GState)).isEmpty = true
    · rw [if_pos hemp]
      exact ⟨true, _, rfl⟩
    · rw [if_neg hemp]
      have hne : get_unassigned_fields
          ({ s with recursive_calls := s.recursive_calls + 1 } : GState) ≠ [] := by
        intro hc
        rw [hc] at hemp
        exact hemp rfl
      have hfield := selectField_mem nb cfg
        { s with recursive_calls := s.recursive_calls + 1 }
        (get_unassigned_fields { s with recursive_calls := s.recursive_calls + 1 })
        hne
      obtain ⟨hf81, hf0⟩ := (mem_get_unassigned_fields _ _).1 hfield
      refine tryValues_total nb _ _
        ({ s with recursive_calls := s.recursive_calls + 1 } : GState) hf0 ?_ _ _
        (fun w hw hw0 => hpos _ (hw0 ▸ hw)) rfl
      intro v hv0 u hub
      obtain ⟨b, t, hbt⟩ := ih u
        (fun i => by
          intro hmem
          rw [cell_of_board_eq hub, set_value_domain] at hmem
          exact hpos i hmem)
        (by rw [hub, length_set_value]; exact hlen)
        (by
          rw [get_unassigned_eq_of_board_eq hub]
          have hdec := unassigned_count_lt
            ({ s with recursive_calls := s.recursive_calls + 1 } : GState)
            (selectField nb cfg { s with recursive_calls := s.recursive_calls + 1 }
              (get_unassigned_fields
                { s with recursive_calls := s.recursive_calls + 1 }))
            v hf81 (show _ < s.board.length by omega) hf0 hv0
          have hcount' : (get_unassigned_fields
              ({ s with recursive_calls := s.recursive_calls + 1 } : GState)).length
              < fuel + 1 := hcount
          omega)
      exact ⟨b, t, hbt, fun hb =>
        bt_false_board nb cfg elapsed timeout fuel u t (hb ▸ hbt)⟩

/-! Preservation of validity (no conflicting peers) through the search. -/

theorem noConflicts_of_board_eq {s t : GState} (h : t.board = s.board)
    (hn : NoConflicts s) : NoConflicts t := by
  intro i j hij
  rw [cell_of_board_eq h, cell_of_board_eq h]
  exact hn i j hij

theorem domPos_of_board_eq {s t : GState} (h : t.board = s.board)
    (hp : DomPos s) : DomPos t := by
  intro i
  rw [cell_of_board_eq h]
  exact hp i

theorem domPos_set_value (s : GState) (i v : ℕ) (hp : DomPos s) :
    DomPos (s.set_value i v) := by
  intro j hmem
  rw [set_value_domain] at hmem
  exact hp j hmem

/-- Assigning a value that passes the consistency scan keeps the board free
of conflicting peers. -/
theorem noConflicts_set_value {nb : ℕ → List ℕ} (hnb : ValidNbrs nb)
    (s : GState) (field v : ℕ) (hf81 : field < 81) (hv : v ≠ 0)
    (hcons : ∀ n ∈ nb field, ¬((s.cell n).value ≠ 0 ∧ (s.cell n).value = v))
    (h : NoConflicts s) : NoConflicts (s.set_value field v) := by
  by_cases hlen : field < s.board.length
  · intro i j hij
    obtain ⟨hi81, hj81, hne⟩ := isNbr_lt i j hij
    have hcf : (s.set_value field v).cell field = { s.cell field with value := v } := by
      rw [GState.set_value, cell_setCell_self _ _ _ hlen]
    by_cases hif : i = field
    · subst hif
      right
      rw [hcf]
      show v ≠ ((s.set_value i v).cell j).value
      rw [set_value_value_ne _ _ _ _ (fun hj => hne hj.symm)]
      have hjmem : j ∈ nb i := hnb.mem_of_isNbr hij
      intro heqv
      by_cases hj0 : (s.cell j).value = 0
      · exact hv (heqv.trans hj0)
      · exact hcons j hjmem ⟨hj0, heqv.symm⟩
    · rw [set_value_value_ne _ _ _ _ hif]
      by_cases hjf : j = field
      · subst hjf
        by_cases hi0 : (s.cell i).value = 0
        · exact Or.inl hi0
        · right
          rw [hcf]
          show (s.cell i).value ≠ v
          have himem : i ∈ nb j := hnb.mem_of_isNbr (isNbr_symm i j ▸ hij)
          intro heqv
          exact hcons i himem ⟨hi0, heqv⟩
      · rw [set_value_value_ne _ _ _ _ hjf]
        exact h i j hij
  · exact noConflicts_of_board_eq
      (set_value_board_of_ge s field v (le_of_not_lt hlen)) h

/-- Resetting a cell to unassigned keeps the board conflict free. -/
theorem noConflicts_unassign (s : GState) (field : ℕ) (h : NoConflicts s) :
    NoConflicts (s.set_value field 0) := by
  by_cases hlen : field < s.board.length
  · intro i j hij
    by_cases hif : i = field
    · subst hif
      exact Or.inl (set_value_zero_value s i)
    · rw [set_value_value_ne _ _ _ _ hif]
      by_cases hjf : j = field
      · subst hjf
        by_cases hi0 : (s.cell i).value = 0
        · exact Or.inl hi0
        · right
          rw [GState.set_value, cell_setCell_self _ _ _ hlen]
          exact hi0
      · rw [set_value_value_ne _ _ _ _ hjf]
        exact h i j hij
  · exact noConflicts_of_board_eq
      (set_value_board_of_ge s field 0 (le_of_not_lt hlen)) h

/-- The value loop preserves positive domains and conflict freedom. -/
theorem tryValues_noConflicts {nb : ℕ → List ℕ} (hnb : ValidNbrs nb)
    (recur : GState → BResult) (field : ℕ) (hf81 : field < 81)
    (hrec : ∀ u, DomPos u → NoConflicts u →
      DomPos ((recur u).state) ∧ NoConflicts ((recur u).state)) :
    ∀ vs (u : GState), (∀ w ∈ vs, w ≠ 0) → DomPos u → NoConflicts u →
      DomPos ((tryValues nb recur field vs u).state) ∧
        NoConflicts ((tryValues nb recur field vs u).state) := by
  intro vs
  induction vs with
  | nil => intro u _ hp hc; exact ⟨hp, hc⟩
  | cons v vs ihv =>
    intro u hws hp hc
    simp only [tryValues]
    have hicb : (is_consistent nb
        { u with constraint_checks := u.constraint_checks + 1 } field v).2.board
        = u.board := (icLoop_spec v (nb field) _).1
    have hpic : DomPos (is_consistent nb
        { u with constraint_checks := u.constraint_checks + 1 } field v).2 :=
      domPos_of_board_eq hicb hp
    have hcic : NoConflicts (is_consistent nb
        { u with constraint_checks := u.constraint_checks + 1 } field v).2 :=
      noConflicts_of_board_eq hicb hc
    by_cases hicr : (is_consistent nb
        { u with constraint_checks := u.constraint_checks + 1 } field v).1 = true
    · rw [if_pos hicr]
      have hscan := ((icLoop_spec v (nb field)
        ({ u with constraint_checks := u.constraint_checks + 1 } : GState)).2.2.2.2.2).1
        hicr
      have hcons : ∀ n ∈ nb field,
          ¬(((is_consistent nb { u with
              constraint_checks := u.constraint_checks + 1 } field v).2.cell n).value ≠ 0 ∧
            ((is_consistent nb { u with
              constraint_checks := u.constraint_checks + 1 } field v).2.cell n).value = v) := by
        intro n hn
        rw [cell_of_board_eq hicb]
        exact hscan n hn
      have hps2 : DomPos ({ (is_consistent nb
          { u with constraint_checks := u.constraint_checks + 1 } field
            v).2.set_value field v with
          assignments := ((is_consistent nb
            { u with constraint_checks := u.constraint_checks + 1 } field
              v).2.set_value field v).assignments + 1 } : GState) :=
        domPos_set_value _ field v hpic
      have hcs2 : NoConflicts ({ (is_consistent nb
          { u with constraint_checks := u.constraint_checks + 1 } field
            v).2.set_value field v with
          assignments := ((is_consistent nb
            { u with constraint_checks := u.constraint_checks + 1 } field
              v).2.set_value field v).assignments + 1 } : GState) :=
        noConflicts_set_value hnb _ field v hf81
          (hws v (List.mem_cons_self _ _)) hcons hcic
      obtain ⟨hpr, hcr⟩ := hrec _ hps2 hcs2
      split
      next s3 heq =>
        rw [heq] at hpr hcr
        exact ⟨hpr, hcr⟩
      next s3 heq =>
        rw [heq] at hpr hcr
        exact ihv _ (fun w hw => hws w (List.mem_cons_of_mem _ hw))
          (domPos_set_value s3 field 0 hpr) (noConflicts_unassign s3 field hcr)
      next s3 heq =>
        rw [heq] at hpr hcr
        exact ⟨hpr, hcr⟩
    · rw [if_neg hicr]
      exact ihv _ (fun w hw => hws w (List.mem_cons_of_mem _ hw)) hpic hcic

/-- `backtracking_search` preserves positive domains and conflict freedom,
whatever the outcome. -/
theorem bt_noConflicts {nb : ℕ → List ℕ} (hnb : ValidNbrs nb) (cfg : Config)
    (elapsed : ℕ → ℕ) (timeout : ℕ) :
    ∀ fuel (s : GState), DomPos s → NoConflicts s →
      DomPos ((backtracking_search nb cfg elapsed timeout fuel s).state) ∧
        NoConflicts ((backtracking_search nb cfg elapsed timeout fuel s).state) := by
  intro fuel
  induction fuel with
  | zero => intro s hp hc; exact ⟨hp, hc⟩
  | succ fuel ih =>
    intro s hp hc
    simp only [backtracking_search]
    split
    · exact ⟨hp, hc⟩
    · split
      · exact ⟨hp, hc⟩
      next hempty =>
        have hne : get_unassigned_fields
            ({ s with recursive_calls := s.recursive_calls + 1 } : GState) ≠ [] := by
          intro hcon
          rw [hcon] at hempty
          exact hempty rfl
        have hfield := selectField_mem nb cfg
          { s with recursive_calls := s.recursive_calls + 1 }
          (get_unassigned_fields
            { s with recursive_calls := s.recursive_calls + 1 }) hne
        obtain ⟨hf81, _⟩ := (mem_get_unassigned_fields _ _).1 hfield
        exact tryValues_noConflicts hnb _ _ hf81 ih _ _
          (fun w hw hw0 => hp _ (hw0 ▸ hw)) hp hc

/-! Completeness: on a solvable board a quiet clock forces success. -/

theorem agrees_of_board_eq {s t : GState} (h : t.board = s.board)
    {sol : List ℕ} (hA : Agrees s sol) : Agrees t sol := by
  intro i hi
  rw [cell_of_board_eq h]
  exact hA i hi

theorem domOK_of_board_eq {s t : GState} (h : t.board = s.board)
    {sol : List ℕ} (hD : DomOK s sol) : DomOK t sol := by
  intro i hi
  rw [cell_of_board_eq h]
  exact hD i hi

theorem agrees_set_value_sol {s1 : GState} (sol : List ℕ) (field : ℕ)
    (hlen : field < s1.board.length) (hA : Agrees s1 sol) :
    Agrees (s1.set_value field (sol.getD field 0)) sol := by
  intro i hi hvi
  by_cases hif : i = field
  · subst hif
    rw [set_value_value_self _ _ _ hlen]
  · rw [set_value_value_ne _ _ _ _ hif] at hvi ⊢
    exact hA i hi hvi

theorem domOK_set_value {s1 : GState} (sol : List ℕ) (field v : ℕ)
    (hlen : field < s1.board.length) (hv : v ≠ 0) (hD : DomOK s1 sol) :
    DomOK (s1.set_value field v) sol := by
  intro i hi h0
  by_cases hif : i = field
  · subst hif
    rw [set_value_value_self _ _ _ hlen] at h0
    exact absurd h0 hv
  · rw [set_value_value_ne _ _ _ _ hif] at h0
    rw [set_value_domain]
    exact hD i hi h0

/-- The value loop succeeds when the solution value of the selected field is
among the candidates, the recursion is total on other values and complete on
the solution value. -/
theorem tryValues_complete {nb : ℕ → List ℕ} (hnb : ValidNbrs nb)
    (sol : List ℕ) (hsol : ProperSol sol) (recur : GState → BResult)
    (field : ℕ) (hf81 : field < 81) (s1 : GState)
    (h0 : (s1.cell field).value = 0) (hA : Agrees s1 sol)
    (hrec_total : ∀ (v : ℕ), v ≠ 0 → ∀ u,
      u.board = (s1.set_value field v).board →
      ∃ b t, recur u = .done b t ∧ (b = false → t.board = u.board))
    (hrec_complete : ∀ u,
      u.board = (s1.set_value field (sol.getD field 0)).board →
      ∃ t, recur u = .done true t) :
    ∀ vs (u : GState), (∀ w ∈ vs, w ≠ 0) → u.board = s1.board →
      sol.getD field 0 ∈ vs →
      ∃ t, tryValues nb recur field vs u = .done true t := by
  intro vs
  induction vs with
  | nil => intro u _ _ hmem; cases hmem
  | cons v vs ihv =>
    intro u hws hub hmem
    simp only [tryValues]
    have hicb : (is_consistent nb
        { u with constraint_checks := u.constraint_checks + 1 } field v).2.board
        = u.board := (icLoop_spec v (nb field) _).1
    have hs2b : ∀ hyp : (is_consistent nb
          { u with constraint_checks := u.constraint_checks + 1 } field v).1 = true,
        ({ (is_consistent nb
          { u with constraint_checks := u.constraint_checks + 1 } field
            v).2.set_value field v with
          assignments := ((is_consistent nb
            { u with constraint_checks := u.constraint_checks + 1 } field
              v).2.set_value field v).assignments + 1 } : GState).board
          = (s1.set_value field v).board := by
      intro _
      show ((is_consistent nb
        { u with constraint_checks := u.constraint_checks + 1 } field
          v).2.set_value field v).board = (s1.set_value field v).board
      rw [GState.set_value, GState.setCell, GState.set_value, GState.setCell]
      show ((is_consistent nb _ field v).2.board).set field _ = _
      rw [cell_of_board_eq (hicb.trans hub), hicb, hub]
    by_cases hveq : v = sol.getD field 0
    · subst hveq
      have hic : (is_consistent nb
          { u with constraint_checks := u.constraint_checks + 1 } field
            (sol.getD field 0)).1 = true := by
        apply ((icLoop_spec (sol.getD field 0) (nb field)
          ({ u with constraint_checks := u.constraint_checks + 1 } : GState)).2.2.2.2.2).2
        intro n hn hviol
        have hnn : isNbr field n = true := hnb.isNbr_of_mem hf81 hn
        have hn81 : n < 81 := (isNbr_lt _ _ hnn).2.1
        have hcells : (({ u with constraint_checks := u.constraint_checks + 1 } :
            GState).cell n) = s1.cell n := cell_of_board_eq hub n
        rw [hcells] at hviol
        have hval : (s1.cell n).value = sol.getD n 0 := hA n hn81 hviol.1
        have hdist : sol.getD field 0 ≠ sol.getD n 0 :=
          hsol.2.2 field hf81 n ((mem_sudokuNbrs field n).2 hnn)
        rw [hval] at hviol
        exact hdist hviol.2.symm
      rw [if_pos hic]
      obtain ⟨t, ht⟩ := hrec_complete _ (hs2b hic)
      rw [ht]
      exact ⟨t, rfl⟩
    · by_cases hic : (is_consistent nb
          { u with constraint_checks := u.constraint_checks + 1 } field v).1 = true
      · rw [if_pos hic]
        obtain ⟨b, t, hbt, hres⟩ :=
          hrec_total v (hws v (List.mem_cons_self _ _)) _ (hs2b hic)
        rw [hbt]
        match b, hbt, hres with
        | true, _, _ => exact ⟨t, rfl⟩
        | false, hbt, hres =>
          apply ihv _ (fun w hw => hws w (List.mem_cons_of_mem _ hw))
          · have ht : t.board = (s1.set_value field v).board :=
              (hres rfl).trans (hs2b hic)
            exact assign_unassign_board s1 field v h0 t ht
          · rcases List.mem_cons.1 hmem with hm | hm
            · exact absurd hm.symm hveq
            · exact hm
      · rw [if_neg hic]
        refine ihv _ (fun w hw => hws w (List.mem_cons_of_mem _ hw))
          (hicb.trans hub) ?_
        rcases List.mem_cons.1 hmem with hm | hm
        · exact absurd hm.symm hveq
        · exact hm

/-- Completeness of `backtracking_search`: a board that agrees with a proper
solution, with every unassigned domain still containing its solution value
and no zero candidates, is solved under a quiet clock with enough fuel. -/
theorem bt_complete {nb : ℕ → List ℕ} (hnb : ValidNbrs nb) (cfg : Config)
    (elapsed : ℕ → ℕ) (timeout : ℕ)
    (hquiet : ∀ n, timeoutHit elapsed timeout n = false)
    (sol : List ℕ) (hsol : ProperSol sol) :
    ∀ fuel (s : GState), Agrees s sol → DomOK s sol → DomPos s →
      s.board.length = 81 → (get_unassigned_fields s).length < fuel →
      ∃ t, backtracking_search nb cfg elapsed timeout fuel s = .done true t := by
  intro fuel
  induction fuel with
  | zero => intro s _ _ _ _ h; omega
  | succ fuel ih =>
    intro s hA hD hP hlen hcount
    simp only [backtracking_search]
    rw [if_neg (by rw [hquiet]; simp)]
    by_cases hemp : (get_unassigned_fields
        ({ s with recursive_calls := s.recursive_calls + 1 } : GState)).isEmpty = true
    · rw [if_pos hemp]
      exact ⟨_, rfl⟩
    · rw [if_neg hemp]
      have hne : get_unassigned_fields
          ({ s with recursive_calls := s.recursive_calls + 1 } : GState) ≠ [] := by
        intro hc
        rw [hc] at hemp
        exact hemp rfl
      have hfield := selectField_mem nb cfg
        { s with recursive_calls := s.recursive_calls + 1 }
        (get_unassigned_fields { s with recursive_calls := s.recursive_calls + 1 })
        hne
      obtain ⟨hf81, hf0⟩ := (mem_get_unassigned_fields _ _).1 hfield
      refine tryValues_complete hnb sol hsol _ _ hf81
        ({ s with recursive_calls := s.recursive_calls + 1 } : GState) hf0 hA
        ?_ ?_ _ _ (fun w hw hw0 => hP _ (hw0 ▸ hw)) rfl
        (hD _ hf81 hf0)
      · intro v hv0 u hub
        obtain ⟨b, t, hbt⟩ := bt_total nb cfg elapsed timeout hquiet fuel u
          (fun i hmem => by
            rw [cell_of_board_eq hub, set_value_domain] at hmem
            exact hP i hmem)
          (by rw [hub, length_set_value]; exact hlen)
          (by
            rw [get_unassigned_eq_of_board_eq hub]
            have hdec := unassigned_count_lt
              ({ s with recursive_calls := s.recursive_calls + 1 } : GState)
              (selectField nb cfg
                { s with recursive_calls := s.recursive_calls + 1 }
                (get_unassigned_fields
                  { s with recursive_calls := s.recursive_calls + 1 }))
              v hf81 (show _ < s.board.length by omega) hf0 hv0
            have hcount' : (get_unassigned_fields
                ({ s with recursive_calls := s.recursive_calls + 1 } :
                  GState)).length < fuel + 1 := hcount
            omega)
        exact ⟨b, t, hbt, fun hb =>
          bt_false_board nb cfg elapsed timeout fuel u t (hb ▸ hbt)⟩
      · intro u hub
        have hsol0 : sol.getD (selectField nb cfg
            { s with recursive_calls := s.recursive_calls + 1 }
            (get_unassigned_fields
              { s with recursive_calls := s.recursive_calls + 1 })) 0 ≠ 0 := by
          have := (hsol.2.1 _ hf81).1
          omega
        apply ih u
        · exact agrees_of_board_eq hub (agrees_set_value_sol sol _
            (show _ < s.board.length by omega) hA)
        · exact domOK_of_board_eq hub (domOK_set_value sol _ _
            (show _ < s.board.length by omega) hsol0 hD)
        · intro i hmem
          rw [cell_of_board_eq hub, set_value_domain] at hmem
          exact hP i hmem
        · rw [hub, length_set_value]
          exact hlen
        · rw [get_unassigned_eq_of_board_eq hub]
          have hdec := unassigned_count_lt
            ({ s with recursive_calls := s.recursive_calls + 1 } : GState)
            (selectField nb cfg
              { s with recursive_calls := s.recursive_calls + 1 }
              (get_unassigned_fields
                { s with recursive_calls := s.recursive_calls + 1 }))
            (sol.getD (selectField nb cfg
              { s with recursive_calls := s.recursive_calls + 1 }
              (get_unassigned_fields
                { s with recursive_calls := s.recursive_calls + 1 })) 0)
            hf81 (show _ < s.board.length by omega) hf0 hsol0
          have hcount' : (get_unassigned_fields
              ({ s with recursive_calls := s.recursive_calls + 1 } :
                GState)).length < fuel + 1 := hcount
          omega

/-! Assembling `Game.solve`: AC-3 keeps the solution reachable. -/

theorem qok_initialQueue (nb : ℕ → List ℕ) (s : GState) :
    QOk nb s (initialQueue nb) := by
  intro p hp
  have := (mem_initialQueue nb p.1 p.2).1 (by simpa using hp)
  exact Or.inl this.2

/-- Along a sane queue, the worklist loop never wipes out a board that still
agrees with a proper solution, and it keeps the solution reachable. -/
theorem ac3Loop_solution {nb : ℕ → List ℕ} (hnb : ValidNbrs nb) (cfg : Config)
    (sol : List ℕ) (hsol : ProperSol sol) :
    ∀ fuel q s b t, QOk nb s q → s.board.length = 81 → Agrees s sol →
      DomOK s sol → ac3Loop nb cfg fuel q s = some (b, t) →
      b = true ∧ Agrees t sol ∧ DomOK t sol := by
  intro fuel
  induction fuel with
  | zero => intro q s b t _ _ _ _ h; simp [ac3Loop] at h
  | succ fuel ih =>
    intro q s b t hq hlen hA hD hrun
    match q with
    | [] =>
      simp only [ac3Loop, Option.some.injEq, Prod.mk.injEq] at hrun
      obtain ⟨hb, ht⟩ := hrun
      exact ⟨hb.symm, ht ▸ hA, ht ▸ hD⟩
    | (i, j) :: q' =>
      simp only [ac3Loop] at hrun
      by_cases hr : (revise s i j).1 = true
      · obtain ⟨hi0, hj0, hmem⟩ :
            (s.cell i).value = 0 ∧ (s.cell j).value ≠ 0 ∧
            (s.cell j).value ∈ (s.cell i).domain := by
          rcases revise_cases s i j with ⟨hf, _⟩ | ⟨_, h1, h2, h3, _⟩
          · rw [hf] at hr; cases hr
          · exact ⟨h1, h2, h3⟩
        have hi81 : i < 81 := hlen ▸ lt_length_of_domain_mem s i hmem
        have hjnb : j ∈ nb i := by
          rcases hq (i, j) (List.mem_cons_self _ _) with h | h
          · exact h
          · exact absurd h hj0
        have hijn : isNbr i j = true := hnb.isNbr_of_mem hi81 hjnb
        have hj81 : j < 81 := (isNbr_lt i j hijn).2.1
        have hsolne : sol.getD i 0 ≠ sol.getD j 0 :=
          hsol.2.2 i hi81 j ((mem_sudokuNbrs i j).2 hijn)
        have hvj : (s.cell j).value = sol.getD j 0 := hA j hj81 hj0
        have hA' : Agrees (revise s i j).2 sol :=
          fun k hk hv => by
            rw [revise_values s i j k] at hv ⊢
            exact hA k hk hv
        have hD' : DomOK (revise s i j).2 sol := by
          intro k hk hv
          rw [revise_values s i j k] at hv
          rw [revise_true_cell s i j k hr]
          by_cases hki : k = i
          · subst hki
            rw [if_pos rfl, mem_remove_from_domain]
            refine ⟨hD k hk hv, ?_⟩
            rw [hvj]
            exact hsolne
          · rw [if_neg hki]
            exact hD k hk hv
        have hlen' : (revise s i j).2.board.length = 81 := by
          rw [(revise_counters s i j).2.2.2.2]
          exact hlen
        rw [if_pos hr] at hrun
        by_cases hd : ((revise s i j).2.cell i).get_domain_size = 0
        · exfalso
          have hsoli : sol.getD i 0 ∈ ((revise s i j).2.cell i).domain := by
            apply hD' i hi81
            rw [revise_values s i j i]
            exact hi0
          rw [Field.get_domain_size, List.length_eq_zero] at hd
          rw [hd] at hsoli
          cases hsoli
        · rw [if_neg hd] at hrun
          apply ih _ _ _ _ _ hlen' hA' hD' hrun
          intro p hp
          rcases List.mem_append.1 hp with hp' | hp'
          · rcases hq p (List.mem_cons_of_mem _ hp') with hm | h0
            · exact Or.inl hm
            · exact Or.inr (by rw [revise_values s i j p.2]; exact h0)
          · obtain ⟨k, _, hpk⟩ := List.mem_map.1 hp'
            have hp2 : p.2 = i := by rw [← hpk]
            rw [hp2]
            exact Or.inr (by rw [revise_values s i j i]; exact hi0)
      · rw [if_neg hr] at hrun
        have hs : (revise s i j).2 = s := by
          rcases revise_cases s i j with ⟨_, hst⟩ | ⟨ht, _⟩
          · exact hst
          · exact absurd ht hr
        rw [hs] at hrun
        exact ih _ _ _ _ (fun p hp => hq p (List.mem_cons_of_mem _ hp))
          hlen hA hD hrun

theorem noConflicts_of_values_eq {s t : GState}
    (h : ∀ i, (t.cell i).value = (s.cell i).value) (hn : NoConflicts s) :
    NoConflicts t := by
  intro i j hij
  rw [h i, h j]
  exact hn i j hij

theorem unassigned_le_81 (s : GState) :
    (get_unassigned_fields s).length ≤ 81 := by
  calc (get_unassigned_fields s).length
      ≤ (List.range 81).length := (List.filter_sublist _).length_le
    _ = 81 := List.length_range 81

theorem initState_cell (grid : List ℕ) (i : ℕ) (hi : i < grid.length) :
    (initState grid).cell i = mkField (grid.getD i 0) := by
  unfold initState GState.cell mkBoard
  simp only []
  rw [List.getD_eq_getElem _ _ (by simpa using hi),
    List.getElem_map, List.getD_eq_getElem _ _ hi]

theorem initState_length (grid : List ℕ) :
    (initState grid).board.length = grid.length := by
  unfold initState mkBoard
  simp

/-- The initial board built from a puzzle with solution `sol` satisfies every
search invariant. -/
theorem initState_bundle (grid sol : List ℕ) (hsol : IsSolutionOf grid sol) :
    Agrees (initState grid) sol ∧ DomOK (initState grid) sol ∧
      DomPos (initState grid) ∧ (initState grid).board.length = 81 := by
  obtain ⟨hps, hglen, hext⟩ := hsol
  refine ⟨?_, ?_, ?_, by rw [initState_length, hglen]⟩
  · intro i hi hv
    rw [initState_cell grid i (by omega)] at hv ⊢
    unfold mkField at hv ⊢
    by_cases hg : grid.getD i 0 = 0
    · rw [if_pos hg] at hv
      simp at hv
    · rw [if_neg hg] at hv ⊢
      exact hext i hi hg
  · intro i hi hv
    rw [initState_cell grid i (by omega)] at hv ⊢
    unfold mkField at hv ⊢
    by_cases hg : grid.getD i 0 = 0
    · rw [if_pos hg]
      have := hps.2.1 i hi
      simp only [List.mem_cons]
      omega
    · rw [if_neg hg] at hv
      exact absurd hv hg
  · intro i
    by_cases hi : i < grid.length
    · rw [initState_cell grid i hi]
      unfold mkField
      by_cases hg : grid.getD i 0 = 0
      · rw [if_pos hg]
        simp
      · rw [if_neg hg]
        simp
    · rw [cell_of_ge_length _ _ (by rw [initState_length]; omega)]
      simp [default]

/-- Preprocessing keeps every search invariant and the agreement with a
proper solution. -/
theorem preprocess_bundle {nb : ℕ → List ℕ} (hnb : ValidNbrs nb)
    (sol : List ℕ) (hsol : ProperSol sol) (s : GState)
    (hA : Agrees s sol) (hD : DomOK s sol) (hP : DomPos s)
    (hlen : s.board.length = 81) :
    Agrees (preprocess_constraints nb s) sol ∧
      DomOK (preprocess_constraints nb s) sol ∧
      DomPos (preprocess_constraints nb s) ∧
      (preprocess_constraints nb s).board.length = 81 ∧
      (∀ i, ((preprocess_constraints nb s).cell i).value = (s.cell i).value) := by
  obtain ⟨pv, pd, pc, _⟩ := preprocess_constraints_spec nb s
  refine ⟨?_, ?_, ?_, by rw [pc.2.2.2.2]; exact hlen, pv⟩
  · intro i hi hv
    rw [pv i] at hv ⊢
    exact hA i hi hv
  · intro i hi hv
    rw [pv i] at hv
    rw [pd i, if_pos hv, List.mem_filter]
    refine ⟨hD i hi hv, ?_⟩
    simp only [Bool.not_eq_true']
    rw [revExcludedB_eq_nbrExcludedB hnb s hi]
    unfold nbrExcludedB
    rw [List.any_eq_false]
    intro j hj
    rw [Bool.and_eq_true, beq_iff_eq]
    intro ⟨hjv, hjne⟩
    have hijn : isNbr i j = true := hnb.isNbr_of_mem hi hj
    have hj81 : j < 81 := (isNbr_lt i j hijn).2.1
    have hj0 : (s.cell j).value ≠ 0 := by simpa using hjne
    have := hA j hj81 hj0
    have hdist : sol.getD i 0 ≠ sol.getD j 0 :=
      hsol.2.2 i hi j ((mem_sudokuNbrs i j).2 hijn)
    exact hdist (this.symm.trans hjv).symm
  · intro i hmem
    rw [pd i] at hmem
    by_cases hv : (s.cell i).value = 0
    · rw [if_pos hv] at hmem
      exact hP i (List.mem_filter.1 hmem).1
    · rw [if_neg hv] at hmem
      exact hP i hmem

theorem domPos_of_shrink {s t : GState} (h : DomShrink s t) (hp : DomPos s) :
    DomPos t := fun i hm => hp i ((h i).mem hm)

/-- The state `Game.solve` starts from satisfies every search invariant,
whether or not preprocessing is enabled. -/
theorem mkGame_bundle {nb : ℕ → List ℕ} (hnb : ValidNbrs nb) (cfg : Config)
    (grid sol : List ℕ) (hsol : IsSolutionOf grid sol) :
    Agrees (mkGame nb cfg grid) sol ∧ DomOK (mkGame nb cfg grid) sol ∧
      DomPos (mkGame nb cfg grid) ∧ (mkGame nb cfg grid).board.length = 81 ∧
      (∀ i, ((mkGame nb cfg grid).cell i).value =
        ((initState grid).cell i).value) := by
  obtain ⟨hA, hD, hP, hlen⟩ := initState_bundle grid sol hsol
  unfold mkGame
  by_cases hpp : cfg.enable_preprocessing
  · rw [if_pos hpp]
    obtain ⟨a, d, p, l, v⟩ := preprocess_bundle hnb sol hsol.1 _ hA hD hP hlen
    exact ⟨a, d, p, l, v⟩
  · rw [if_neg hpp]
    exact ⟨hA, hD, hP, hlen, fun i => rfl⟩

/-- Soundness of `Game.solve`: a successful run leaves a board passing
`valid_solution`, for any neighbour enumeration, flags and clock. -/
theorem solve_sound {nb : ℕ → List ℕ} (hnb : ValidNbrs nb) (cfg : Config)
    (elapsed : ℕ → ℕ) (timeout : ℕ) (s : GState)
    (hP : DomPos s) (hc : NoConflicts s) :
    ∀ t, solve nb cfg elapsed timeout s = .done true t →
      valid_solution t = true := by
  intro t hrun
  unfold solve at hrun
  rcases hac : ac3 nb cfg s with _ | ⟨b, s1⟩
  · rw [hac] at hrun
    simp at hrun
  · rw [hac] at hrun
    have hac2 := hac
    unfold ac3 at hac2
    rcases b with _ | _
    · simp at hrun
    · obtain ⟨hveq, hshr, _, _, _⟩ :=
        ac3Loop_acRel nb cfg _ _ _ _ _ (qok_initialQueue nb s) hac2
      have hc1 : NoConflicts s1 := noConflicts_of_values_eq hveq hc
      have hP1 : DomPos s1 := domPos_of_shrink hshr hP
      have hrun2 : (if is_fully_assigned s1 then BResult.done true s1
          else backtracking_search nb cfg elapsed timeout 82 s1) =
          BResult.done true t := hrun
      by_cases hfa : is_fully_assigned s1 = true
      · rw [if_pos hfa] at hrun2
        injection hrun2 with h1 h2
        rw [← h2]
        exact (valid_solution_iff_noConflicts s1).2 hc1
      · rw [if_neg hfa] at hrun2
        have hbt := (bt_noConflicts hnb cfg elapsed timeout 82 s1 hP1 hc1).2
        rw [hrun2] at hbt
        exact (valid_solution_iff_noConflicts t).2 hbt

/-- Completeness of `Game.solve`: on a board that still admits a proper
solution, a run on a quiet clock succeeds. -/
theorem solve_success {nb : ℕ → List ℕ} (hnb : ValidNbrs nb) (cfg : Config)
    (elapsed : ℕ → ℕ) (timeout : ℕ)
    (hquiet : ∀ n, timeoutHit elapsed timeout n = false)
    (sol : List ℕ) (hsol : ProperSol sol) (s : GState)
    (hA : Agrees s sol) (hD : DomOK s sol) (hP : DomPos s)
    (hlen : s.board.length = 81) :
    ∃ t, solve nb cfg elapsed timeout s = .done true t := by
  have hsome := ac3_isSome nb cfg s (fun i hi => hnb.length_le hi) (by omega)
  obtain ⟨⟨b, s1⟩, hac⟩ := Option.isSome_iff_exists.1 hsome
  have hac2 := hac
  unfold ac3 at hac2
  obtain ⟨hb, hA1, hD1⟩ := ac3Loop_solution hnb cfg sol hsol _ _ _ _ _
    (qok_initialQueue nb s) hlen hA hD hac2
  subst hb
  obtain ⟨hveq, hshr, _, _, hcnt⟩ :=
    ac3Loop_acRel nb cfg _ _ _ _ _ (qok_initialQueue nb s) hac2
  have hP1 : DomPos s1 := domPos_of_shrink hshr hP
  have hlen1 : s1.board.length = 81 := by rw [hcnt.2.2.2.2]; exact hlen
  unfold solve
  rw [hac]
  show ∃ t, (if is_fully_assigned s1 then BResult.done true s1
    else backtracking_search nb cfg elapsed timeout 82 s1) = .done true t
  by_cases hfa : is_fully_assigned s1 = true
  · exact ⟨s1, by rw [if_pos hfa]⟩
  · obtain ⟨t, ht⟩ := bt_complete hnb cfg elapsed timeout hquiet sol hsol
      82 s1 hA1 hD1 hP1 hlen1 (by have := unassigned_le_81 s1; omega)
    exact ⟨t, by rw [if_neg hfa]; exact ht⟩

/-- The fully filled grid is its own puzzle's only solution. -/
theorem fullGrid_unique (sol2 : List ℕ) (h : IsSolutionOf fullGrid sol2) :
    sol2 = fullGrid := by
  obtain ⟨⟨hlen2, _, _⟩, hglen, hext⟩ := h
  apply List.ext_getElem (by rw [hlen2, hglen])
  intro i h1 h2
  have hi : i < 81 := by omega
  have hall : ∀ j < 81, fullGrid.getD j 0 ≠ 0 := by decide
  have := hext i hi (hall i hi)
  rw [List.getD_eq_getElem _ _ h2, List.getD_eq_getElem _ _ h1] at this
  exact this.symm

/-- C1 (claim): for every valid grid with a unique solution, `solve` with any
combination of the four heuristic flags only ever reports success with a board
passing `valid_solution`, and when the clock never trips the timeout it does
report success on the solvable grid (so a `solved = false` outcome can only be
due to a timeout). -/
theorem claim_C1_solve_correct (nb : ℕ → List ℕ) (cfg : Config)
    (elapsed : ℕ → ℕ) (timeout : ℕ) (grid sol : List ℕ)
    (hnb : ValidNbrs nb) (hgrid : ValidGrid grid)
    (hsol : IsSolutionOf grid sol)
    (_huniq : ∀ sol2, IsSolutionOf grid sol2 → sol2 = sol) :
    (∀ t, solve nb cfg elapsed timeout (mkGame nb cfg grid) = .done true t →
      valid_solution t = true) ∧
    ((∀ n, timeoutHit elapsed timeout n = false) →
      ∃ t, solve nb cfg elapsed timeout (mkGame nb cfg grid) = .done true t ∧
        valid_solution t = true) := by
  obtain ⟨hA, hD, hP, hlen, hveq⟩ := mkGame_bundle hnb cfg grid sol hsol
  have hc : NoConflicts (mkGame nb cfg grid) :=
    noConflicts_of_values_eq hveq
      ((valid_solution_iff_noConflicts (initState grid)).1 hgrid)
  refine ⟨solve_sound hnb cfg elapsed timeout _ hP hc, fun hquiet => ?_⟩
  obtain ⟨t, ht⟩ := solve_success hnb cfg elapsed timeout hquiet sol hsol.1 _
    hA hD hP hlen
  exact ⟨t, ht, solve_sound hnb cfg elapsed timeout _ hP hc t ht⟩

/-- C1 witness: the hypotheses hold for the canonical neighbour enumeration
and a concrete solved grid, and the solver succeeds on it. -/
theorem claim_C1_solve_correct_witness :
    ValidNbrs sudokuNbrs ∧ ValidGrid fullGrid ∧
      IsSolutionOf fullGrid fullGrid ∧
      (∀ n, timeoutHit (fun _ => 0) 0 n = false) ∧
      ∃ t, solve sudokuNbrs cfgPlain (fun _ => 0) 0
          (mkGame sudokuNbrs cfgPlain fullGrid) = .done true t ∧
        valid_solution t = true :=
  ⟨validNbrs_sudokuNbrs, by unfold ValidGrid; decide,
    by unfold IsSolutionOf ProperSol; decide, fun n => rfl,
    (claim_C1_solve_correct sudokuNbrs cfgPlain (fun _ => 0) 0 fullGrid
      fullGrid validNbrs_sudokuNbrs (by unfold ValidGrid; decide)
      (by unfold IsSolutionOf ProperSol; decide)
      (fun sol2 h => fullGrid_unique sol2 h)).2 (fun n => rfl)⟩

/-- C3 (claim): an AC-3 pass never grows any domain, every value it removes
from a cell's domain is held by a finalized peer of that cell, and the domain
of a finalized cell is never revised. -/
theorem claim_C3_ac3_monotone {nb : ℕ → List ℕ} (hnb : ValidNbrs nb)
    (cfg : Config) (s : GState) (b : Bool) (t : GState)
    (h : ac3 nb cfg s = some (b, t)) :
    (∀ i, (t.cell i).domain.length ≤ (s.cell i).domain.length) ∧
    (∀ i < 81, ∀ v, v ∈ (s.cell i).domain → v ∉ (t.cell i).domain →
      ∃ j, isNbr i j = true ∧ (s.cell j).value = v ∧ (s.cell j).value ≠ 0) ∧
    (∀ i, (s.cell i).value ≠ 0 → (t.cell i).domain = (s.cell i).domain) := by
  have hac2 := h
  unfold ac3 at hac2
  obtain ⟨hveq, hshr, hfro, hrem, hcnt⟩ :=
    ac3Loop_acRel nb cfg _ _ _ _ _ (qok_initialQueue nb s) hac2
  refine ⟨fun i => (hshr i).length_le, ?_, hfro⟩
  intro i hi v hv hnv
  obtain ⟨j, hj, hval, hne⟩ := hrem i v hv hnv
  exact ⟨j, hnb.isNbr_of_mem hi hj, hval, hne⟩

/-- On a board whose domains are all empty, every revision is a no-op and the
worklist loop drains its queue without changing anything. -/
theorem ac3Loop_empty_domains (nb : ℕ → List ℕ) (cfg : Config) :
    ∀ fuel (q : List Arc) (s : GState),
      (∀ i < s.board.length, (s.cell i).domain = []) → q.length < fuel →
      ac3Loop nb cfg fuel q s = some (true, s) := by
  intro fuel
  induction fuel with
  | zero => intro q s _ h; omega
  | succ fuel ih =>
    intro q s hdom hlen
    match q with
    | [] => rfl
    | (i, j) :: q' =>
      have hdall : ∀ k, (s.cell k).domain = [] := by
        intro k
        by_cases hk : k < s.board.length
        · exact hdom k hk
        · rw [cell_of_ge_length s k (by omega)]
          rfl
      have hrev : revise s i j = (false, s) := by
        unfold revise
        by_cases hf : (s.cell i).is_finalized = true
        · rw [if_pos hf]
        · rw [if_neg hf, if_neg ?_]
          rw [Bool.and_eq_true, decide_eq_true_eq]
          intro ⟨_, hmem⟩
          rw [hdall i] at hmem
          cases hmem
      simp only [ac3Loop, hrev]
      exact ih q' s hdom (by simp at hlen ⊢; omega)

/-- `Game.ac3` on a board whose domains are all empty reports success and
changes nothing. -/
theorem ac3_empty_domains (nb : ℕ → List ℕ) (cfg : Config) (s : GState)
    (hdom : ∀ i < s.board.length, (s.cell i).domain = []) :
    ac3 nb cfg s = some (true, s) := by
  apply ac3Loop_empty_domains nb cfg _ _ _ hdom
  rw [ac3Fuel]
  omega

/-- C3 witness: on the board of a fully solved grid AC-3 finishes unchanged,
and the monotonicity conclusion holds there. -/
theorem claim_C3_ac3_monotone_witness :
    ValidNbrs sudokuNbrs ∧
    ac3 sudokuNbrs cfgPlain (initState fullGrid) =
      some (true, initState fullGrid) ∧
    ∀ i, ((initState fullGrid).cell i).domain.length ≤
      ((initState fullGrid).cell i).domain.length := by
  have hrun : ac3 sudokuNbrs cfgPlain (initState fullGrid) =
      some (true, initState fullGrid) :=
    ac3_empty_domains sudokuNbrs cfgPlain (initState fullGrid) (by decide)
  exact ⟨validNbrs_sudokuNbrs, hrun,
    (claim_C3_ac3_monotone validNbrs_sudokuNbrs cfgPlain _ _ _ hrun).1⟩

/-- C9 (claim): AC-3 is a pure domain filter: no cell's value or finalization
status changes, the domain of an initially finalized cell is untouched, and
every domain is rewritten in place to a sublist of itself. -/
theorem claim_C9_ac3_frame (nb : ℕ → List ℕ) (cfg : Config) (s : GState)
    (b : Bool) (t : GState) (h : ac3 nb cfg s = some (b, t)) :
    (∀ i, (t.cell i).value = (s.cell i).value) ∧
    (∀ i, (t.cell i).is_finalized = (s.cell i).is_finalized) ∧
    (∀ i, (s.cell i).value ≠ 0 → (t.cell i).domain = (s.cell i).domain) ∧
    (∀ i, (t.cell i).domain.Sublist (s.cell i).domain) := by
  have hac2 := h
  unfold ac3 at hac2
  obtain ⟨hveq, hshr, hfro, _, _⟩ :=
    ac3Loop_acRel nb cfg _ _ _ _ _ (qok_initialQueue nb s) hac2
  refine ⟨hveq, fun i => ?_, hfro, hshr⟩
  unfold Field.is_finalized
  rw [hveq i]

/-- C9 witness: on a board whose cells are all finalized AC-3 finishes
unchanged, and the value-preservation conclusion holds there. -/
theorem claim_C9_ac3_frame_witness :
    ac3 sudokuNbrs cfgPlain (initState (List.replicate 81 5)) =
      some (true, initState (List.replicate 81 5)) ∧
    ∀ i, ((initState (List.replicate 81 5)).cell i).value =
      ((initState (List.replicate 81 5)).cell i).value := by
  have hrun : ac3 sudokuNbrs cfgPlain (initState (List.replicate 81 5)) =
      some (true, initState (List.replicate 81 5)) :=
    ac3_empty_domains sudokuNbrs cfgPlain _ (by decide)
  exact ⟨hrun, (claim_C9_ac3_frame sudokuNbrs cfgPlain _ _ _ hrun).1⟩

/-- C4 (claim): a revision that empties a domain makes the worklist loop
return failure at once, ignoring every arc still queued, and `solve` turns an
AC-3 failure into an ordinary `solved = false` return (the normal `done`
constructor, not the abort constructor modelling a raised exception). -/
theorem claim_C4_wipeout (nb : ℕ → List ℕ) (cfg : Config) :
    (∀ fuel q s i j, (revise s i j).1 = true →
      ((revise s i j).2.cell i).get_domain_size = 0 →
      ac3Loop nb cfg (fuel + 1) ((i, j) :: q) s =
        some (false, (revise s i j).2)) ∧
    (∀ elapsed timeout s t, ac3 nb cfg s = some (false, t) →
      solve nb cfg elapsed timeout s = .done false t) := by
  constructor
  · intro fuel q s i j hr hd
    simp only [ac3Loop]
    rw [if_pos hr, if_pos hd]
  · intro elapsed timeout s t h
    unfold solve
    rw [h]

/-- C4 witness: a concrete one-arc wipeout aborts the worklist loop with the
rest of the queue untouched, and the enclosing solve on the same state reports
an ordinary failure. -/
theorem claim_C4_wipeout_witness :
    (revise stateC10 0 1).1 = true ∧
    ((revise stateC10 0 1).2.cell 0).get_domain_size = 0 ∧
    ac3 sudokuNbrs cfgPlain stateC10 =
      some (false, { stateC10 with
        board := stateC10.board.set 0 ⟨0, []⟩, domain_reductions := 1 }) ∧
    ac3Loop sudokuNbrs cfgPlain 1 [(0, 1)] stateC10 =
      some (false, (revise stateC10 0 1).2) ∧
    solve sudokuNbrs cfgPlain (fun _ => 0) 0 stateC10 =
      .done false { stateC10 with
        board := stateC10.board.set 0 ⟨0, []⟩, domain_reductions := 1 } := by
  have hr : (revise stateC10 0 1).1 = true := by rfl
  have hd : ((revise stateC10 0 1).2.cell 0).get_domain_size = 0 := by rfl
  have hac : ac3 sudokuNbrs cfgPlain stateC10 =
      some (false, { stateC10 with
        board := stateC10.board.set 0 ⟨0, []⟩, domain_reductions := 1 }) := by
    rfl
  exact ⟨hr, hd, hac,
    (claim_C4_wipeout sudokuNbrs cfgPlain).1 0 [] stateC10 0 1 hr hd,
    (claim_C4_wipeout sudokuNbrs cfgPlain).2 (fun _ => 0) 0 stateC10 _ hac⟩

/-- C6 (claim): on a board of digits, `valid_solution` holds iff each value
1..9 occurs at most once among the filled cells of every row, every column
and every 3x3 box. -/
theorem claim_C6_validate_iff (s : GState)
    (hb : ∀ i < 81, (s.cell i).value ≤ 9) :
    valid_solution s = true ↔ AtMostOncePerUnit s := by
  rw [valid_solution_iff_counts]
  constructor
  · rintro ⟨hr, hc, hbx⟩
    intro v hv1 _
    exact ⟨fun r h9 => hr r h9 v (by omega),
      fun c h9 => hc c h9 v (by omega),
      fun br h3 bc h3b => hbx br h3 bc h3b v (by omega)⟩
  · intro h
    refine ⟨?_, ?_, ?_⟩
    · intro r h9 v hv
      by_cases hv9 : v ≤ 9
      · exact (h v (by omega) hv9).1 r h9
      · have h0 : (rowCells s r).countP (fun f => f.value == v) = 0 := by
          rw [List.countP_eq_zero]
          intro f hf
          rcases List.mem_map.1 hf with ⟨c, hcr, rfl⟩
          rw [List.mem_range] at hcr
          have := hb (9 * r + c) (by omega)
          simp only [beq_iff_eq]
          omega
        omega
    · intro c h9 v hv
      by_cases hv9 : v ≤ 9
      · exact (h v (by omega) hv9).2.1 c h9
      · have h0 : (colCells s c).countP (fun f => f.value == v) = 0 := by
          rw [List.countP_eq_zero]
          intro f hf
          rcases List.mem_map.1 hf with ⟨r, hrr, rfl⟩
          rw [List.mem_range] at hrr
          have := hb (9 * r + c) (by omega)
          simp only [beq_iff_eq]
          omega
        omega
    · intro br h3 bc h3b v hv
      by_cases hv9 : v ≤ 9
      · exact (h v (by omega) hv9).2.2 br h3 bc h3b
      · have h0 : (boxCells s br bc).countP (fun f => f.value == v) = 0 := by
          rw [List.countP_eq_zero]
          intro f hf
          rcases List.mem_flatMap.1 hf with ⟨r, hrr, hfm⟩
          rcases List.mem_map.1 hfm with ⟨c, hcc, rfl⟩
          rw [List.mem_range] at hrr hcc
          have := hb (9 * (3 * br + r) + (3 * bc + c)) (by omega)
          simp only [beq_iff_eq]
          omega
        omega

/-- C6 witness: the validity test on a concrete solved board agrees with the
at-most-once counting property. -/
theorem claim_C6_validate_iff_witness :
    (∀ i < 81, ((initState fullGrid).cell i).value ≤ 9) ∧
    (valid_solution (initState fullGrid) = true ↔
      AtMostOncePerUnit (initState fullGrid)) :=
  ⟨by decide, claim_C6_validate_iff (initState fullGrid) (by decide)⟩

theorem initState_empty_cells (grid : List ℕ) :
    (initState grid).empty_cells = grid.countP (fun v => v == 0) := by
  show (mkBoard grid).countP (fun f => !(f.is_finalized)) =
    grid.countP (fun v => v == 0)
  unfold mkBoard
  rw [List.countP_map]
  apply List.countP_congr
  intro v _
  unfold Function.comp mkField Field.is_finalized
  by_cases hv : v = 0
  · subst hv
    rfl
  · rw [if_neg hv]
    simp [hv]

/-- The search never touches the empty-cell counter frozen at `Game.__init__`:
whatever `solve` returns carries it unchanged. -/
theorem solve_state_empty_cells (nb : ℕ → List ℕ) (cfg : Config)
    (elapsed : ℕ → ℕ) (timeout : ℕ) (s : GState) :
    ((solve nb cfg elapsed timeout s).state).empty_cells = s.empty_cells := by
  unfold solve
  rcases hac : ac3 nb cfg s with _ | ⟨b, s1⟩
  · rfl
  · have hac2 := hac
    unfold ac3 at hac2
    obtain ⟨_, _, _, _, hcnt⟩ :=
      ac3Loop_acRel nb cfg _ _ _ _ _ (qok_initialQueue nb s) hac2
    have hec : s1.empty_cells = s.empty_cells := hcnt.2.2.2.1
    rcases b with _ | _
    · exact hec
    · show ((if is_fully_assigned s1 then BResult.done true s1
        else backtracking_search nb cfg elapsed timeout 82 s1).state).empty_cells
          = s.empty_cells
      by_cases hfa : is_fully_assigned s1 = true
      · rw [if_pos hfa]
        exact hec
      · rw [if_neg hfa]
        rw [(bt_frame nb cfg elapsed timeout 82 s1).2.1]
        exact hec

/-- C8 (claim): the result record of `App.solve_sudoku` reports the number of
blanks of the initial grid unchanged; its complexity field is the exact
quotient of constraint checks by that number whenever the grid had a blank,
and is the "N/A" marker (`none`) when the grid was fully filled, so the
division is guarded against a zero denominator on the solve result path. -/
theorem claim_C8_complexity_guard (nb : ℕ → List ℕ) (cfg : Config)
    (elapsed : ℕ → ℕ) (wall : ℕ) (grid : List ℕ) :
    (solve_sudoku nb cfg elapsed wall grid).empty_cells =
      grid.countP (fun v => v == 0) ∧
    (0 < grid.countP (fun v => v == 0) →
      (solve_sudoku nb cfg elapsed wall grid).complexity =
        some (((solve_sudoku nb cfg elapsed wall grid).constraint_checks : ℚ) /
          (grid.countP (fun v => v == 0) : ℚ))) ∧
    (grid.countP (fun v => v == 0) = 0 →
      (solve_sudoku nb cfg elapsed wall grid).complexity = none) := by
  have hec0 := solve_state_empty_cells nb cfg elapsed 20
    (mkGame nb { cfg with enable_preprocessing := false } grid)
  cases hsr : solve nb cfg elapsed 20
      (mkGame nb { cfg with enable_preprocessing := false } grid) with
  | done b t =>
    rw [hsr] at hec0
    have hec : t.empty_cells = grid.countP (fun v => v == 0) := by
      rw [show (mkGame nb { cfg with enable_preprocessing := false }
          grid).empty_cells = (initState grid).empty_cells from rfl,
        initState_empty_cells] at hec0
      exact hec0
    have hr : solve_sudoku nb cfg elapsed wall grid =
        { solved := if wall > 20 then false else b,
          empty_cells := t.empty_cells,
          constraint_checks := t.constraint_checks,
          complexity := if t.empty_cells > 0 then
            some ((t.constraint_checks : ℚ) / (t.empty_cells : ℚ))
          else none } := by
      simp only [solve_sudoku, hsr]
    rw [hr]
    refine ⟨hec, fun hpos => ?_, fun hzero => ?_⟩
    · show (if t.empty_cells > 0 then
          some ((t.constraint_checks : ℚ) / (t.empty_cells : ℚ))
        else none) = _
      rw [if_pos (by omega), hec]
    · show (if t.empty_cells > 0 then
          some ((t.constraint_checks : ℚ) / (t.empty_cells : ℚ))
        else none) = none
      rw [if_neg (by omega)]
  | timedOut t =>
    rw [hsr] at hec0
    have hec : t.empty_cells = grid.countP (fun v => v == 0) := by
      rw [show (mkGame nb { cfg with enable_preprocessing := false }
          grid).empty_cells = (initState grid).empty_cells from rfl,
        initState_empty_cells] at hec0
      exact hec0
    have hr : solve_sudoku nb cfg elapsed wall grid =
        { solved := if wall > 20 then false else false,
          empty_cells := t.empty_cells,
          constraint_checks := t.constraint_checks,
          complexity := if t.empty_cells > 0 then
            some ((t.constraint_checks : ℚ) / (t.empty_cells : ℚ))
          else none } := by
      simp only [solve_sudoku, hsr]
    rw [hr]
    refine ⟨hec, fun hpos => ?_, fun hzero => ?_⟩
    · show (if t.empty_cells > 0 then
          some ((t.constraint_checks : ℚ) / (t.empty_cells : ℚ))
        else none) = _
      rw [if_pos (by omega), hec]
    · show (if t.empty_cells > 0 then
          some ((t.constraint_checks : ℚ) / (t.empty_cells : ℚ))
        else none) = none
      rw [if_neg (by omega)]

/-- C8 witness: on a grid with no blank cell the record reports the "N/A"
marker instead of dividing by zero. -/
theorem claim_C8_complexity_guard_witness :
    fullGrid.countP (fun v => v == 0) = 0 ∧
    (solve_sudoku (fun _ => []) cfgPlain (fun _ => 0) 0 fullGrid).complexity =
      none :=
  ⟨by decide,
    (claim_C8_complexity_guard (fun _ => []) cfgPlain (fun _ => 0) 0
      fullGrid).2.2 (by decide)⟩

/-- C5 (amended): the deadline is polled on entry of every recursive search
call, right after the `recursive_calls` increment; a timeout outcome of a
deeper call propagates through the value loop unchanged, carrying the exact
abort-point state and therefore every counter accumulated up to the abort;
and a timed-out solve makes `App.solve_sudoku` report `solved = false`
together with the empty-cell and constraint-check counters of the abort
state. Those two are the only counters the result record returns: the
counterexample shows `recursive_calls` and `assignments` are not recoverable
from it. -/
theorem claim_C5_timeout_abort (nb : ℕ → List ℕ) (cfg : Config)
    (elapsed : ℕ → ℕ) (timeout : ℕ) :
    (∀ fuel s, timeoutHit elapsed timeout (s.recursive_calls + 1) = true →
      backtracking_search nb cfg elapsed timeout (fuel + 1) s =
        .timedOut { s with recursive_calls := s.recursive_calls + 1 }) ∧
    (∀ recur field vs s t, tryValues nb recur field vs s = .timedOut t →
      ∃ u, recur u = .timedOut t) ∧
    (∀ wall grid t,
      solve nb cfg elapsed 20
          (mkGame nb { cfg with enable_preprocessing := false } grid) =
        .timedOut t →
      solve_sudoku nb cfg elapsed wall grid =
        { solved := false, empty_cells := t.empty_cells,
          constraint_checks := t.constraint_checks,
          complexity := if t.empty_cells > 0 then
            some ((t.constraint_checks : ℚ) / (t.empty_cells : ℚ))
          else none }) := by
  refine ⟨?_, ?_, ?_⟩
  · intro fuel s h
    have h2 : timeoutHit elapsed timeout
        ({ s with recursive_calls := s.recursive_calls + 1 } :
          GState).recursive_calls = true := h
    simp only [backtracking_search]
    rw [if_pos h2]
  · intro recur field vs
    induction vs with
    | nil =>
      intro s t h
      simp [tryValues] at h
    | cons v vs ih =>
      intro s t h
      simp only [tryValues] at h
      by_cases hic : (is_consistent nb
          { s with constraint_checks := s.constraint_checks + 1 }
          field v).1 = true
      · rw [if_pos hic] at h
        split at h
        · simp at h
        · exact ih _ _ h
        · rename_i s3 heq
          injection h with h1
          rw [h1] at heq
          exact ⟨_, heq⟩
      · rw [if_neg hic] at h
        exact ih _ _ h
  · intro wall grid t h
    simp only [solve_sudoku, h, gt_iff_lt, ite_self]

/-- C5 witness: a clock past the deadline aborts a concrete search at entry
with the counters at the abort point; a timeout from the recursion propagates
out of the value loop; and the record of a timed-out solve reports failure
with the abort-point counters. -/
theorem claim_C5_timeout_abort_witness :
    timeoutHit (fun _ => 25) 20
      ((initState gridOneBlank).recursive_calls + 1) = true ∧
    backtracking_search (fun _ => []) cfgPlain (fun _ => 25) 20 1
        (initState gridOneBlank) =
      .timedOut { initState gridOneBlank with
        recursive_calls := (initState gridOneBlank).recursive_calls + 1 } ∧
    tryValues (fun _ => []) (fun u => BResult.timedOut u) 0 [1]
        ⟨[⟨0, [1]⟩], 0, 0, 0, 0, 1⟩ =
      .timedOut ⟨[⟨1, [1]⟩], 0, 1, 0, 1, 1⟩ ∧
    (∃ u, BResult.timedOut u =
      BResult.timedOut (⟨[⟨1, [1]⟩], 0, 1, 0, 1, 1⟩ : GState)) ∧
    solve (fun _ => []) cfgPlain (fun _ => 25) 20
        (mkGame (fun _ => []) { cfgPlain with enable_preprocessing := false }
          gridOneBlank) =
      .timedOut { initState gridOneBlank with recursive_calls := 1 } ∧
    solve_sudoku (fun _ => []) cfgPlain (fun _ => 25) 0 gridOneBlank =
      { solved := false,
        empty_cells := ({ initState gridOneBlank with
          recursive_calls := 1 } : GState).empty_cells,
        constraint_checks := ({ initState gridOneBlank with
          recursive_calls := 1 } : GState).constraint_checks,
        complexity := if ({ initState gridOneBlank with
            recursive_calls := 1 } : GState).empty_cells > 0 then
          some ((({ initState gridOneBlank with
              recursive_calls := 1 } : GState).constraint_checks : ℚ) /
            (({ initState gridOneBlank with
              recursive_calls := 1 } : GState).empty_cells : ℚ))
        else none } := by
  have hpoll : timeoutHit (fun _ => 25) 20
      ((initState gridOneBlank).recursive_calls + 1) = true := rfl
  have htv : tryValues (fun _ => []) (fun u => BResult.timedOut u) 0 [1]
      ⟨[⟨0, [1]⟩], 0, 0, 0, 0, 1⟩ =
      .timedOut ⟨[⟨1, [1]⟩], 0, 1, 0, 1, 1⟩ := rfl
  have hsolve : solve (fun _ => []) cfgPlain (fun _ => 25) 20
      (mkGame (fun _ => []) { cfgPlain with enable_preprocessing := false }
        gridOneBlank) =
      .timedOut { initState gridOneBlank with recursive_calls := 1 } := rfl
  refine ⟨hpoll,
    (claim_C5_timeout_abort (fun _ => []) cfgPlain (fun _ => 25) 20).1 0
      (initState gridOneBlank) hpoll,
    htv,
    (claim_C5_timeout_abort (fun _ => []) cfgPlain (fun _ => 25) 20).2.1
      (fun u => BResult.timedOut u) 0 [1] _ _ htv,
    hsolve,
    (claim_C5_timeout_abort (fun _ => []) cfgPlain (fun _ => 25) 20).2.2 0
      gridOneBlank _ hsolve⟩

/-- What `App.solve_sudoku` builds out of a timed-out solve: failure plus the
abort state's empty-cell and constraint-check counters. -/
theorem solve_sudoku_timedOut (nb : ℕ → List ℕ) (cfg : Config)
    (elapsed : ℕ → ℕ) (wall : ℕ) (grid : List ℕ) (t : GState)
    (h : solve nb cfg elapsed 20
      (mkGame nb { cfg with enable_preprocessing := false } grid) =
      .timedOut t) :
    solve_sudoku nb cfg elapsed wall grid =
      { solved := false, empty_cells := t.empty_cells,
        constraint_checks := t.constraint_checks,
        complexity := if t.empty_cells > 0 then
          some ((t.constraint_checks : ℚ) / (t.empty_cells : ℚ))
        else none } := by
  simp only [solve_sudoku, h, gt_iff_lt, ite_self]

/-- C5 counterexample: the result record does not return `recursive_calls`,
`domain_reductions` or `assignments`: two timed-out runs whose abort states
differ in recursive_calls (3 against 2) and assignments (2 against 1) return
records that are equal, so neither counter is recoverable from what
`App.solve_sudoku` returns (only `constraint_checks` and `empty_cells` are). -/
theorem claim_C5_timeout_abort_counterexample :
    solve_sudoku nbC5 cfgPlain elapsedC5a 0 gridTwoBlank17 =
      solve_sudoku nbC5 cfgPlain elapsedC5b 0 gridC5b ∧
    solve nbC5 cfgPlain elapsedC5a 20
        (mkGame nbC5 { cfgPlain with enable_preprocessing := false }
          gridTwoBlank17) =
      .timedOut ((solve nbC5 cfgPlain elapsedC5a 20
        (mkGame nbC5 { cfgPlain with enable_preprocessing := false }
          gridTwoBlank17)).state) ∧
    solve nbC5 cfgPlain elapsedC5b 20
        (mkGame nbC5 { cfgPlain with enable_preprocessing := false }
          gridC5b) =
      .timedOut ((solve nbC5 cfgPlain elapsedC5b 20
        (mkGame nbC5 { cfgPlain with enable_preprocessing := false }
          gridC5b)).state) ∧
    ((solve nbC5 cfgPlain elapsedC5a 20
      (mkGame nbC5 { cfgPlain with enable_preprocessing := false }
        gridTwoBlank17)).state).recursive_calls = 3 ∧
    ((solve nbC5 cfgPlain elapsedC5b 20
      (mkGame nbC5 { cfgPlain with enable_preprocessing := false }
        gridC5b)).state).recursive_calls = 2 ∧
    ((solve nbC5 cfgPlain elapsedC5a 20
      (mkGame nbC5 { cfgPlain with enable_preprocessing := false }
        gridTwoBlank17)).state).assignments = 2 ∧
    ((solve nbC5 cfgPlain elapsedC5b 20
      (mkGame nbC5 { cfgPlain with enable_preprocessing := false }
        gridC5b)).state).assignments = 1 := by
  have hA : solve nbC5 cfgPlain elapsedC5a 20
      (mkGame nbC5 { cfgPlain with enable_preprocessing := false }
        gridTwoBlank17) =
      .timedOut ((solve nbC5 cfgPlain elapsedC5a 20
        (mkGame nbC5 { cfgPlain with enable_preprocessing := false }
          gridTwoBlank17)).state) := by decide
  have hB : solve nbC5 cfgPlain elapsedC5b 20
      (mkGame nbC5 { cfgPlain with enable_preprocessing := false }
        gridC5b) =
      .timedOut ((solve nbC5 cfgPlain elapsedC5b 20
        (mkGame nbC5 { cfgPlain with enable_preprocessing := false }
          gridC5b)).state) := by decide
  have hrA := solve_sudoku_timedOut nbC5 cfgPlain elapsedC5a 0
    gridTwoBlank17 _ hA
  have hrB := solve_sudoku_timedOut nbC5 cfgPlain elapsedC5b 0 gridC5b _ hB
  refine ⟨?_, hA, hB, by decide, by decide, by decide, by decide⟩
  rw [hrA, hrB]
  have hcc : ((solve nbC5 cfgPlain elapsedC5a 20
      (mkGame nbC5 { cfgPlain with enable_preprocessing := false }
        gridTwoBlank17)).state).constraint_checks =
      ((solve nbC5 cfgPlain elapsedC5b 20
        (mkGame nbC5 { cfgPlain with enable_preprocessing := false }
          gridC5b)).state).constraint_checks := by decide
  have hec : ((solve nbC5 cfgPlain elapsedC5a 20
      (mkGame nbC5 { cfgPlain with enable_preprocessing := false }
        gridTwoBlank17)).state).empty_cells =
      ((solve nbC5 cfgPlain elapsedC5b 20
        (mkGame nbC5 { cfgPlain with enable_preprocessing := false }
          gridC5b)).state).empty_cells := by decide
  rw [hcc, hec]

/-- C2 counterexample: with only the degree-for-backtracking flag on, the
branch cell is chosen among the cells tied with the FIRST unassigned cell's
domain size, not among the minimum-domain cells: here cell 0 (domain size 2)
is picked although the only minimum-domain unassigned cell is cell 1
(size 1) — no MRV pass runs first. -/
theorem claim_C2_degree_selection_counterexample :
    get_unassigned_fields stateC2 = [0, 1] ∧
    selectField sudokuNbrs cfgDegreeBt stateC2
      (get_unassigned_fields stateC2) = 0 ∧
    minDomainCells stateC2 (get_unassigned_fields stateC2) = [1] ∧
    selectField sudokuNbrs cfgDegreeBt stateC2 (get_unassigned_fields stateC2)
      ∉ minDomainCells stateC2 (get_unassigned_fields stateC2) :=
  ⟨by decide, by decide, by decide, by decide⟩

/-- C2 (amended): with the degree heuristic for backtracking enabled, the
candidate set is keyed off the domain size of the base field — the first
unassigned cell by default, the MRV pick only when MRV-for-backtracking is
itself enabled (no MRV pass runs otherwise). Among the candidates the first
cell with the most unfinalized neighbours is picked. Only when MRV is also on
are the candidates exactly the minimum-domain unassigned cells. -/
theorem claim_C2_degree_selection_amended (nb : ℕ → List ℕ) (cfg : Config)
    (s : GState) (unassigned : List ℕ) (hne : unassigned ≠ [])
    (hdeg : cfg.use_degree_backtracking = true)
    (base : ℕ) (candidates : List ℕ)
    (hbase : base = if cfg.use_mrv_backtracking then
        pyMinBy (fun f => (s.cell f).get_domain_size) unassigned
      else unassigned.headD 0)
    (hcand : candidates = unassigned.filter (fun f =>
        (s.cell f).get_domain_size == (s.cell base).get_domain_size)) :
    selectField nb cfg s unassigned ∈ candidates ∧
    (∀ g ∈ candidates, unfinalizedNbrCount nb s g ≤
      unfinalizedNbrCount nb s (selectField nb cfg s unassigned)) ∧
    (∃ l1 l2, candidates = l1 ++ selectField nb cfg s unassigned :: l2 ∧
      ∀ y ∈ l1, unfinalizedNbrCount nb s y <
        unfinalizedNbrCount nb s (selectField nb cfg s unassigned)) ∧
    (cfg.use_mrv_backtracking = true →
      candidates = minDomainCells s unassigned) := by
  have hbm : base ∈ unassigned := by
    rw [hbase]
    split
    · exact pyMinBy_mem _ _ hne
    · exact headD_mem _ hne
  have hbc : base ∈ candidates := by
    rw [hcand, List.mem_filter]
    refine ⟨hbm, ?_⟩
    rw [beq_iff_eq]
  have hcne : candidates ≠ [] := List.ne_nil_of_mem hbc
  have hsf : selectField nb cfg s unassigned =
      pyMaxBy (unfinalizedNbrCount nb s) candidates := by
    unfold selectField
    rw [hdeg]
    rw [if_pos rfl, hcand, hbase]
  rw [hsf]
  refine ⟨pyMaxBy_mem _ _ hcne, pyMaxBy_le _ _ hcne, ?_, ?_⟩
  · obtain ⟨l1, l2, heq, hpre, _⟩ :=
      pyMaxBy_decomp (unfinalizedNbrCount nb s) candidates hcne
    exact ⟨l1, l2, heq, hpre⟩
  · intro hmrv
    rw [hcand, hbase, hmrv, if_pos rfl]
    unfold minDomainCells
    apply List.filter_congr
    intro f hf
    rw [Bool.eq_iff_iff, beq_iff_eq, decide_eq_true_iff]
    constructor
    · intro hfe g hg
      rw [hfe]
      exact pyMinBy_le (fun f => (s.cell f).get_domain_size) unassigned hne g hg
    · intro hall
      have hle : (s.cell (pyMinBy (fun f => (s.cell f).get_domain_size)
          unassigned)).get_domain_size ≤ (s.cell f).get_domain_size :=
        pyMinBy_le (fun f => (s.cell f).get_domain_size) unassigned hne f hf
      have hge : (s.cell f).get_domain_size ≤
          (s.cell (pyMinBy (fun f => (s.cell f).get_domain_size)
            unassigned)).get_domain_size :=
        hall _ (pyMinBy_mem (fun f => (s.cell f).get_domain_size)
          unassigned hne)
      omega

/-- C2 amended witness: the amended characterization instantiated at the
counterexample state, where the base field is the first unassigned cell. -/
theorem claim_C2_degree_selection_amended_witness :
    ([0, 1] : List ℕ) ≠ [] ∧
    cfgDegreeBt.use_degree_backtracking = true ∧
    (0 : ℕ) = (if cfgDegreeBt.use_mrv_backtracking then
      pyMinBy (fun f => (stateC2.cell f).get_domain_size) [0, 1]
    else ([0, 1] : List ℕ).headD 0) ∧
    ([0] : List ℕ) = ([0, 1] : List ℕ).filter (fun f =>
      (stateC2.cell f).get_domain_size == (stateC2.cell 0).get_domain_size) ∧
    selectField sudokuNbrs cfgDegreeBt stateC2 [0, 1] ∈ ([0] : List ℕ) := by
  have h := claim_C2_degree_selection_amended sudokuNbrs cfgDegreeBt stateC2
    [0, 1] (by decide) (by decide) 0 [0] (by decide) (by decide)
  exact ⟨by decide, by decide, by decide, by decide, h.1⟩

/-- On a board where no cell's value occurs in any cell's domain, every
revision is a no-op and the worklist loop drains its queue unchanged. -/
theorem ac3Loop_no_revision (nb : ℕ → List ℕ) (cfg : Config) :
    ∀ fuel (q : List Arc) (s : GState),
      (∀ i < s.board.length, 0 ∉ (s.cell i).domain ∧
        ∀ j < s.board.length, (s.cell j).value ∉ (s.cell i).domain) →
      q.length < fuel → ac3Loop nb cfg fuel q s = some (true, s) := by
  intro fuel
  induction fuel with
  | zero => intro q s _ h; omega
  | succ fuel ih =>
    intro q s hyp hlen
    match q with
    | [] => rfl
    | (i, j) :: q' =>
      have hmem : ∀ a b : ℕ, (s.cell b).value ∉ (s.cell a).domain := by
        intro a b
        by_cases ha : a < s.board.length
        · by_cases hb : b < s.board.length
          · exact (hyp a ha).2 b hb
          · rw [cell_of_ge_length s b (by omega)]
            exact (hyp a ha).1
        · rw [cell_of_ge_length s a (by omega)]
          exact List.not_mem_nil _
      have hrev : revise s i j = (false, s) := by
        unfold revise
        by_cases hf : (s.cell i).is_finalized = true
        · rw [if_pos hf]
        · rw [if_neg hf, if_neg ?_]
          rw [Bool.and_eq_true, decide_eq_true_eq]
          intro ⟨_, hm⟩
          exact hmem i j hm
      simp only [ac3Loop, hrev]
      exact ih q' s hyp (by simp at hlen ⊢; omega)

/-- `Game.ac3` on a board where no value can be removed reports success and
changes nothing. -/
theorem ac3_no_revision (nb : ℕ → List ℕ) (cfg : Config) (s : GState)
    (hyp : ∀ i < s.board.length, 0 ∉ (s.cell i).domain ∧
      ∀ j < s.board.length, (s.cell j).value ∉ (s.cell i).domain) :
    ac3 nb cfg s = some (true, s) := by
  apply ac3Loop_no_revision nb cfg _ _ _ hyp
  rw [ac3Fuel]
  omega

/-- C7 counterexample: with every flag fixed, two runs of `solve` on
independently built copies of the same grid can end with different
`constraint_checks`: the neighbour lists come from `list(set(...))`, whose
order Python leaves unspecified, and the short-circuiting scan of
`is_consistent` counts a different number of checks under the two orders
44 against 63 (the solved flag agrees here). -/
theorem claim_C7_determinism_counterexample :
    ValidNbrs sudokuNbrs ∧ ValidNbrs nbAlt ∧
    (solve sudokuNbrs cfgPlain (fun _ => 0) 0
      (mkGame sudokuNbrs cfgPlain gridTwoBlank17)).state.constraint_checks
      = 44 ∧
    (solve nbAlt cfgPlain (fun _ => 0) 0
      (mkGame nbAlt cfgPlain gridTwoBlank17)).state.constraint_checks = 63 := by
  have hyp : ∀ i < (initState gridTwoBlank17).board.length,
      0 ∉ ((initState gridTwoBlank17).cell i).domain ∧
      ∀ j < (initState gridTwoBlank17).board.length,
        ((initState gridTwoBlank17).cell j).value ∉
          ((initState gridTwoBlank17).cell i).domain := by decide
  have hs1 : solve sudokuNbrs cfgPlain (fun _ => 0) 0
      (mkGame sudokuNbrs cfgPlain gridTwoBlank17) =
      backtracking_search sudokuNbrs cfgPlain (fun _ => 0) 0 82
        (initState gridTwoBlank17) := by
    show solve sudokuNbrs cfgPlain (fun _ => 0) 0
      (initState gridTwoBlank17) = _
    unfold solve
    rw [ac3_no_revision sudokuNbrs cfgPlain _ hyp]
    show (if is_fully_assigned (initState gridTwoBlank17) then
      BResult.done true (initState gridTwoBlank17)
      else backtracking_search sudokuNbrs cfgPlain (fun _ => 0) 0 82
        (initState gridTwoBlank17)) = _
    rw [if_neg (by decide)]
  have hs2 : solve nbAlt cfgPlain (fun _ => 0) 0
      (mkGame nbAlt cfgPlain gridTwoBlank17) =
      backtracking_search nbAlt cfgPlain (fun _ => 0) 0 82
        (initState gridTwoBlank17) := by
    show solve nbAlt cfgPlain (fun _ => 0) 0 (initState gridTwoBlank17) = _
    unfold solve
    rw [ac3_no_revision nbAlt cfgPlain _ hyp]
    show (if is_fully_assigned (initState gridTwoBlank17) then
      BResult.done true (initState gridTwoBlank17)
      else backtracking_search nbAlt cfgPlain (fun _ => 0) 0 82
        (initState gridTwoBlank17)) = _
    rw [if_neg (by decide)]
  refine ⟨validNbrs_sudokuNbrs, by unfold ValidNbrs; decide, ?_, ?_⟩
  · rw [hs1]
    decide
  · rw [hs2]
    decide

/-- C7 (amended): the hidden input behind the "independent copies" is the
neighbour-list order; for any two valid enumerations (the possible outcomes
of the unordered set construction) a quiet-clock run on a solvable grid ends
with the same solved flag, namely success on both — while the
constraint-check counter is genuinely order-dependent, as the counterexample
shows. -/
theorem claim_C7_determinism_amended (nb1 nb2 : ℕ → List ℕ) (cfg : Config)
    (elapsed1 elapsed2 : ℕ → ℕ) (timeout1 timeout2 : ℕ) (grid sol : List ℕ)
    (h1 : ValidNbrs nb1) (h2 : ValidNbrs nb2)
    (hsol : IsSolutionOf grid sol)
    (hq1 : ∀ n, timeoutHit elapsed1 timeout1 n = false)
    (hq2 : ∀ n, timeoutHit elapsed2 timeout2 n = false) :
    ∃ t1 t2,
      solve nb1 cfg elapsed1 timeout1 (mkGame nb1 cfg grid) = .done true t1 ∧
      solve nb2 cfg elapsed2 timeout2 (mkGame nb2 cfg grid) = .done true t2 := by
  obtain ⟨hA1, hD1, hP1, hl1, _⟩ := mkGame_bundle h1 cfg grid sol hsol
  obtain ⟨hA2, hD2, hP2, hl2, _⟩ := mkGame_bundle h2 cfg grid sol hsol
  obtain ⟨t1, ht1⟩ := solve_success h1 cfg elapsed1 timeout1 hq1 sol hsol.1 _
    hA1 hD1 hP1 hl1
  obtain ⟨t2, ht2⟩ := solve_success h2 cfg elapsed2 timeout2 hq2 sol hsol.1 _
    hA2 hD2 hP2 hl2
  exact ⟨t1, t2, ht1, ht2⟩

/-- C7 amended witness: both the canonical enumeration and the variant order
solve a concrete grid successfully on a quiet clock. -/
theorem claim_C7_determinism_amended_witness :
    ValidNbrs sudokuNbrs ∧ ValidNbrs nbAlt ∧
    IsSolutionOf fullGrid fullGrid ∧
    (∀ n, timeoutHit (fun _ => 0) 0 n = false) ∧
    ∃ t1 t2,
      solve sudokuNbrs cfgPlain (fun _ => 0) 0
        (mkGame sudokuNbrs cfgPlain fullGrid) = .done true t1 ∧
      solve nbAlt cfgPlain (fun _ => 0) 0
        (mkGame nbAlt cfgPlain fullGrid) = .done true t2 := by
  have hv2 : ValidNbrs nbAlt := by unfold ValidNbrs; decide
  exact ⟨validNbrs_sudokuNbrs, hv2, by unfold IsSolutionOf ProperSol; decide,
    fun n => rfl,
    claim_C7_determinism_amended sudokuNbrs nbAlt cfgPlain (fun _ => 0)
      (fun _ => 0) 0 0 fullGrid fullGrid validNbrs_sudokuNbrs hv2
      (by unfold IsSolutionOf ProperSol; decide) (fun n => rfl) (fun n => rfl)⟩

/-- C10 counterexample: an early wipeout aborts `ac3` with the remaining
domains unfiltered, so an aborted run's final domains can differ from the
one-shot preprocessing pass: here the aborted run leaves cell 80's domain as
[7] while preprocessing empties it (its finalized neighbour 79 holds 7). -/
theorem claim_C10_ac3_vs_preprocess_counterexample :
    ∃ t, ac3 sudokuNbrs cfgPlain stateC10 = some (false, t) ∧
      (t.cell 80).domain = [7] ∧
      ((preprocess_constraints sudokuNbrs stateC10).cell 80).domain = [] :=
  ⟨(revise stateC10 0 1).2, rfl, by decide, by decide⟩

/-- C10 (amended): a completed AC-3 run leaves exactly the domains the
one-shot preprocessing pass computes, and the pass fails exactly when some
unfinalized cell with a nonempty domain has its whole domain held by
finalized peers (equivalently, preprocessing would empty it); an aborted run,
however, may leave the other domains unfiltered, and a cell whose domain was
already empty before the pass never triggers a failure. -/
theorem claim_C10_ac3_vs_preprocess {nb : ℕ → List ℕ} (hnb : ValidNbrs nb)
    (cfg : Config) (s : GState) (hlen : s.board.length = 81) :
    (∀ t, ac3 nb cfg s = some (true, t) → ∀ i < 81,
      (t.cell i).domain = ((preprocess_constraints nb s).cell i).domain) ∧
    ((∃ t, ac3 nb cfg s = some (false, t)) ↔
      ∃ i < 81, (s.cell i).value = 0 ∧ (s.cell i).domain ≠ [] ∧
        ((preprocess_constraints nb s).cell i).domain = []) := by
  have hppd := (preprocess_constraints_spec nb s).2.1
  constructor
  · intro t h i hi
    rw [ac3_true_domains nb cfg h hi, hppd i]
    by_cases hv : (s.cell i).value = 0
    · rw [if_neg (by simp [hv]), if_pos hv]
      apply List.filter_congr
      intro v _
      rw [revExcludedB_eq_nbrExcludedB hnb s hi v]
    · rw [if_pos hv, if_neg hv]
  · constructor
    · rintro ⟨t, hac⟩
      have hac2 := hac
      unfold ac3 at hac2
      obtain ⟨i, hil, hv0, hdne, hte⟩ :=
        ac3Loop_false_wipeout nb cfg _ _ _ _ hac2
      obtain ⟨_, _, _, hrem, _⟩ :=
        ac3Loop_acRel nb cfg _ _ _ _ _ (qok_initialQueue nb s) hac2
      have hi81 : i < 81 := by omega
      refine ⟨i, hi81, hv0, hdne, ?_⟩
      rw [hppd i, if_pos hv0, List.filter_eq_nil_iff]
      intro v hv
      have hnin : v ∉ (t.cell i).domain := by
        rw [hte]
        exact List.not_mem_nil _
      obtain ⟨j, hj, hval, hne⟩ := hrem i v hv hnin
      have hrevt : revExcludedB nb s i v = true := by
        rw [revExcludedB_eq_nbrExcludedB hnb s hi81 v]
        unfold nbrExcludedB
        rw [List.any_eq_true]
        refine ⟨j, hj, ?_⟩
        rw [Bool.and_eq_true, beq_iff_eq]
        exact ⟨hval, by simp [hne]⟩
      simp [hrevt]
    · rintro ⟨i, hi81, hv0, hdne, hppe⟩
      have hsome := ac3_isSome nb cfg s (fun k hk => hnb.length_le hk)
        (by omega)
      obtain ⟨⟨b, t⟩, hac⟩ := Option.isSome_iff_exists.1 hsome
      rcases b with _ | _
      · exact ⟨t, hac⟩
      · exfalso
        have hfeq : (s.cell i).domain.filter
            (fun v => !nbrExcludedB nb s i v) =
            (s.cell i).domain.filter (fun v => !revExcludedB nb s i v) :=
          List.filter_congr (fun v _ => by
            rw [revExcludedB_eq_nbrExcludedB hnb s hi81 v])
        have hac2 := hac
        unfold ac3 at hac2
        apply ac3Loop_true_nonempty nb cfg _ _ _ _ hac2 i hdne
        rw [ac3_true_domains nb cfg hac hi81, if_neg (by simp [hv0]), hfeq]
        rw [hppd i, if_pos hv0] at hppe
        exact hppe

/-- C10 amended witness: on a concrete wipeout grid, the unfinalized cell 0
has a nonempty domain that preprocessing empties, so AC-3 fails on it. -/
theorem claim_C10_ac3_vs_preprocess_witness :
    ValidNbrs sudokuNbrs ∧ (initState gridWipeout).board.length = 81 ∧
    ((initState gridWipeout).cell 0).value = 0 ∧
    ((initState gridWipeout).cell 0).domain ≠ [] ∧
    ((preprocess_constraints sudokuNbrs
      (initState gridWipeout)).cell 0).domain = [] ∧
    ∃ t, ac3 sudokuNbrs cfgPlain (initState gridWipeout) = some (false, t) := by
  have h5 : ((preprocess_constraints sudokuNbrs
      (initState gridWipeout)).cell 0).domain = [] := by decide
  refine ⟨validNbrs_sudokuNbrs, by decide, by decide, by decide, h5,
    (claim_C10_ac3_vs_preprocess validNbrs_sudokuNbrs cfgPlain
      (initState gridWipeout) (by decide)).2.mpr
      ⟨0, by decide, by decide, by decide, h5⟩⟩

end SudokuCSP
